import Mathlib

/-!
# Typed pipeline framework (code/pipeline/recipe-04/simple_pipeline.hpp)

A shallow embedding of the Simple worker stages, the composite filter and the
pipeline builder.  Worker threads are embedded as program counters stepped by
an explicit schedule; channels live in a heap indexed by allocation order.
The single-type pipeline of recipe-02 and `recvall` of the socket recipe follow
the recipe-04 definitions.
-/

namespace Pipeline04

/-- Runtime tag of an element type, as remembered by the type-erased container
holding the boundary channels. -/
abbrev Ty := Nat

/-- Modelled from the spec: the Channel `Pipe<T>` of the absent pipeline.hpp, a
blocking FIFO of one element type. -/
structure Chan (α : Type) where
  ty : Ty
  q : List α

/-- Modelled from the spec: `make_pipe<T>()` of the absent pipeline.hpp; it
allocates a fresh empty channel and returns the heap with its handle. -/
def make_pipe {α : Type} (ty : Ty) (heap : List (Chan α)) : List (Chan α) × Nat :=
  (heap ++ [⟨ty, []⟩], heap.length)

/-- Where a worker thread stands inside `worker_thread`: at the loop test, inside
the channel `pop`, inside the channel `push` of a value, or returned. -/
inductive PC (α : Type) where
  | top : PC α
  | get : PC α
  | put (res : α) : PC α
  | exited : PC α
  deriving DecidableEq

/-- The three Simple stages with what their constructors bind: the callback
(for a source together with the state it captures, for a sink the arguments it
has been called with so far) and the channel handles. -/
inductive Role (α σ : Type) where
  | source (product_func : σ → Option α × σ) (st : σ) (out : Nat) : Role α σ
  | filter (filter_func : α → α) (inp out : Nat) : Role α σ
  | sink (consumed : List α) (inp : Nat) : Role α σ

/-- A Simple stage: its role, the `done` flag and the `worker` thread handle
(`none` when the handle is not joinable). -/
structure Stage (α σ : Type) where
  role : Role α σ
  done : Bool
  worker : Option (PC α)

/-- Constructor `SimpleDataSource(product_func_, pipe_)`. -/
def SimpleDataSource {α σ : Type} (product_func : σ → Option α × σ) (st : σ) (pipe : Nat) :
    Stage α σ :=
  ⟨Role.source product_func st pipe, false, none⟩

/-- Constructor `SimpleDataFilter(filter_func_, in_pipe_, out_pipe_)`. -/
def SimpleDataFilter {α σ : Type} (filter_func : α → α) (in_pipe out_pipe : Nat) : Stage α σ :=
  ⟨Role.filter filter_func in_pipe out_pipe, false, none⟩

/-- Constructor `SimpleDataSink(consume_func_, pipe_)`. -/
def SimpleDataSink {α σ : Type} (pipe : Nat) : Stage α σ :=
  ⟨Role.sink [] pipe, false, none⟩

/-- Method `start` of a Simple stage. -/
def Stage.start {α σ : Type} (s : Stage α σ) : Stage α σ :=
  if s.worker.isSome then s else { s with worker := some PC.top }

/-- First half of `stop`: the joinable test and `done = true`.  The boolean tells
whether the caller goes on to `worker.join()`. -/
def Stage.stop_begin {α σ : Type} (s : Stage α σ) : Stage α σ × Bool :=
  if !s.worker.isSome then (s, false) else ({ s with done := true }, true)

/-- Second half of `stop`: `worker.join()`, which returns only once the worker
has left `worker_thread`; `none` while it has not. -/
def Stage.join {α σ : Type} (s : Stage α σ) : Option (Stage α σ) :=
  match s.worker with
  | some PC.exited => some { s with worker := none }
  | _ => none

/-- The running world: channel capacity (`none` for unbounded), the channel
heap and the stages. -/
structure System (α σ : Type) where
  cap : Option Nat
  chans : List (Chan α)
  nodes : List (Stage α σ)

/-- Whether a `push` on a queue of this length goes through without blocking. -/
def hasRoom (cap : Option Nat) (len : Nat) : Bool :=
  match cap with
  | none => true
  | some n => decide (len < n)

/-- Channel `pop`: `none` while the channel is empty (the caller blocks). -/
def popChan {α : Type} (chans : List (Chan α)) (c : Nat) : Option (α × List (Chan α)) :=
  match chans.get? c with
  | some ⟨ty, v :: rest⟩ => some (v, chans.set c ⟨ty, rest⟩)
  | _ => none

/-- Channel `push`: `none` while the channel is full (the caller blocks). -/
def pushChan {α : Type} (cap : Option Nat) (chans : List (Chan α)) (c : Nat) (v : α) :
    Option (List (Chan α)) :=
  match chans.get? c with
  | some ⟨ty, q⟩ => if hasRoom cap q.length then some (chans.set c ⟨ty, q ++ [v]⟩) else none
  | none => none

/-- One step of the worker of stage `i`, following `worker_thread` of its role;
`none` when that worker cannot move (no thread, returned, or blocked in a
channel operation). -/
def stepWorker {α σ : Type} (i : Nat) (s : System α σ) : Option (System α σ) :=
  match s.nodes.get? i with
  | none => none
  | some nd =>
    match nd.worker with
    | none => none
    | some PC.exited => none
    | some PC.top =>
      if nd.done then some { s with nodes := s.nodes.set i { nd with worker := some PC.exited } }
      else
        match nd.role with
        | Role.source pf st out =>
          match pf st with
          | (none, st') =>
            some { s with nodes := s.nodes.set i ⟨Role.source pf st' out, nd.done, some PC.exited⟩ }
          | (some v, st') =>
            some { s with nodes := s.nodes.set i ⟨Role.source pf st' out, nd.done, some (PC.put v)⟩ }
        | _ => some { s with nodes := s.nodes.set i { nd with worker := some PC.get } }
    | some PC.get =>
      match nd.role with
      | Role.source _ _ _ => none
      | Role.filter f inp _ =>
        match popChan s.chans inp with
        | none => none
        | some (v, chans') =>
          some { s with chans := chans',
                        nodes := s.nodes.set i { nd with worker := some (PC.put (f v)) } }
      | Role.sink log inp =>
        match popChan s.chans inp with
        | none => none
        | some (v, chans') =>
          some { s with chans := chans',
                        nodes := s.nodes.set i ⟨Role.sink (log ++ [v]) inp, nd.done, some PC.top⟩ }
    | some (PC.put r) =>
      match nd.role with
      | Role.sink _ _ => none
      | Role.source _ _ out =>
        match pushChan s.cap s.chans out r with
        | none => none
        | some chans' =>
          some { s with chans := chans', nodes := s.nodes.set i { nd with worker := some PC.top } }
      | Role.filter _ _ out =>
        match pushChan s.cap s.chans out r with
        | none => none
        | some chans' =>
          some { s with chans := chans', nodes := s.nodes.set i { nd with worker := some PC.top } }

/-- Run the workers along a schedule (a list of stage indices); a worker that
cannot move when picked stays where it is. -/
def exec {α σ : Type} : List Nat → System α σ → System α σ
  | [], s => s
  | i :: rest, s => exec rest ((stepWorker i s).getD s)

/-! ## Builders -/

/-- How a builder call can fail: the checked cast of a type-erased channel
(`boost::any_cast` throwing), a failed `assert`, or `back()`/`front()` on an
empty vector. -/
inductive BuildError where
  | bad_any_cast : BuildError
  | assertion : BuildError
  | empty_back : BuildError
  deriving DecidableEq, Repr

/-- The checked cast `boost::any_cast<Pipe<T>>(h)` of a stored handle: it succeeds
exactly when the stored channel has element type `T`. -/
def castPipe {α : Type} (heap : List (Chan α)) (T : Ty) (h : Option Nat) : Except BuildError Nat :=
  match h with
  | none => Except.error BuildError.empty_back
  | some c =>
    if (heap.get? c).map Chan.ty = some T then Except.ok c else Except.error BuildError.bad_any_cast

/-- Class `SimplePipeline<SourceDataType, SinkDataType>`: the world it runs in
(capacity, channel heap, the registered process nodes of its base class) and its
vector `pipes` of type-erased channel handles. -/
structure SimplePipeline (α σ : Type) extends System α σ where
  srcTy : Ty
  sinkTy : Ty
  pipes : List Nat

/-- Modelled from the spec: `Pipeline::add_process_node` of the absent
pipeline.hpp, which appends a Stage to the ordered Stage list. -/
def SimplePipeline.add_process_node {α σ : Type} (p : SimplePipeline α σ) (n : Stage α σ) :
    SimplePipeline α σ :=
  { p with nodes := p.nodes ++ [n] }

/-- Constructor `SimplePipeline()`: one channel of the source type. -/
def SimplePipeline.new {α σ : Type} (cap : Option Nat) (srcTy sinkTy : Ty) : SimplePipeline α σ :=
  { cap := cap, chans := (make_pipe srcTy []).1, nodes := [], srcTy := srcTy, sinkTy := sinkTy,
    pipes := [(make_pipe (α := α) srcTy []).2] }

/-- Method `add_data_source`; the state returned with an error is the state at
the throw. -/
def SimplePipeline.add_data_source {α σ : Type} (product_func : σ → Option α × σ) (st : σ)
    (p : SimplePipeline α σ) : Option BuildError × SimplePipeline α σ :=
  match castPipe p.chans p.srcTy p.pipes.head? with
  | Except.error e => (some e, p)
  | Except.ok source_data_pipe =>
    (none, p.add_process_node (SimpleDataSource product_func st source_data_pipe))

/-- Method `add_data_filter<IT,OT>`. -/
def SimplePipeline.add_data_filter {α σ : Type} (IT OT : Ty) (filter_func : α → α)
    (p : SimplePipeline α σ) : Option BuildError × SimplePipeline α σ :=
  match castPipe p.chans IT p.pipes.getLast? with
  | Except.error e => (some e, p)
  | Except.ok in_pipe =>
    let mp := make_pipe OT p.chans
    let p1 : SimplePipeline α σ := { p with chans := mp.1, pipes := p.pipes ++ [mp.2] }
    (none, p1.add_process_node (SimpleDataFilter filter_func in_pipe mp.2))

/-- Method `add_data_sink`. -/
def SimplePipeline.add_data_sink {α σ : Type} (p : SimplePipeline α σ) :
    Option BuildError × SimplePipeline α σ :=
  match castPipe p.chans p.sinkTy p.pipes.getLast? with
  | Except.error e => (some e, p)
  | Except.ok sink_data_pipe => (none, p.add_process_node (SimpleDataSink sink_data_pipe))

/-- Result of a boundary call that may throw, block, or return. -/
inductive Outcome (β : Type) where
  | threw (e : BuildError) : Outcome β
  | blocked : Outcome β
  | done (b : β) : Outcome β

/-- Method `get`: pops the last boundary channel after the checked cast. -/
def SimplePipeline.get {α σ : Type} (p : SimplePipeline α σ) : Outcome (α × SimplePipeline α σ) :=
  match castPipe p.chans p.sinkTy p.pipes.getLast? with
  | Except.error e => Outcome.threw e
  | Except.ok sink_data_pipe =>
    match popChan p.chans sink_data_pipe with
    | none => Outcome.blocked
    | some (v, chans') => Outcome.done (v, { p with chans := chans' })

/-- Method `put`: pushes onto the first boundary channel after the checked cast. -/
def SimplePipeline.put {α σ : Type} (value : α) (p : SimplePipeline α σ) :
    Outcome (SimplePipeline α σ) :=
  match castPipe p.chans p.srcTy p.pipes.head? with
  | Except.error e => Outcome.threw e
  | Except.ok source_data_pipe =>
    match pushChan p.cap p.chans source_data_pipe value with
    | none => Outcome.blocked
    | some chans' => Outcome.done { p with chans := chans' }

/-- Modelled from the spec: `Pipeline::start` of the absent pipeline.hpp, which
starts every registered Stage in insertion order. -/
def SimplePipeline.start {α σ : Type} (p : SimplePipeline α σ) : SimplePipeline α σ :=
  { p with nodes := p.nodes.map Stage.start }

/-- Class `SimpleCompositeDataFilter<IT,OT>`: boundary channel handles, the
type-erased internal channel handles and the internal filters. -/
structure SimpleCompositeDataFilter (α σ : Type) where
  outTy : Ty
  first_pipe : Nat
  last_pipe : Nat
  pipes : List Nat
  filters : List (Stage α σ)

/-- Constructor `SimpleCompositeDataFilter(in_pipe_, out_pipe_)`. -/
def SimpleCompositeDataFilter.new {α σ : Type} (outTy : Ty) (in_pipe out_pipe : Nat) :
    SimpleCompositeDataFilter α σ :=
  ⟨outTy, in_pipe, out_pipe, [], []⟩

/-- Method `add_first_filter<RetType>`, on the heap and the composite. -/
def SimpleCompositeDataFilter.add_first_filter {α σ : Type} (RetType : Ty) (filter_func : α → α)
    (w : List (Chan α) × SimpleCompositeDataFilter α σ) :
    Option BuildError × (List (Chan α) × SimpleCompositeDataFilter α σ) :=
  if w.2.pipes.isEmpty then
    let mp := make_pipe RetType w.1
    (none, (mp.1, { w.2 with pipes := w.2.pipes ++ [mp.2],
                             filters := w.2.filters ++
                               [SimpleDataFilter filter_func w.2.first_pipe mp.2] }))
  else (some BuildError.assertion, w)

/-- Method `add_filter<ArgType,RetType>`. -/
def SimpleCompositeDataFilter.add_filter {α σ : Type} (ArgType RetType : Ty) (filter_func : α → α)
    (w : List (Chan α) × SimpleCompositeDataFilter α σ) :
    Option BuildError × (List (Chan α) × SimpleCompositeDataFilter α σ) :=
  match castPipe w.1 ArgType w.2.pipes.getLast? with
  | Except.error e => (some e, w)
  | Except.ok in_pipe =>
    let mp := make_pipe RetType w.1
    (none, (mp.1, { w.2 with pipes := w.2.pipes ++ [mp.2],
                             filters := w.2.filters ++ [SimpleDataFilter filter_func in_pipe mp.2] }))

/-- Method `add_last_filter<ArgType>`. -/
def SimpleCompositeDataFilter.add_last_filter {α σ : Type} (ArgType : Ty) (filter_func : α → α)
    (w : List (Chan α) × SimpleCompositeDataFilter α σ) :
    Option BuildError × (List (Chan α) × SimpleCompositeDataFilter α σ) :=
  if w.2.pipes.isEmpty then (some BuildError.assertion, w)
  else
    match castPipe w.1 ArgType w.2.pipes.getLast? with
    | Except.error e => (some e, w)
    | Except.ok in_pipe =>
      (none, (w.1, { w.2 with filters := w.2.filters ++
                                [SimpleDataFilter filter_func in_pipe w.2.last_pipe] }))

/-- Method `start` of the composite: starts every internal filter in order. -/
def SimpleCompositeDataFilter.start {α σ : Type} (c : SimpleCompositeDataFilter α σ) :
    SimpleCompositeDataFilter α σ :=
  { c with filters := c.filters.map Stage.start }

/-! ## Builder call sequences -/

/-- A call on the pipeline builder, with the template arguments it names. -/
inductive Call (α σ : Type) where
  | source (product_func : σ → Option α × σ) (st : σ) : Call α σ
  | filter (IT OT : Ty) (filter_func : α → α) : Call α σ
  | sink : Call α σ

/-- Perform one builder call. -/
def applyCall {α σ : Type} (c : Call α σ) (p : SimplePipeline α σ) :
    Option BuildError × SimplePipeline α σ :=
  match c with
  | Call.source pf st => p.add_data_source pf st
  | Call.filter IT OT f => p.add_data_filter IT OT f
  | Call.sink => p.add_data_sink

/-- Perform a sequence of builder calls; a call that throws leaves the pipeline
as it was at the throw and the caller goes on. -/
def runCalls {α σ : Type} : List (Call α σ) → SimplePipeline α σ → SimplePipeline α σ
  | [], p => p
  | c :: rest, p => runCalls rest (applyCall c p).2

/-- Whether a call is `add_data_filter`. -/
def Call.isFilter {α σ : Type} : Call α σ → Bool
  | Call.filter _ _ _ => true
  | _ => false

/-- Number of `add_data_filter` calls of a sequence that succeed. -/
def okFilters {α σ : Type} : List (Call α σ) → SimplePipeline α σ → Nat
  | [], _ => 0
  | c :: rest, p =>
    (if c.isFilter && (applyCall c p).1.isNone then 1 else 0) + okFilters rest (applyCall c p).2

/-- Whether a stage pushes onto channel `c`. -/
def Stage.writes {α σ : Type} (c : Nat) (s : Stage α σ) : Bool :=
  match s.role with
  | Role.source _ _ out => decide (out = c)
  | Role.filter _ _ out => decide (out = c)
  | Role.sink _ _ => false

/-- Whether a stage pops from channel `c`. -/
def Stage.reads {α σ : Type} (c : Nat) (s : Stage α σ) : Bool :=
  match s.role with
  | Role.source _ _ _ => false
  | Role.filter _ inp _ => decide (inp = c)
  | Role.sink _ inp => decide (inp = c)

/-- Whether a stage is a filter. -/
def Stage.isFilter {α σ : Type} (s : Stage α σ) : Bool :=
  match s.role with
  | Role.filter _ _ _ => true
  | _ => false

/-- A call sequence with at most one `add_data_source`, at most one
`add_data_sink`, and no `add_data_filter` after the `add_data_sink`; the flags say
whether a source call and a sink call have already been made. -/
def linearCalls {α σ : Type} : Bool → Bool → List (Call α σ) → Bool
  | _, _, [] => true
  | src, snk, Call.source _ _ :: rest => !src && linearCalls true snk rest
  | src, snk, Call.filter _ _ _ :: rest => !snk && linearCalls src snk rest
  | src, snk, Call.sink :: rest => !snk && linearCalls src true rest

/-! ## Lifecycle calls on a stage of a running system -/

/-- Call `start` on stage `i`. -/
def startAt {α σ : Type} (i : Nat) (s : System α σ) : System α σ :=
  match s.nodes.get? i with
  | none => s
  | some nd => { s with nodes := s.nodes.set i nd.start }

/-- Call `stop` on stage `i` while the workers run along `sched` during the
join; `none` when the join has not returned by the end of the schedule. -/
def stopAt {α σ : Type} (i : Nat) (sched : List Nat) (s : System α σ) : Option (System α σ) :=
  match s.nodes.get? i with
  | none => some s
  | some nd =>
    if nd.stop_begin.2 then
      let s2 := exec sched { s with nodes := s.nodes.set i nd.stop_begin.1 }
      match (s2.nodes.get? i).bind Stage.join with
      | none => none
      | some nd3 => some { s2 with nodes := s2.nodes.set i nd3 }
    else some s

/-- The loop of the composite `stop`: stop stage `i`, then `i + 1`, and so on,
one schedule for each join. -/
def stopFrom {α σ : Type} : Nat → List (List Nat) → System α σ → Option (System α σ)
  | _, [], s => some s
  | i, sch :: rest, s => (stopAt i sch s).bind (stopFrom (i + 1) rest)

/-- The world in which the internal filters of a composite run. -/
def SimpleCompositeDataFilter.system {α σ : Type} (cap : Option Nat) (heap : List (Chan α))
    (c : SimpleCompositeDataFilter α σ) : System α σ :=
  ⟨cap, heap, c.filters⟩

/-- Method `stop` of the composite: stops every internal filter in order. -/
def SimpleCompositeDataFilter.stop {α σ : Type} (scheds : List (List Nat)) (cap : Option Nat)
    (heap : List (Chan α)) (c : SimpleCompositeDataFilter α σ) :
    Option (List (Chan α) × SimpleCompositeDataFilter α σ) :=
  if scheds.length = c.filters.length then
    (stopFrom 0 scheds (c.system cap heap)).map (fun s => (s.chans, { c with filters := s.nodes }))
  else none

/-- Method `clear` of the composite.  `filters.clear()` releases the only owner of
every internal stage, so each stage is destroyed and its destructor runs `stop()`
(one schedule for each join, `none` while a join has not returned); after that
`filters` and `pipes` are empty. -/
def SimpleCompositeDataFilter.clear {α σ : Type} (scheds : List (List Nat)) (cap : Option Nat)
    (heap : List (Chan α)) (c : SimpleCompositeDataFilter α σ) :
    Option (List (Chan α) × SimpleCompositeDataFilter α σ) :=
  (c.stop scheds cap heap).map (fun r => (r.1, { r.2 with filters := [], pipes := [] }))

/-- Method `get_in_pipe` of the composite. -/
def SimpleCompositeDataFilter.get_in_pipe {α σ : Type} (c : SimpleCompositeDataFilter α σ) : Nat :=
  c.first_pipe

/-- Method `get_out_pipe` of the composite. -/
def SimpleCompositeDataFilter.get_out_pipe {α σ : Type} (c : SimpleCompositeDataFilter α σ) : Nat :=
  c.last_pipe

/-- A call on the composite builder, with the template arguments it names. -/
inductive CCall (α : Type) where
  | first (RetType : Ty) (filter_func : α → α) : CCall α
  | mid (ArgType RetType : Ty) (filter_func : α → α) : CCall α
  | last (ArgType : Ty) (filter_func : α → α) : CCall α

/-- Perform one call on the composite builder. -/
def applyCCall {α σ : Type} (c : CCall α) (w : List (Chan α) × SimpleCompositeDataFilter α σ) :
    Option BuildError × (List (Chan α) × SimpleCompositeDataFilter α σ) :=
  match c with
  | CCall.first R f => SimpleCompositeDataFilter.add_first_filter R f w
  | CCall.mid A R f => SimpleCompositeDataFilter.add_filter A R f w
  | CCall.last A f => SimpleCompositeDataFilter.add_last_filter A f w

/-- Perform a sequence of calls on the composite builder, keeping the outcome of
each call. -/
def runCCalls {α σ : Type} :
    List (CCall α) → List (Chan α) × SimpleCompositeDataFilter α σ →
      List (Option BuildError) × (List (Chan α) × SimpleCompositeDataFilter α σ)
  | [], w => ([], w)
  | c :: rest, w =>
    ((applyCCall c w).1 :: (runCCalls rest (applyCCall c w).2).1,
      (runCCalls rest (applyCCall c w).2).2)

/-- The invariant of the builder behind the no-fan-in, no-fan-out property: the
handles stored first and last are the oldest and the newest channel, every
channel has at most one writer and one reader, channels not yet allocated have
none, channel 0 has no writer before `add_data_source` and the newest channel
no reader before `add_data_sink`. -/
structure LinearInv {α σ : Type} (p : SimplePipeline α σ) (src snk : Bool) : Prop where
  head : p.pipes.head? = some 0
  last : p.pipes.getLast? = some (p.chans.length - 1)
  pos : 0 < p.chans.length
  one : ∀ c, p.nodes.countP (Stage.writes c) ≤ 1 ∧ p.nodes.countP (Stage.reads c) ≤ 1
  fresh : ∀ c, p.chans.length ≤ c →
    p.nodes.countP (Stage.writes c) = 0 ∧ p.nodes.countP (Stage.reads c) = 0
  nosrc : src = false → p.nodes.countP (Stage.writes 0) = 0
  nosnk : snk = false → p.nodes.countP (Stage.reads (p.chans.length - 1)) = 0

/-- What a worker step never changes in a stage: the `done` flag and whether
the thread handle is joinable. -/
def Stage.sig {α σ : Type} (s : Stage α σ) : Bool × Bool :=
  (s.done, s.worker.isSome)

/-- A sample world: one doubling filter from channel 0, holding 1 and 2, to the
empty channel 1. -/
def demoFilterSys : System Nat Unit :=
  ⟨none, [⟨0, [1, 2]⟩, ⟨0, []⟩], [SimpleDataFilter (fun x => x * 2) 0 1]⟩

/-- A sample composite: a doubling filter and an incrementing filter joined by
the internal channel 2, between the boundary channels 0 and 1. -/
def demoComposite : SimpleCompositeDataFilter Nat Unit :=
  ⟨0, 0, 1, [2], [SimpleDataFilter (fun x => x * 2) 0 2, SimpleDataFilter (fun x => x + 1) 2 1]⟩

/-! ## Values in flight along a chain of filters -/

/-- Everything at or upstream of channel `n` of a chain, oldest first, as it will
arrive in channel `n`: the queue of channel `n`, then the value the filter into
channel `n` is about to push, then the upstream values still to go through that
filter.  `Q` gives the queues, `I` the values being pushed, `F` the transforms;
`base` is what is still to arrive in channel 0. -/
def flowA {α : Type} (Q I : Nat → List α) (F : Nat → α → α) (base : List α) : Nat → List α
  | 0 => Q 0 ++ base
  | n + 1 => Q (n + 1) ++ (I n ++ (flowA Q I F base n).map (F n))

/-- The part of `flowA` behind the queue of channel `n`. -/
def belowA {α : Type} (Q I : Nat → List α) (F : Nat → α → α) (base : List α) : Nat → List α
  | 0 => base
  | n + 1 => I n ++ (flowA Q I F base n).map (F n)

/-- The queue of channel `c` (empty for a handle that names no channel). -/
def qOf {α : Type} (chans : List (Chan α)) (c : Nat) : List α :=
  match chans.get? c with
  | some ch => ch.q
  | none => []

/-- The value a stage holds while inside `push`. -/
def Stage.inflight {α σ : Type} (nd : Stage α σ) : List α :=
  match nd.worker with
  | some (PC.put r) => [r]
  | _ => []

/-- The transform of a stage (identity for a source or sink). -/
def Stage.fn {α σ : Type} (nd : Stage α σ) : α → α :=
  match nd.role with
  | Role.filter f _ _ => f
  | _ => id

/-- The value held inside `push` by stage `i`. -/
def inflOf {α σ : Type} (nodes : List (Stage α σ)) (i : Nat) : List α :=
  match nodes.get? i with
  | some nd => nd.inflight
  | none => []

/-- The transform of stage `i`. -/
def fnOf {α σ : Type} (nodes : List (Stage α σ)) (i : Nat) : α → α :=
  match nodes.get? i with
  | some nd => nd.fn
  | none => id

/-- The values in flight of a system along the chain whose `c`-th filter is stage
`o + c`, reading channel `ch c` and writing channel `ch (c + 1)`. -/
def flow {α σ : Type} (s : System α σ) (o : Nat) (ch : Nat → Nat) (base : List α) (n : Nat) :
    List α :=
  flowA (fun c => qOf s.chans (ch c)) (fun c => inflOf s.nodes (o + c))
    (fun c => fnOf s.nodes (o + c)) base n

/-- Stages `o .. o + k - 1` are filters wired in a chain over the distinct
channels `ch 0 .. ch k`. -/
structure IsChain {α σ : Type} (s : System α σ) (o k : Nat) (ch : Nat → Nat) : Prop where
  filt : ∀ c, c < k → ∃ nd f, s.nodes.get? (o + c) = some nd ∧
    nd.role = Role.filter f (ch c) (ch (c + 1))
  inj : Function.Injective ch

/-! ## A pipeline fed by `put` and drained by `get` -/

/-- The `add_data_filter` calls of a chain of filters over a channel of type `t`:
each declares as input type the output type of the one before, so that every
call succeeds.  A filter is given by its output type and its transform. -/
def filterCalls {α σ : Type} : Ty → List (Ty × (α → α)) → List (Call α σ)
  | _, [] => []
  | t, g :: rest => Call.filter t g.1 g.2 :: filterCalls g.1 rest

/-- The element type of the last channel of such a chain. -/
def lastTy {α : Type} : Ty → List (Ty × (α → α)) → Ty
  | t, [] => t
  | _, g :: rest => lastTy g.1 rest

/-- The transforms of a chain applied in order: `fk (... f1 x ...)`. -/
def applyAll {α : Type} (fs : List (Ty × (α → α))) (x : α) : α :=
  fs.foldl (fun acc g => g.2 acc) x

/-- The filter stages a chain of `add_data_filter` calls registers when the last
channel is `j`, as constructed (`st = false`) or started (`st = true`). -/
def filterNodes {α σ : Type} (st : Bool) : Nat → List (Ty × (α → α)) → List (Stage α σ)
  | _, [] => []
  | j, g :: rest =>
    ⟨Role.filter g.2 j (j + 1), false, if st then some PC.top else none⟩ ::
      filterNodes st (j + 1) rest

/-- A pipeline together with the outside world: the values an external producer
still has to `put` and the values an external consumer has obtained from `get`. -/
structure Run (α σ : Type) where
  p : SimplePipeline α σ
  toPut : List α
  got : List α

/-- Who moves next: the worker of a stage, the producer calling `put`, or the
consumer calling `get`. -/
inductive Act where
  | worker (i : Nat) : Act
  | put : Act
  | get : Act

/-- One move; a party that is blocked (or whose call throws) stays where it is. -/
def Run.step {α σ : Type} (a : Act) (r : Run α σ) : Run α σ :=
  match a with
  | Act.worker i =>
    match stepWorker i r.p.toSystem with
    | some s' => { r with p := { r.p with toSystem := s' } }
    | none => r
  | Act.put =>
    match r.toPut with
    | [] => r
    | v :: rest =>
      match r.p.put v with
      | Outcome.done p' => ⟨p', rest, r.got⟩
      | _ => r
  | Act.get =>
    match r.p.get with
    | Outcome.done (v, p') => ⟨p', r.toPut, r.got ++ [v]⟩
    | _ => r

/-- Run along a schedule of moves. -/
def drive {α σ : Type} : List Act → Run α σ → Run α σ
  | [], r => r
  | a :: rest, r => drive rest (r.step a)

/-- The started pipeline built from a chain of filters, with the values `vs`
waiting to be `put`. -/
def putGetRun {α σ : Type} (cap : Option Nat) (srcTy sinkTy : Ty) (fs : List (Ty × (α → α)))
    (vs : List α) : Run α σ :=
  ⟨(runCalls (filterCalls srcTy fs) (SimplePipeline.new cap srcTy sinkTy)).start, vs, []⟩

/-- The moves that carry one value through a chain of `k` filters: `put`, three
steps of each worker in turn (loop test, `pop` and transform, `push`), `get`. -/
def roundSched (k : Nat) : List Act :=
  Act.put :: ((List.range' 0 k).flatMap
    (fun c => [Act.worker c, Act.worker c, Act.worker c]) ++ [Act.get])

/-- The schedule that carries `n` values through, one after the other. -/
def fullSched (k : Nat) : Nat → List Act
  | 0 => []
  | n + 1 => roundSched k ++ fullSched k n

/-- The first `n` transforms of a chain composed: `F (n - 1) (... F 0 x ...)`. -/
def compF {α : Type} (F : Nat → α → α) : Nat → α → α
  | 0 => id
  | n + 1 => fun x => F n (compF F n x)

/-- The invariant of a pipeline of `k` filters fed by `put` and drained by `get`:
what `get` has returned, followed by everything in flight and everything still
to be `put` (as it will arrive in the last channel), is the sequence `total`. -/
structure RunInv {α σ : Type} (r : Run α σ) (k : Nat) (total : List α) : Prop where
  chain : IsChain r.p.toSystem 0 k id
  len : r.p.nodes.length = k
  head : r.p.pipes.head? = some 0
  last : r.p.pipes.getLast? = some k
  eq : r.got ++ flow r.p.toSystem 0 id r.toPut k = total

/-- The state of a `put`/`get` pipeline between two values: every worker at its
loop test, every channel empty. -/
structure Idle {α σ : Type} (r : Run α σ) (cap : Option Nat) (srcTy sinkTy : Ty)
    (fs : List (Ty × (α → α))) : Prop where
  nodes : r.p.nodes = filterNodes true 0 fs
  cap : r.p.cap = cap
  tys : r.p.chans.map Chan.ty = srcTy :: fs.map Prod.fst
  empty : ∀ c, qOf r.p.chans c = []
  pipes : r.p.pipes = 0 :: List.range' 1 fs.length
  src : r.p.srcTy = srcTy
  snk : r.p.sinkTy = sinkTy

/-! ## Source, filter, sink -/

/-- The production callback, started from state `st`, hands out exactly the
values `vs` (returning true each time) and then returns false. -/
def Emits {α σ : Type} (product_func : σ → Option α × σ) : σ → List α → Prop
  | st, [] => (product_func st).1 = none
  | st, v :: vs => (product_func st).1 = some v ∧ Emits product_func (product_func st).2 vs

/-- The state of the production callback after `n` calls. -/
def advance {α σ : Type} (product_func : σ → Option α × σ) : Nat → σ → σ
  | 0, st => st
  | n + 1, st => advance product_func n (product_func st).2

/-- A production callback that hands out the values of a list, then returns
false. -/
def scriptSource {α : Type} : List α → Option α × List α
  | [] => (none, [])
  | v :: rest => (some v, rest)

/-- The started pipeline `add_data_source; add_data_filter(f); add_data_sink`. -/
def sfsPipeline {α σ : Type} (cap : Option Nat) (srcTy sinkTy : Ty)
    (product_func : σ → Option α × σ) (st : σ) (f : α → α) : SimplePipeline α σ :=
  (runCalls [Call.source product_func st, Call.filter srcTy sinkTy f, Call.sink]
    (SimplePipeline.new cap srcTy sinkTy)).start

/-- The arguments the consumer callback of stage `i` has been called with. -/
def consumedOf {α σ : Type} (s : System α σ) (i : Nat) : List α :=
  match s.nodes.get? i with
  | some nd =>
    match nd.role with
    | Role.sink log _ => log
    | _ => []
  | none => []

/-- A source, filter, sink system with all three workers at their loop test. -/
def sfsIdle {α σ : Type} (cap : Option Nat) (t0 t1 : Ty) (q0 q1 : List α)
    (product_func : σ → Option α × σ) (st : σ) (f : α → α) (log : List α) : System α σ :=
  ⟨cap, [⟨t0, q0⟩, ⟨t1, q1⟩],
    [⟨Role.source product_func st 0, false, some PC.top⟩,
     ⟨Role.filter f 0 1, false, some PC.top⟩,
     ⟨Role.sink log 1, false, some PC.top⟩]⟩

/-- The schedule that carries `n` values from the source to the sink one after
the other: two steps of the source (callback, `push`), three of the filter, two
of the sink (loop test, `pop` and callback). -/
def sfsSched : Nat → List Nat
  | 0 => []
  | n + 1 => [0, 0, 1, 1, 1, 2, 2] ++ sfsSched n

/-- The invariant of a source, filter, sink system: what the consumer has been
given, then the second channel, the value the filter is pushing, and the
transforms of the first channel, of the value the source is pushing and of the
values the callback has yet to hand out, make up `total`. -/
def SfsInv {α σ : Type} (s : System α σ) (product_func : σ → Option α × σ) (f : α → α)
    (total : List α) : Prop :=
  ∃ (st : σ) (w0 : Option (PC α)) (nd1 : Stage α σ) (log : List α) (w2 : Option (PC α))
    (rem : List α),
    s.nodes = [⟨Role.source product_func st 0, false, w0⟩, nd1, ⟨Role.sink log 1, false, w2⟩] ∧
    nd1.role = Role.filter f 0 1 ∧
    (w0 = some PC.exited → rem = []) ∧
    (w0 ≠ some PC.exited → Emits product_func st rem) ∧
    w0 ≠ some PC.get ∧
    log ++ (qOf s.chans 1 ++ (nd1.inflight ++
      (qOf s.chans 0 ++ ((⟨Role.source product_func st 0, false, w0⟩ : Stage α σ).inflight ++
        rem)).map f)) = total

/-! ## A composite of two filters and the same chain wired by hand -/

/-- The composite over the boundary channels `a` and `b` built by
`add_first_filter(f1)` then `add_last_filter(f2)`, with the outcome of the two
calls and the heap after them; `R` is the element type between the filters. -/
def compositeOfTwo {α σ : Type} (R OT : Ty) (a b : Nat) (f1 f2 : α → α) (heap : List (Chan α)) :
    (Option BuildError × Option BuildError) ×
      (List (Chan α) × SimpleCompositeDataFilter α σ) :=
  let r1 := SimpleCompositeDataFilter.add_first_filter R f1
    (heap, SimpleCompositeDataFilter.new OT a b)
  let r2 := SimpleCompositeDataFilter.add_last_filter R f2 r1.2
  ((r1.1, r2.1), r2.2)

/-- Two standalone filter stages for `f1` and `f2` joined by an explicit
intermediate channel made with `make_pipe`, both started. -/
def manualChain {α σ : Type} (cap : Option Nat) (R : Ty) (a b : Nat) (f1 f2 : α → α)
    (heap : List (Chan α)) : System α σ :=
  let mp := make_pipe R heap
  ⟨cap, mp.1, [(SimpleDataFilter f1 a mp.2).start, (SimpleDataFilter f2 mp.2 b).start]⟩

/-- The schedule that carries `n` values through two filters one after the
other. -/
def chainSched : Nat → List Nat
  | 0 => []
  | n + 1 => [0, 0, 0, 1, 1, 1] ++ chainSched n

/-- The invariant of two filters `a -> n -> b`: the output channel, then the value
the second filter is pushing, then the transforms of the intermediate channel, of
the value the first filter is pushing and of the input channel, make up `total`. -/
def ChainInv {α σ : Type} (s : System α σ) (f1 f2 : α → α) (a n b : Nat) (total : List α) :
    Prop :=
  ∃ nd0 nd1 : Stage α σ,
    s.nodes = [nd0, nd1] ∧ nd0.role = Role.filter f1 a n ∧ nd1.role = Role.filter f2 n b ∧
    qOf s.chans b ++ (nd1.inflight ++
      (qOf s.chans n ++ (nd0.inflight ++ (qOf s.chans a).map f1)).map f2) = total

/-! ## A worker parked in `pop` -/

/-- Stage `i` has its worker inside `pop` on the empty channel `inp`, and no stage
of the system pushes onto `inp`. -/
def Parked {α σ : Type} (s : System α σ) (i inp : Nat) : Prop :=
  (∃ nd, s.nodes.get? i = some nd ∧ nd.worker = some PC.get ∧ nd.reads inp = true) ∧
    qOf s.chans inp = [] ∧ ∀ x ∈ s.nodes, x.writes inp = false

/-- The state right after the first half of `stop` on stage `i`: `done` is set and
the caller is about to wait in `join`. -/
def stopBeginAt {α σ : Type} (i : Nat) (s : System α σ) : System α σ :=
  match s.nodes.get? i with
  | none => s
  | some nd => { s with nodes := s.nodes.set i nd.stop_begin.1 }

/-- A sample world: one doubling filter between two empty channels. -/
def demoEmptyFilterSys : System Nat Unit :=
  ⟨none, [⟨0, []⟩, ⟨0, []⟩], [SimpleDataFilter (fun x => x * 2) 0 1]⟩

/-- The composite `demoComposite` once started and after the first step of its
first worker, which is then inside `pop` on the empty boundary channel 0. -/
def demoParkedComposite : SimpleCompositeDataFilter Nat Unit :=
  ⟨0, 0, 1, [2],
    [⟨Role.filter (fun x => x * 2) 0 2, false, some PC.get⟩,
     ⟨Role.filter (fun x => x + 1) 2 1, false, some PC.top⟩]⟩

/-- The heap of three empty channels the sample composites live in. -/
def demoHeap : List (Chan Nat) :=
  [⟨0, []⟩, ⟨0, []⟩, ⟨0, []⟩]

/-! ## The single-type pipeline of recipe-02 (code/pipeline/recipe-02/simple_pipeline.hpp)

The Simple stages of recipe-02 are those of recipe-04 word for word; only the
pipeline class differs. -/

/-- Class `SimplePipeline<T>` of recipe-02: the world it runs in (the registered
process nodes of its base class included) and its vector `queues`. -/
structure Recipe02.SimplePipeline (α σ : Type) extends System α σ where
  queues : List Nat

/-- The first loop of the constructor: `m` times `queues.push_back(make_pipe<T>())`. -/
def Recipe02.makeQueues {α : Type} (ty : Ty) :
    Nat → List (Chan α) × List Nat → List (Chan α) × List Nat
  | 0, w => w
  | m + 1, w => Recipe02.makeQueues ty m ((make_pipe ty w.1).1, w.2 ++ [(make_pipe ty w.1).2])

/-- The second loop of the constructor, from index `i` on: a
`SimpleDataFilter(filter_funcs[i], queues[i], queues[i+1])` for each function. -/
def Recipe02.makeFilters {α σ : Type} (queues : List Nat) : Nat → List (α → α) → List (Stage α σ)
  | _, [] => []
  | i, f :: rest =>
    SimpleDataFilter f (queues.getD i 0) (queues.getD (i + 1) 0) ::
      Recipe02.makeFilters queues (i + 1) rest

/-- Constructor `SimplePipeline(product_func, filter_funcs)` of recipe-02; `ty` is
the tag of the one element type `T`. -/
def Recipe02.SimplePipeline.new {α σ : Type} (cap : Option Nat) (ty : Ty)
    (product_func : σ → Option α × σ) (st : σ) (filter_funcs : List (α → α)) :
    Recipe02.SimplePipeline α σ :=
  let w := Recipe02.makeQueues (α := α) ty (filter_funcs.length + 1) ([], [])
  { cap := cap, chans := w.1,
    nodes := ([] ++ [SimpleDataSource product_func st (w.2.getD 0 0)]) ++
      Recipe02.makeFilters w.2 0 filter_funcs,
    queues := w.2 }

/-- Modelled from the spec: `Pipeline::start` of the absent pipeline.hpp, which
starts every registered Stage in insertion order. -/
def Recipe02.SimplePipeline.start {α σ : Type} (p : Recipe02.SimplePipeline α σ) :
    Recipe02.SimplePipeline α σ :=
  { p with nodes := p.nodes.map Stage.start }

/-- Method `get` of recipe-02: `queues.back()->pop(value)`; `none` while the pop
blocks. -/
def Recipe02.SimplePipeline.get {α σ : Type} (p : Recipe02.SimplePipeline α σ) :
    Option (α × Recipe02.SimplePipeline α σ) :=
  match p.queues.getLast? with
  | none => none
  | some pipe =>
    match popChan p.chans pipe with
    | none => none
    | some (v, chans') => some (v, { p with chans := chans' })

/-- A recipe-02 pipeline together with the values an external consumer has
obtained from `get`. -/
structure Recipe02.Run (α σ : Type) where
  p : Recipe02.SimplePipeline α σ
  got : List α

/-- Who moves next: the worker of a stage or the consumer calling `get`. -/
inductive Recipe02.Move where
  | worker (i : Nat) : Recipe02.Move
  | get : Recipe02.Move

/-- One move; a party that is blocked stays where it is. -/
def Recipe02.Run.step {α σ : Type} (m : Recipe02.Move) (r : Recipe02.Run α σ) :
    Recipe02.Run α σ :=
  match m with
  | Recipe02.Move.worker i =>
    ⟨{ r.p with toSystem := (stepWorker i r.p.toSystem).getD r.p.toSystem }, r.got⟩
  | Recipe02.Move.get =>
    match r.p.get with
    | some (v, p') => ⟨p', r.got ++ [v]⟩
    | none => r

/-- Run along a schedule of moves. -/
def Recipe02.drive {α σ : Type} : List Recipe02.Move → Recipe02.Run α σ → Recipe02.Run α σ
  | [], r => r
  | m :: rest, r => Recipe02.drive rest (r.step m)

/-- The moves that carry one value from the source through `n` filters to `get`:
two steps of the source (callback, `push`), three of each filter in turn, `get`. -/
def Recipe02.roundSched (n : Nat) : List Recipe02.Move :=
  [Recipe02.Move.worker 0, Recipe02.Move.worker 0] ++
    (((List.range' 0 n).flatMap (fun c => [1 + c, 1 + c, 1 + c])).map Recipe02.Move.worker ++
      [Recipe02.Move.get])

/-- The schedule that carries `k` values through, one after the other. -/
def Recipe02.fullSched (n : Nat) : Nat → List Recipe02.Move
  | 0 => []
  | k + 1 => Recipe02.roundSched n ++ Recipe02.fullSched n k

/-- The invariant of a recipe-02 pipeline of `n` filters drained by `get`: what
`get` has returned, followed by everything in flight, the value the source is
pushing and the values the callback has yet to hand out (as they will arrive in
the last channel), is the sequence `total`. -/
def Recipe02.RunInv {α σ : Type} (r : Recipe02.Run α σ) (product_func : σ → Option α × σ)
    (n : Nat) (total : List α) : Prop :=
  ∃ (st : σ) (w0 : Option (PC α)) (rem : List α),
    r.p.nodes.get? 0 = some ⟨Role.source product_func st 0, false, w0⟩ ∧
    (w0 = some PC.exited → rem = []) ∧
    (w0 ≠ some PC.exited → Emits product_func st rem) ∧
    w0 ≠ some PC.get ∧
    IsChain r.p.toSystem 1 n id ∧ r.p.nodes.length = n + 1 ∧ r.p.queues.getLast? = some n ∧
    r.got ++ flow r.p.toSystem 1 id
      ((⟨Role.source product_func st 0, false, w0⟩ : Stage α σ).inflight ++ rem) n = total

/-- The state of a recipe-02 pipeline between two values: the source (its
callback in state `st`) and every filter at their loop test, every channel
empty. -/
structure Recipe02.Idle {α σ : Type} (r : Recipe02.Run α σ) (product_func : σ → Option α × σ)
    (filter_funcs : List (α → α)) (st : σ) : Prop where
  src : r.p.nodes.get? 0 = some ⟨Role.source product_func st 0, false, some PC.top⟩
  filt : ∀ c g, filter_funcs.get? c = some g →
    r.p.nodes.get? (1 + c) = some ⟨Role.filter g c (c + 1), false, some PC.top⟩
  len : r.p.chans.length = filter_funcs.length + 1
  empty : ∀ c, qOf r.p.chans c = []
  room : hasRoom r.p.cap 0 = true
  last : r.p.queues.getLast? = some filter_funcs.length

/-! ## Receiving exactly `length` bytes (code/socket/recipe-01/tcp_sixteen.cpp)

`Socket::Recv` lives in the absent Socket.hpp and is taken as a parameter: a
function from the socket state and the number of bytes asked for to the chunk
returned and the next socket state. -/

/-- The `std::runtime_error` thrown by `recvall`, with the two numbers its
message is formatted from. -/
structure TcpSixteen.RecvError where
  expected : Nat
  received : Nat
  deriving DecidableEq, Repr

/-- The `while` loop of `recvall`, entered with `data` already accumulated. -/
def TcpSixteen.recvallLoop {β σ : Type} (Recv : σ → Nat → List β × σ) (length : Nat) (sock : σ)
    (data : List β) : Except TcpSixteen.RecvError (List β) × σ :=
  if h : data.length < length then
    if hm : (Recv sock (length - data.length)).1.isEmpty = true then
      (Except.error ⟨length, data.length⟩, (Recv sock (length - data.length)).2)
    else
      TcpSixteen.recvallLoop Recv length (Recv sock (length - data.length)).2
        (data ++ (Recv sock (length - data.length)).1)
  else (Except.ok data, sock)
termination_by length - data.length
decreasing_by
  have hpos : 0 < (Recv sock (length - data.length)).1.length := by
    cases hc : (Recv sock (length - data.length)).1 with
    | nil => rw [hc] at hm; simp at hm
    | cons a l => simp
  simp only [List.length_append]
  omega

/-- Function `recvall(sock, length)`. -/
def TcpSixteen.recvall {β σ : Type} (Recv : σ → Nat → List β × σ) (sock : σ) (length : Nat) :
    Except TcpSixteen.RecvError (List β) × σ :=
  TcpSixteen.recvallLoop Recv length sock []

/-- The chunks returned, in order, by the `Recv` calls the loop of `recvall`
makes when entered with `data` already accumulated. -/
def TcpSixteen.chunksFrom {β σ : Type} (Recv : σ → Nat → List β × σ) (length : Nat) (sock : σ)
    (data : List β) : List (List β) :=
  if h : data.length < length then
    if hm : (Recv sock (length - data.length)).1.isEmpty = true then
      [(Recv sock (length - data.length)).1]
    else
      (Recv sock (length - data.length)).1 ::
        TcpSixteen.chunksFrom Recv length (Recv sock (length - data.length)).2
          (data ++ (Recv sock (length - data.length)).1)
  else []
termination_by length - data.length
decreasing_by
  have hpos : 0 < (Recv sock (length - data.length)).1.length := by
    cases hc : (Recv sock (length - data.length)).1 with
    | nil => rw [hc] at hm; simp at hm
    | cons a l => simp
  simp only [List.length_append]
  omega

/-- A socket whose state is the list of chunks it will deliver, one for each
`Recv` and never more than asked for (what is left of a chunk is delivered by
the next call), and which delivers the empty chunk once they are used up. -/
def TcpSixteen.scriptRecv {β : Type} (sock : List (List β)) (n : Nat) :
    List β × List (List β) :=
  match sock with
  | [] => ([], [])
  | chunk :: rest =>
    (chunk.take n, if (chunk.drop n).isEmpty then rest else chunk.drop n :: rest)

/-! ## Work left along a chain of filters

A count of the worker steps still to come, used to show that every schedule
can be continued until all values have arrived. -/

/-- The sum `g 0 + ... + g (n - 1)`. -/
def sumTo (g : Nat → Nat) : Nat → Nat
  | 0 => 0
  | n + 1 => sumTo g n + g n

/-- The steps a value waiting in channel `c` of a chain of `k` filters still
needs: three for each filter ahead of it (`pop`, `push`, loop test) and one for
the final `get`. -/
def chainW (k c : Nat) : Nat :=
  3 * (k - c) + 1

/-- The steps a worker owes on account of where it stands: one at the loop test,
`wput` while inside `push`, none inside `pop` or when it has returned. -/
def Stage.credit {α σ : Type} (wput : Nat) (nd : Stage α σ) : Nat :=
  match nd.worker with
  | some PC.top => 1
  | some (PC.put _) => wput
  | _ => 0

/-- The steps owed by stage `i`. -/
def nodeCredit {α σ : Type} (nodes : List (Stage α σ)) (i wput : Nat) : Nat :=
  match nodes.get? i with
  | some nd => nd.credit wput
  | none => 0

/-- The steps still to come in a chain of `k` filters (stage `o + c` reading
channel `c` and writing channel `c + 1`) before every value now in it has been
taken from channel `k`. -/
def chainMeasure {α σ : Type} (s : System α σ) (o k : Nat) : Nat :=
  sumTo (fun c => (qOf s.chans c).length * chainW k c) (k + 1) +
    sumTo (fun c => nodeCredit s.nodes (o + c) (chainW k c - 1)) k

/-- Stages `o .. o + k - 1` are running filters (`done` not set, worker not
returned) wired in a chain over the existing channels `0 .. k`, and a channel
holds at least one value. -/
structure LiveChain {α σ : Type} (s : System α σ) (o k : Nat) : Prop where
  filt : ∀ c, c < k → ∃ f w, s.nodes.get? (o + c) =
    some ⟨Role.filter f c (c + 1), false, some w⟩ ∧ w ≠ PC.exited
  len : s.chans.length = k + 1
  room : hasRoom s.cap 0 = true

/-- The steps still to come in a `put`/`get` pipeline of `k` filters: those of the
chain, and for each value still to be `put` the `put` itself and the steps of a
value waiting in the first channel. -/
def runMeasure {α σ : Type} (r : Run α σ) (k : Nat) : Nat :=
  chainMeasure r.p.toSystem 0 k + r.toPut.length * (chainW k 0 + 1)

/-- A `put`/`get` pipeline whose filters are all running, with the channel types
and the stored handles the builder left. -/
structure RunLive {α σ : Type} (r : Run α σ) (srcTy sinkTy : Ty) (fs : List (Ty × (α → α))) :
    Prop where
  live : LiveChain r.p.toSystem 0 fs.length
  tys : r.p.chans.map Chan.ty = srcTy :: fs.map Prod.fst
  src : r.p.srcTy = srcTy
  snk : r.p.sinkTy = sinkTy
  head : r.p.pipes.head? = some 0
  last : r.p.pipes.getLast? = some fs.length
  len : r.p.nodes.length = fs.length

/-- The steps a source worker still owes, itself and on behalf of the values its
callback has yet to hand out (`remaining` of them), when a value waiting in its
output channel needs `w` more steps: for each value the callback, the `push` and
the `w` steps downstream. -/
def sourceWork {α : Type} (w0 : PC α) (remaining w : Nat) : Nat :=
  match w0 with
  | PC.top => 1 + (w + 2) * remaining
  | PC.put _ => (w + 2) * (remaining + 1)
  | _ => 0

/-- A running source at stage 0 writing channel 0 of a running chain of `k`
filters (stages `o ..`), with `m` steps still to come before every value has been
taken from channel `k`. -/
def Feeding {α σ : Type} (s : System α σ) (pf : σ → Option α × σ) (o k m : Nat) : Prop :=
  ∃ (st : σ) (w0 : PC α) (rem : List α),
    s.nodes.get? 0 = some ⟨Role.source pf st 0, false, some w0⟩ ∧
    (w0 ≠ PC.exited → Emits pf st rem) ∧ w0 ≠ PC.get ∧
    LiveChain s o k ∧ 0 < o ∧
    m = chainMeasure s o k + sourceWork w0 rem.length (chainW k 0)

/-- A source, filter, sink system with all three workers running and `m` steps
still to come: each step of the source or the filter and each value waiting
for the sink counts twice, the loop test of the sink once. -/
def SfsWork {α σ : Type} (s : System α σ) (pf : σ → Option α × σ) (m : Nat) : Prop :=
  ∃ (mf : Nat) (log : List α) (w2 : PC α),
    Feeding s pf 1 1 mf ∧ s.nodes.length = 3 ∧
    s.nodes.get? 2 = some ⟨Role.sink log 1, false, some w2⟩ ∧ (w2 = PC.top ∨ w2 = PC.get) ∧
    m = 2 * mf + nodeCredit s.nodes 2 0

/-- Two running filters `a -> n -> b` with `m` steps still to come before every
value has reached channel `b`: a value waiting in `a` needs six, one waiting in
`n` three, a filter at its loop test one, and a filter inside `push` what its
value will need downstream; pushes onto queues shorter than `limit` go through. -/
def ChainWork {α σ : Type} (s : System α σ) (f1 f2 : α → α) (a n b limit m : Nat) : Prop :=
  ∃ (w0 w1 : PC α),
    s.nodes = [⟨Role.filter f1 a n, false, some w0⟩, ⟨Role.filter f2 n b, false, some w1⟩] ∧
    w0 ≠ PC.exited ∧ w1 ≠ PC.exited ∧ n < s.chans.length ∧ b < s.chans.length ∧
    (∀ j, j < limit → hasRoom s.cap j = true) ∧
    m = 6 * (qOf s.chans a).length + 3 * (qOf s.chans n).length +
      (⟨Role.filter f1 a n, false, some w0⟩ : Stage α σ).credit 5 +
      (⟨Role.filter f2 n b, false, some w1⟩ : Stage α σ).credit 2

/-! ## Theorems -/

/-! ### Builder: type check and frame -/

/-- Claim C4: `add_data_filter<IT,OT>`, `add_filter<A,R>` and `add_last_filter<A>`
fail exactly when the declared input type differs from the element type of the
last-registered channel, and a failing call returns the builder (heap, channel
list and stage list) exactly as it was. -/
theorem add_filter_fails_iff_type_mismatch {α σ : Type} (f : α → α) (IT OT : Ty)
    (p : SimplePipeline α σ) (heap : List (Chan α)) (cf : SimpleCompositeDataFilter α σ)
    (c d : Nat) (ch dh : Chan α)
    (hp : p.pipes.getLast? = some c) (hc : p.chans.get? c = some ch)
    (hq : cf.pipes.getLast? = some d) (hd : heap.get? d = some dh) :
    (((p.add_data_filter IT OT f).1.isSome ↔ IT ≠ ch.ty) ∧
      ((p.add_data_filter IT OT f).1.isSome → (p.add_data_filter IT OT f).2 = p)) ∧
    (((SimpleCompositeDataFilter.add_filter IT OT f (heap, cf)).1.isSome ↔ IT ≠ dh.ty) ∧
      ((SimpleCompositeDataFilter.add_filter IT OT f (heap, cf)).1.isSome →
        (SimpleCompositeDataFilter.add_filter IT OT f (heap, cf)).2 = (heap, cf))) ∧
    (((SimpleCompositeDataFilter.add_last_filter IT f (heap, cf)).1.isSome ↔ IT ≠ dh.ty) ∧
      ((SimpleCompositeDataFilter.add_last_filter IT f (heap, cf)).1.isSome →
        (SimpleCompositeDataFilter.add_last_filter IT f (heap, cf)).2 = (heap, cf))) := by
  have hne : cf.pipes.isEmpty = false := by
    cases hcp : cf.pipes with
    | nil => simp [hcp] at hq
    | cons a l => rfl
  refine ⟨⟨?_, ?_⟩, ⟨?_, ?_⟩, ⟨?_, ?_⟩⟩
  · unfold SimplePipeline.add_data_filter castPipe
    simp only [hp, hc, Option.map_some', Option.some.injEq]
    by_cases h : ch.ty = IT
    · simp [h]
    · simp [h, Ne.symm h]
  · unfold SimplePipeline.add_data_filter
    cases castPipe p.chans IT p.pipes.getLast? <;> simp
  · unfold SimpleCompositeDataFilter.add_filter castPipe
    simp only [hq, hd, Option.map_some', Option.some.injEq]
    by_cases h : dh.ty = IT
    · simp [h]
    · simp [h, Ne.symm h]
  · unfold SimpleCompositeDataFilter.add_filter
    cases castPipe heap IT cf.pipes.getLast? <;> simp
  · unfold SimpleCompositeDataFilter.add_last_filter castPipe
    simp only [hne, hq, hd, Option.map_some', Option.some.injEq]
    by_cases h : dh.ty = IT
    · simp [h]
    · simp [h, Ne.symm h]
  · unfold SimpleCompositeDataFilter.add_last_filter
    simp only [hne]
    cases castPipe heap IT cf.pipes.getLast? <;> simp

theorem add_filter_fails_iff_type_mismatch_witness :
    ((SimplePipeline.add_data_filter 5 7 (fun x : Nat => x)
        (SimplePipeline.new none 0 1 : SimplePipeline Nat Unit)).1.isSome ↔ (5 : Ty) ≠ 0) ∧
    ((SimpleCompositeDataFilter.add_last_filter 5 (fun x : Nat => x)
        ([⟨0, []⟩, ⟨1, []⟩, ⟨2, []⟩],
          (⟨1, 0, 1, [2], []⟩ : SimpleCompositeDataFilter Nat Unit))).1.isSome ↔ (5 : Ty) ≠ 2) :=
  have h := add_filter_fails_iff_type_mismatch (fun x : Nat => x) 5 7
    (SimplePipeline.new none 0 1 : SimplePipeline Nat Unit)
    [⟨0, []⟩, ⟨1, []⟩, ⟨2, []⟩] (⟨1, 0, 1, [2], []⟩ : SimpleCompositeDataFilter Nat Unit)
    0 2 ⟨0, []⟩ ⟨2, []⟩ rfl rfl rfl rfl
  ⟨h.1.1, h.2.2.1⟩

/-! ### Builder: counting channels and stages -/

theorem applyCall_pipes_length {α σ : Type} (c : Call α σ) (p : SimplePipeline α σ) :
    (applyCall c p).2.pipes.length =
      p.pipes.length + (if c.isFilter && (applyCall c p).1.isNone then 1 else 0) := by
  cases c with
  | source pf st =>
    cases h : castPipe p.chans p.srcTy p.pipes.head? <;>
      simp [applyCall, SimplePipeline.add_data_source, Call.isFilter, h,
        SimplePipeline.add_process_node]
  | filter IT OT f =>
    cases h : castPipe p.chans IT p.pipes.getLast? <;>
      simp [applyCall, SimplePipeline.add_data_filter, Call.isFilter, h,
        SimplePipeline.add_process_node]
  | sink =>
    cases h : castPipe p.chans p.sinkTy p.pipes.getLast? <;>
      simp [applyCall, SimplePipeline.add_data_sink, Call.isFilter, h,
        SimplePipeline.add_process_node]

theorem applyCall_filter_count {α σ : Type} (c : Call α σ) (p : SimplePipeline α σ) :
    (applyCall c p).2.nodes.countP Stage.isFilter =
      p.nodes.countP Stage.isFilter +
        (if c.isFilter && (applyCall c p).1.isNone then 1 else 0) := by
  cases c with
  | source pf st =>
    cases h : castPipe p.chans p.srcTy p.pipes.head? <;>
      simp [applyCall, SimplePipeline.add_data_source, Call.isFilter, h,
        SimplePipeline.add_process_node, List.countP_append, SimpleDataSource, Stage.isFilter]
  | filter IT OT f =>
    cases h : castPipe p.chans IT p.pipes.getLast? <;>
      simp [applyCall, SimplePipeline.add_data_filter, Call.isFilter, h,
        SimplePipeline.add_process_node, List.countP_append, SimpleDataFilter, Stage.isFilter]
  | sink =>
    cases h : castPipe p.chans p.sinkTy p.pipes.getLast? <;>
      simp [applyCall, SimplePipeline.add_data_sink, Call.isFilter, h,
        SimplePipeline.add_process_node, List.countP_append, SimpleDataSink, Stage.isFilter]

theorem runCalls_pipes_length {α σ : Type} (cs : List (Call α σ)) :
    ∀ p : SimplePipeline α σ, (runCalls cs p).pipes.length = p.pipes.length + okFilters cs p := by
  induction cs with
  | nil => intro p; simp [runCalls, okFilters]
  | cons c rest ih =>
    intro p
    simp only [runCalls, okFilters]
    rw [ih, applyCall_pipes_length]
    omega

theorem runCalls_filter_count {α σ : Type} (cs : List (Call α σ)) :
    ∀ p : SimplePipeline α σ,
      (runCalls cs p).nodes.countP Stage.isFilter =
        p.nodes.countP Stage.isFilter + okFilters cs p := by
  induction cs with
  | nil => intro p; simp [runCalls, okFilters]
  | cons c rest ih =>
    intro p
    simp only [runCalls, okFilters]
    rw [ih, applyCall_filter_count]
    omega

/-- Claim C6, refuted as stated: after the constructor and one `add_data_source`
the pipeline holds one channel and one stage, so the channel count is not the
stage count plus one. -/
theorem channels_eq_stages_succ_fails :
    ¬ ((runCalls [Call.source (fun _ => (none, ())) ()]
          (SimplePipeline.new none 0 0 : SimplePipeline Nat Unit)).pipes.length =
       (runCalls [Call.source (fun _ => (none, ())) ()]
          (SimplePipeline.new none 0 0 : SimplePipeline Nat Unit)).nodes.length + 1) := by
  decide

/-- Claim C6, amended: in every state reached from the constructor by builder
calls, the number of boundary channels is the number of registered filter
stages plus one. -/
theorem channels_eq_filter_stages_succ {α σ : Type} (cap : Option Nat) (srcTy sinkTy : Ty)
    (cs : List (Call α σ)) :
    (runCalls cs (SimplePipeline.new cap srcTy sinkTy)).pipes.length =
      (runCalls cs (SimplePipeline.new cap srcTy sinkTy)).nodes.countP Stage.isFilter + 1 := by
  rw [runCalls_pipes_length, runCalls_filter_count]
  simp [SimplePipeline.new]
  omega

/-- Claim C7: after any sequence of builder calls of which `k` are successful
`add_data_filter` calls the pipeline holds exactly `k + 1` boundary channels;
index 0 and index `k` of the channel list exist, `front()` and `back()` are
defined, and a call that fails or is not `add_data_filter` leaves the channel
list as it was. -/
theorem channel_count_is_filters_succ {α σ : Type} (cap : Option Nat) (srcTy sinkTy : Ty)
    (cs : List (Call α σ)) (c : Call α σ) :
    (runCalls cs (SimplePipeline.new cap srcTy sinkTy)).pipes.length =
        okFilters cs (SimplePipeline.new cap srcTy sinkTy) + 1 ∧
    (runCalls cs (SimplePipeline.new cap srcTy sinkTy)).pipes ≠ [] ∧
    ((runCalls cs (SimplePipeline.new cap srcTy sinkTy)).pipes.get? 0).isSome ∧
    ((runCalls cs (SimplePipeline.new cap srcTy sinkTy)).pipes.get?
        (okFilters cs (SimplePipeline.new cap srcTy sinkTy))).isSome ∧
    (runCalls cs (SimplePipeline.new cap srcTy sinkTy)).pipes.head?.isSome ∧
    (runCalls cs (SimplePipeline.new cap srcTy sinkTy)).pipes.getLast?.isSome ∧
    ((c.isFilter = false ∨
        (applyCall c (runCalls cs (SimplePipeline.new cap srcTy sinkTy))).1.isSome) →
      (applyCall c (runCalls cs (SimplePipeline.new cap srcTy sinkTy))).2.pipes =
        (runCalls cs (SimplePipeline.new cap srcTy sinkTy)).pipes) := by
  have hlen : (runCalls cs (SimplePipeline.new cap srcTy sinkTy)).pipes.length =
      okFilters cs (SimplePipeline.new cap srcTy sinkTy) + 1 := by
    rw [runCalls_pipes_length]
    simp [SimplePipeline.new]
    omega
  generalize runCalls cs (SimplePipeline.new cap srcTy sinkTy) = p at hlen ⊢
  generalize okFilters cs (SimplePipeline.new cap srcTy sinkTy) = k at hlen ⊢
  have hne : p.pipes ≠ [] := by
    intro h
    rw [h] at hlen
    simp at hlen
  refine ⟨hlen, hne, ?_, ?_, ?_, ?_, ?_⟩
  · rw [List.get?_eq_getElem?, Option.isSome_iff_exists]
    exact ⟨_, List.getElem?_eq_getElem (by omega)⟩
  · rw [List.get?_eq_getElem?, Option.isSome_iff_exists]
    exact ⟨_, List.getElem?_eq_getElem (by omega)⟩
  · cases hp : p.pipes with
    | nil => exact absurd hp hne
    | cons a l => rfl
  · rw [Option.isSome_iff_exists]
    exact ⟨_, List.getLast?_eq_getLast _ hne⟩
  · intro h
    cases c with
    | source pf st =>
      simp only [applyCall, SimplePipeline.add_data_source]
      cases castPipe p.chans p.srcTy p.pipes.head? <;> simp [SimplePipeline.add_process_node]
    | filter IT OT f =>
      simp only [applyCall, SimplePipeline.add_data_filter, Call.isFilter] at h ⊢
      cases hcp : castPipe p.chans IT p.pipes.getLast? with
      | error e => simp
      | ok a => simp [hcp] at h
    | sink =>
      simp only [applyCall, SimplePipeline.add_data_sink]
      cases castPipe p.chans p.sinkTy p.pipes.getLast? <;> simp [SimplePipeline.add_process_node]

/-! ### Builder: one writer and one reader for each channel -/

theorem castPipe_ok {α : Type} {heap : List (Chan α)} {T : Ty} {h : Option Nat} {c : Nat}
    (hc : castPipe heap T h = Except.ok c) : h = some c := by
  unfold castPipe at hc
  cases h with
  | none => simp at hc
  | some d =>
    simp only at hc
    split at hc
    · injection hc with hc; rw [hc]
    · simp at hc

theorem linearInv_new {α σ : Type} (cap : Option Nat) (srcTy sinkTy : Ty) :
    LinearInv (SimplePipeline.new cap srcTy sinkTy : SimplePipeline α σ) false false := by
  constructor <;> simp [SimplePipeline.new, make_pipe]

theorem linearInv_source {α σ : Type} {p : SimplePipeline α σ} {snk : Bool}
    (pf : σ → Option α × σ) (st : σ) (h : LinearInv p false snk) :
    LinearInv (p.add_data_source pf st).2 true snk := by
  cases hc : castPipe p.chans p.srcTy p.pipes.head? with
  | error e => simp only [SimplePipeline.add_data_source, hc]; exact { h with nosrc := by simp }
  | ok c =>
    have hc0 : c = 0 := by
      have := castPipe_ok hc
      rw [h.head] at this
      injection this with this
      exact this.symm
    subst hc0
    have hpos := h.pos
    have h0 := h.nosrc rfl
    simp only [SimplePipeline.add_data_source, hc]
    constructor
    · exact h.head
    · exact h.last
    · exact h.pos
    · intro c
      have h1 := h.one c
      by_cases hz : c = 0
      · subst hz
        simp [SimplePipeline.add_process_node, List.countP_append, SimpleDataSource,
          Stage.writes, Stage.reads, h0, h1.2]
      · simp [SimplePipeline.add_process_node, List.countP_append, SimpleDataSource,
          Stage.writes, Stage.reads, h1.1, h1.2, Ne.symm hz]
    · intro c hcl
      have h1 := h.fresh c hcl
      have hz : 0 ≠ c := by
        simp only [SimplePipeline.add_process_node] at hcl
        omega
      simp [SimplePipeline.add_process_node, List.countP_append, SimpleDataSource,
        Stage.writes, Stage.reads, h1.1, h1.2, hz]
    · simp
    · intro hs
      have := h.nosnk hs
      simpa [SimplePipeline.add_process_node, List.countP_append, SimpleDataSource,
        Stage.reads] using this

theorem linearInv_sink {α σ : Type} {p : SimplePipeline α σ} {src : Bool}
    (h : LinearInv p src false) : LinearInv p.add_data_sink.2 src true := by
  cases hc : castPipe p.chans p.sinkTy p.pipes.getLast? with
  | error e => simp only [SimplePipeline.add_data_sink, hc]; exact { h with nosnk := by simp }
  | ok c =>
    have hc0 : c = p.chans.length - 1 := by
      have := castPipe_ok hc
      rw [h.last] at this
      injection this with this
      exact this.symm
    have h0 := h.nosnk rfl
    simp only [SimplePipeline.add_data_sink, hc]
    constructor
    · exact h.head
    · exact h.last
    · exact h.pos
    · intro d
      have h1 := h.one d
      by_cases hz : c = d
      · subst hz
        rw [← hc0] at h0
        simp [SimplePipeline.add_process_node, List.countP_append, SimpleDataSink,
          Stage.writes, Stage.reads, h0, h1.1]
      · simp [SimplePipeline.add_process_node, List.countP_append, SimpleDataSink,
          Stage.writes, Stage.reads, h1.1, h1.2, hz]
    · intro d hcl
      have h1 := h.fresh d hcl
      have hpos := h.pos
      have hz : c ≠ d := by
        simp only [SimplePipeline.add_process_node] at hcl
        omega
      simp [SimplePipeline.add_process_node, List.countP_append, SimpleDataSink,
        Stage.writes, Stage.reads, h1.1, h1.2, hz]
    · intro hs
      have := h.nosrc hs
      simpa [SimplePipeline.add_process_node, List.countP_append, SimpleDataSink,
        Stage.writes] using this
    · simp

theorem linearInv_filter {α σ : Type} {p : SimplePipeline α σ} {src : Bool}
    (IT OT : Ty) (f : α → α) (h : LinearInv p src false) :
    LinearInv (p.add_data_filter IT OT f).2 src false := by
  cases hc : castPipe p.chans IT p.pipes.getLast? with
  | error e => simp only [SimplePipeline.add_data_filter, hc]; exact h
  | ok c =>
    have hc0 : c = p.chans.length - 1 := by
      have := castPipe_ok hc
      rw [h.last] at this
      injection this with this
      exact this.symm
    have h0 := h.nosnk rfl
    have hpos := h.pos
    have hf := h.fresh p.chans.length (Nat.le_refl _)
    have hne : p.pipes ≠ [] := by
      intro hp
      have := h.head
      rw [hp] at this
      simp at this
    simp only [SimplePipeline.add_data_filter, hc]
    constructor
    · simp only [SimplePipeline.add_process_node, make_pipe]
      rw [List.head?_append_of_ne_nil _ hne]
      exact h.head
    · simp [SimplePipeline.add_process_node, make_pipe]
    · simp [SimplePipeline.add_process_node, make_pipe]
    · intro d
      have h1 := h.one d
      by_cases hz : c = d
      · subst hz
        rw [← hc0] at h0
        have hz2 : p.chans.length ≠ c := by omega
        simp [SimplePipeline.add_process_node, List.countP_append, SimpleDataFilter,
          Stage.writes, Stage.reads, make_pipe, h0, h1.1, hz2]
      · by_cases hz2 : p.chans.length = d
        · subst hz2
          simp [SimplePipeline.add_process_node, List.countP_append, SimpleDataFilter,
            Stage.writes, Stage.reads, make_pipe, hf.1, h1.2, hz]
        · simp [SimplePipeline.add_process_node, List.countP_append, SimpleDataFilter,
            Stage.writes, Stage.reads, make_pipe, h1.1, h1.2, hz, hz2]
    · intro d hcl
      simp only [SimplePipeline.add_process_node, make_pipe, List.length_append,
        List.length_singleton] at hcl
      have h1 := h.fresh d (by omega)
      have hz : c ≠ d := by omega
      have hz2 : p.chans.length ≠ d := by omega
      simp [SimplePipeline.add_process_node, List.countP_append, SimpleDataFilter,
        Stage.writes, Stage.reads, make_pipe, h1.1, h1.2, hz, hz2]
    · intro hs
      have := h.nosrc hs
      have hz2 : p.chans.length ≠ 0 := by omega
      simp [SimplePipeline.add_process_node, List.countP_append, SimpleDataFilter,
        Stage.writes, make_pipe, this, hz2]
    · intro _
      have hz : c ≠ p.chans.length := by omega
      simp [SimplePipeline.add_process_node, List.countP_append, SimpleDataFilter,
        Stage.reads, make_pipe, hf.2, hz]

theorem linearInv_runCalls {α σ : Type} (cs : List (Call α σ)) :
    ∀ (p : SimplePipeline α σ) (src snk : Bool), linearCalls src snk cs = true →
      LinearInv p src snk →
      ∀ c, (runCalls cs p).nodes.countP (Stage.writes c) ≤ 1 ∧
        (runCalls cs p).nodes.countP (Stage.reads c) ≤ 1 := by
  induction cs with
  | nil => intro p src snk _ h c; exact h.one c
  | cons a rest ih =>
    intro p src snk hl h
    cases a with
    | source pf st =>
      simp only [linearCalls, Bool.and_eq_true, Bool.not_eq_true'] at hl
      obtain ⟨hs, hl⟩ := hl
      subst hs
      exact ih _ true snk hl (linearInv_source pf st h)
    | filter IT OT f =>
      simp only [linearCalls, Bool.and_eq_true, Bool.not_eq_true'] at hl
      obtain ⟨hs, hl⟩ := hl
      subst hs
      exact ih _ src false hl (linearInv_filter IT OT f h)
    | sink =>
      simp only [linearCalls, Bool.and_eq_true, Bool.not_eq_true'] at hl
      obtain ⟨hs, hl⟩ := hl
      subst hs
      exact ih _ src true hl (linearInv_sink h)

/-- Claim C5, refuted as stated: two successful `add_data_source` calls register
two stages that both write the first boundary channel. -/
theorem single_writer_fails_two_sources :
    ¬ (∀ c, (runCalls [Call.source (fun _ => (none, ())) (), Call.source (fun _ => (none, ())) ()]
          (SimplePipeline.new none 0 0 : SimplePipeline Nat Unit)).nodes.countP (Stage.writes c) ≤ 1 ∧
        (runCalls [Call.source (fun _ => (none, ())) (), Call.source (fun _ => (none, ())) ()]
          (SimplePipeline.new none 0 0 : SimplePipeline Nat Unit)).nodes.countP (Stage.reads c) ≤ 1) := by
  intro h
  exact absurd (h 0).1 (by decide)

/-- Claim C5, amended: in every state reached from the constructor by a call
sequence with at most one `add_data_source`, at most one `add_data_sink` and no
`add_data_filter` after the `add_data_sink`, every channel is the output channel
of at most one registered stage and the input channel of at most one. -/
theorem single_writer_single_reader {α σ : Type} (cap : Option Nat) (srcTy sinkTy : Ty)
    (cs : List (Call α σ)) (hl : linearCalls false false cs = true) (c : Nat) :
    (runCalls cs (SimplePipeline.new cap srcTy sinkTy)).nodes.countP (Stage.writes c) ≤ 1 ∧
    (runCalls cs (SimplePipeline.new cap srcTy sinkTy)).nodes.countP (Stage.reads c) ≤ 1 :=
  linearInv_runCalls cs _ false false hl (linearInv_new cap srcTy sinkTy) c

theorem single_writer_single_reader_witness :
    (runCalls [Call.source (fun _ => (none, ())) (), Call.filter 0 0 (fun x => x * 2), Call.sink]
        (SimplePipeline.new none 0 0 : SimplePipeline Nat Unit)).nodes.countP (Stage.writes 1) ≤ 1 ∧
    (runCalls [Call.source (fun _ => (none, ())) (), Call.filter 0 0 (fun x => x * 2), Call.sink]
        (SimplePipeline.new none 0 0 : SimplePipeline Nat Unit)).nodes.countP (Stage.reads 1) ≤ 1 :=
  single_writer_single_reader none 0 0
    [Call.source (fun _ => (none, ())) (), Call.filter 0 0 (fun x => x * 2), Call.sink] rfl 1

/-! ### Worker steps keep the `done` flag and the thread handle -/

theorem set_get?_self {β : Type} (l : List β) (i : Nat) (a : β) (h : l.get? i = some a) :
    l.set i a = l := by
  induction l generalizing i with
  | nil => rfl
  | cons b t ih =>
    cases i with
    | zero => simp at h; simp [h]
    | succ n => simp at h; simp [ih n (by simpa using h)]

theorem stepWorker_spec {α σ : Type} {i : Nat} {s s' : System α σ}
    (h : stepWorker i s = some s') :
    ∃ nd nd', s.nodes.get? i = some nd ∧ s'.nodes = s.nodes.set i nd' ∧ nd'.done = nd.done ∧
      nd.worker.isSome = true ∧ nd'.worker.isSome = true ∧ s'.cap = s.cap := by
  unfold stepWorker at h
  split at h
  · simp at h
  · rename_i nd hnd
    refine ⟨nd, ?_⟩
    repeat' split at h
    all_goals first
      | (exfalso; simp at h; done)
      | (injection h with h; subst h; rename_i hw; exact ⟨_, hnd, rfl, by simp_all, by simp [*], by simp, rfl⟩)

theorem stepWorker_sig {α σ : Type} {i : Nat} {s s' : System α σ}
    (h : stepWorker i s = some s') : s'.nodes.map Stage.sig = s.nodes.map Stage.sig := by
  obtain ⟨nd, nd', hnd, hs, hd, hw, hw', _⟩ := stepWorker_spec h
  rw [hs, List.map_set]
  apply set_get?_self
  rw [List.get?_eq_getElem?, List.getElem?_map, ← List.get?_eq_getElem?, hnd]
  simp [Stage.sig, hd, hw, hw']

theorem exec_sig {α σ : Type} (sched : List Nat) :
    ∀ s : System α σ, (exec sched s).nodes.map Stage.sig = s.nodes.map Stage.sig := by
  induction sched with
  | nil => intro s; rfl
  | cons i rest ih =>
    intro s
    simp only [exec]
    rw [ih]
    cases h : stepWorker i s with
    | none => rfl
    | some s' => exact stepWorker_sig h

theorem exec_sig_at {α σ : Type} (sched : List Nat) (s : System α σ) (j : Nat) :
    ((exec sched s).nodes.get? j).map Stage.sig = (s.nodes.get? j).map Stage.sig := by
  have h := congrArg (fun l => l.get? j) (exec_sig sched s)
  simpa [List.getElem?_map] using h

theorem get?_set_self {β : Type} (l : List β) (i : Nat) (a b : β) (h : l.get? i = some a) :
    (l.set i b).get? i = some b := by
  rw [List.get?_eq_getElem?] at h ⊢
  have hlt : i < l.length := by
    rcases Nat.lt_or_ge i l.length with h1 | h1
    · exact h1
    · rw [List.getElem?_eq_none h1] at h; simp at h
  simp [List.getElem?_set, hlt]

/-! ### Lifecycle: `start`, `stop`, restart -/

theorem join_some {α σ : Type} {nd nd' : Stage α σ} (h : nd.join = some nd') :
    nd.worker = some PC.exited ∧ nd' = { nd with worker := none } := by
  unfold Stage.join at h
  split at h
  · rename_i hw
    injection h with h
    exact ⟨hw, h.symm⟩
  · simp at h

theorem stopAt_joined {α σ : Type} {i : Nat} {sched : List Nat} {s s' : System α σ}
    {nd : Stage α σ} (h : stopAt i sched s = some s') (hnd : s.nodes.get? i = some nd)
    (hw : nd.worker.isSome = true) :
    ∃ nd', s'.nodes.get? i = some nd' ∧ nd'.done = true ∧ nd'.worker = none := by
  unfold stopAt at h
  simp only [hnd, Stage.stop_begin, hw, Bool.not_true, Bool.false_eq_true, if_false,
    if_true] at h
  have hsig := exec_sig_at sched { s with nodes := s.nodes.set i { nd with done := true } } i
  simp only [get?_set_self _ _ _ _ hnd, Option.map_some'] at hsig
  cases hg : (exec sched { s with nodes := s.nodes.set i { nd with done := true } }).nodes.get? i with
  | none => simp [← List.get?_eq_getElem?, hg] at h
  | some nd2 =>
    rw [hg] at hsig
    simp only [← List.get?_eq_getElem?, hg, Option.some_bind] at h
    cases hj : nd2.join with
    | none => simp [hj] at h
    | some nd3 =>
      simp only [hj, Option.some.injEq] at h
      obtain ⟨_, h3⟩ := join_some hj
      subst h
      refine ⟨nd3, get?_set_self _ _ _ _ hg, ?_, ?_⟩
      · simp only [Option.map_some', Option.some.injEq, Stage.sig, Prod.mk.injEq] at hsig
        rw [h3]
        exact hsig.1
      · rw [h3]

theorem stopAt_alive {α σ : Type} {i : Nat} {sched : List Nat} {s s' : System α σ}
    (h : stopAt i sched s = some s') (j : Nat) (nd' : Stage α σ)
    (hj : s'.nodes.get? j = some nd') (hw : nd'.worker.isSome = true) :
    j ≠ i ∧ ∃ nd, s.nodes.get? j = some nd ∧ nd.worker.isSome = true := by
  cases hnd : s.nodes.get? i with
  | none =>
    have hs : s' = s := by
      unfold stopAt at h
      simp only [hnd] at h
      injection h with h
      exact h.symm
    subst hs
    refine ⟨?_, nd', hj, hw⟩
    intro hji
    subst hji
    rw [hnd] at hj
    simp at hj
  | some nd =>
    by_cases hal : nd.worker.isSome = true
    · obtain ⟨nd3, h3, _, hw3⟩ := stopAt_joined h hnd hal
      have hji : j ≠ i := by
        intro hji
        subst hji
        rw [h3] at hj
        injection hj with hj
        subst hj
        rw [hw3] at hw
        simp at hw
      refine ⟨hji, ?_⟩
      unfold stopAt at h
      simp only [hnd, Stage.stop_begin, hal, Bool.not_true, Bool.false_eq_true, if_false,
        if_true] at h
      have hsig := exec_sig_at sched { s with nodes := s.nodes.set i { nd with done := true } } j
      cases hb : ((exec sched { s with nodes := s.nodes.set i { nd with done := true } }).nodes.get?
          i).bind Stage.join with
      | none => simp [← List.get?_eq_getElem?, hb] at h
      | some nd4 =>
        simp only [← List.get?_eq_getElem?, hb, Option.some.injEq] at h
        subst h
        simp only [List.get?_eq_getElem?, List.getElem?_set_ne (Ne.symm hji)] at hj hsig
        rw [hj] at hsig
        cases hs : s.nodes[j]? with
        | none => simp [hs] at hsig
        | some nd0 =>
          simp only [hs, Option.map_some', Option.some.injEq, Stage.sig, Prod.mk.injEq] at hsig
          refine ⟨nd0, by simp [hs], ?_⟩
          rw [← hsig.2]
          exact hw
    · have hs : s' = s := by
        unfold stopAt at h
        simp only [hnd, Stage.stop_begin, hal, Bool.not_false, if_true, Bool.false_eq_true,
          if_false] at h
        injection h with h
        exact h.symm
      subst hs
      refine ⟨?_, nd', hj, hw⟩
      intro hji
      subst hji
      rw [hnd] at hj
      injection hj with hj
      subst hj
      exact hal hw

theorem stopFrom_alive {α σ : Type} (scheds : List (List Nat)) :
    ∀ (i : Nat) (s s' : System α σ), stopFrom i scheds s = some s' →
      ∀ (j : Nat) (nd' : Stage α σ), s'.nodes.get? j = some nd' → nd'.worker.isSome = true →
        (j < i ∨ i + scheds.length ≤ j) ∧ ∃ nd, s.nodes.get? j = some nd ∧ nd.worker.isSome = true := by
  induction scheds with
  | nil =>
    intro i s s' h j nd' hj hw
    simp only [stopFrom, Option.some.injEq] at h
    subst h
    exact ⟨by simp; omega, nd', hj, hw⟩
  | cons sch rest ih =>
    intro i s s' h j nd' hj hw
    simp only [stopFrom] at h
    cases h1 : stopAt i sch s with
    | none => simp [h1] at h
    | some s1 =>
      simp only [h1, Option.some_bind] at h
      obtain ⟨hr, nd1, hj1, hw1⟩ := ih (i + 1) s1 s' h j nd' hj hw
      obtain ⟨hji, hex⟩ := stopAt_alive h1 j nd1 hj1 hw1
      refine ⟨?_, hex⟩
      simp only [List.length_cons]
      omega

theorem start_of_joinable {α σ : Type} (nd : Stage α σ) (h : nd.worker.isSome = true) :
    nd.start = nd := by
  simp [Stage.start, h]

theorem start_joinable {α σ : Type} (nd : Stage α σ) : nd.start.worker.isSome = true := by
  unfold Stage.start
  split
  · assumption
  · rfl

theorem startAt_of_joinable {α σ : Type} (i : Nat) (s : System α σ)
    (h : ∀ nd, s.nodes.get? i = some nd → nd.worker.isSome = true) : startAt i s = s := by
  unfold startAt
  cases hnd : s.nodes.get? i with
  | none => rfl
  | some nd =>
    simp only
    rw [start_of_joinable nd (h nd hnd), set_get?_self _ _ _ hnd]

theorem startAt_get {α σ : Type} (i : Nat) (s : System α σ) (nd : Stage α σ)
    (h : s.nodes.get? i = some nd) : (startAt i s).nodes.get? i = some nd.start := by
  unfold startAt
  simp only [h]
  exact get?_set_self _ _ _ _ h

theorem exec_startAt_joinable {α σ : Type} (i : Nat) (sched : List Nat) (s : System α σ)
    (nd1 : Stage α σ) (h : (exec sched (startAt i s)).nodes.get? i = some nd1) :
    nd1.worker.isSome = true := by
  have hsig := exec_sig_at sched (startAt i s) i
  rw [h] at hsig
  cases hnd : s.nodes.get? i with
  | none =>
    have : startAt i s = s := by unfold startAt; rw [hnd]
    rw [this, hnd] at hsig
    simp at hsig
  | some nd =>
    rw [startAt_get i s nd hnd] at hsig
    simp only [Option.map_some', Option.some.injEq, Stage.sig, Prod.mk.injEq] at hsig
    rw [hsig.2]
    exact start_joinable nd

/-- Claim C9: `start()` twice in a row is `start()` once, for a Simple stage and
for a composite; on a stage of a running system the second call changes nothing
even after the worker spawned by the first has run along any schedule. -/
theorem start_twice_eq_start_once {α σ : Type} (nd : Stage α σ)
    (c : SimpleCompositeDataFilter α σ) (sys : System α σ) (i : Nat) (sched : List Nat) :
    nd.start.start = nd.start ∧ c.start.start = c.start ∧
    startAt i (startAt i sys) = startAt i sys ∧
    startAt i (exec sched (startAt i sys)) = exec sched (startAt i sys) := by
  have h1 : ∀ x : Stage α σ, x.start.start = x.start :=
    fun x => start_of_joinable _ (start_joinable x)
  refine ⟨h1 nd, ?_, ?_, ?_⟩
  · simp only [SimpleCompositeDataFilter.start, List.map_map]
    congr 1
    apply List.map_congr_left
    intro x _
    exact h1 x
  · exact startAt_of_joinable i _ (fun nd1 h => exec_startAt_joinable i [] sys nd1 h)
  · exact startAt_of_joinable i _ (fun nd1 h => exec_startAt_joinable i sched sys nd1 h)

/-- Claim C10: `stop()` on a stage whose worker is not running returns at once and
leaves the whole state, `done` included, as it was; whenever `stop()` returns, the
stage has no worker; the same for a composite and all its internal stages. -/
theorem stop_noop_and_joined {α σ : Type} (nd : Stage α σ) (sys s' : System α σ) (i : Nat)
    (sched : List Nat) (c : SimpleCompositeDataFilter α σ) (scheds : List (List Nat))
    (cap : Option Nat) (heap : List (Chan α))
    (r : List (Chan α) × SimpleCompositeDataFilter α σ) :
    (nd.worker = none → nd.stop_begin = (nd, false)) ∧
    (sys.nodes.get? i = some nd → nd.worker = none → stopAt i sched sys = some sys) ∧
    (stopAt i sched sys = some s' → ∀ nd', s'.nodes.get? i = some nd' → nd'.worker = none) ∧
    ((∀ x ∈ c.filters, x.worker = none) → scheds.length = c.filters.length →
      c.stop scheds cap heap = some (heap, c)) ∧
    (c.stop scheds cap heap = some r → ∀ x ∈ r.2.filters, x.worker = none) := by
  have hA : ∀ (s : System α σ) (j : Nat) (sch : List Nat),
      (∀ x, s.nodes.get? j = some x → x.worker = none) → stopAt j sch s = some s := by
    intro s j sch hx
    unfold stopAt
    cases hnd : s.nodes.get? j with
    | none => rfl
    | some x => simp [Stage.stop_begin, hx x hnd]
  have hB : ∀ (l : List (List Nat)) (j : Nat) (s : System α σ),
      (∀ x ∈ s.nodes, x.worker = none) → stopFrom j l s = some s := by
    intro l
    induction l with
    | nil => intro j s _; rfl
    | cons sch rest ih =>
      intro j s hx
      simp only [stopFrom]
      rw [hA s j sch (fun x hxj => hx x (List.get?_mem hxj))]
      exact ih (j + 1) s hx
  refine ⟨?_, ?_, ?_, ?_, ?_⟩
  · intro h
    simp [Stage.stop_begin, h]
  · intro hnd hw
    exact hA sys i sched (fun x hx => by rw [hnd] at hx; injection hx with hx; rw [← hx]; exact hw)
  · intro h nd' hnd'
    cases hw : nd'.worker with
    | none => rfl
    | some pc =>
      have := stopAt_alive h i nd' hnd' (by simp [hw])
      exact absurd rfl this.1
  · intro hx hlen
    unfold SimpleCompositeDataFilter.stop
    simp only [hlen, if_true]
    rw [hB scheds 0 (c.system cap heap) hx]
    rfl
  · intro h x hx
    unfold SimpleCompositeDataFilter.stop at h
    split at h
    · rename_i hlen
      cases hs : stopFrom 0 scheds (c.system cap heap) with
      | none => simp [hs] at h
      | some s1 =>
        simp only [hs, Option.map_some', Option.some.injEq] at h
        subst h
        simp only at hx
        obtain ⟨j, hj⟩ := List.get?_of_mem hx
        cases hw : x.worker with
        | none => rfl
        | some pc =>
          obtain ⟨hr, nd0, hj0, _⟩ := stopFrom_alive scheds 0 _ _ hs j x hj (by simp [hw])
          have hlt : j < c.filters.length := by
            simp only [SimpleCompositeDataFilter.system, List.get?_eq_getElem?] at hj0
            rcases Nat.lt_or_ge j c.filters.length with h1 | h1
            · exact h1
            · rw [List.getElem?_eq_none h1] at hj0; simp at hj0
          omega
    · simp at h

theorem stop_noop_and_joined_witness :
    (stopAt 0 [0] (startAt 0 demoFilterSys)).isSome = true ∧
    (((stopAt 0 [0] (startAt 0 demoFilterSys)).getD demoFilterSys).nodes.get? 0).isSome = true ∧
    (((stopAt 0 [0] (startAt 0 demoFilterSys)).getD demoFilterSys).nodes.get? 0).map Stage.worker =
      some none :=
  ⟨rfl, rfl, congrArg some
    ((stop_noop_and_joined (SimpleDataFilter (fun x => x * 2) 0 1) (startAt 0 demoFilterSys)
      ((stopAt 0 [0] (startAt 0 demoFilterSys)).getD demoFilterSys) 0 [0] demoComposite
      [[0], [1]] none [] ([], demoComposite)).2.2.1 rfl
      ⟨Role.filter (fun x => x * 2) 0 1, true, none⟩ rfl)⟩

/-- Claim C3, refuted as stated: a doubling filter with 1 and 2 waiting on its
input moves the first item after the first `start()`, but after `start(); stop();
start()` the same three worker steps move nothing and the worker has returned. -/
theorem restart_processes_nothing :
    (exec [0, 0, 0] (startAt 0 demoFilterSys)).chans.map Chan.q = [[2], [2]] ∧
    (stopAt 0 [0] (startAt 0 demoFilterSys)).map
        (fun s => (exec [0, 0, 0] (startAt 0 s)).chans.map Chan.q) = some [[1, 2], []] ∧
    (stopAt 0 [0] (startAt 0 demoFilterSys)).map
        (fun s => (exec [0, 0, 0] (startAt 0 s)).nodes.map Stage.worker) =
      some [some PC.exited] := by
  decide

/-- Claim C3, amended: the cycle `start(); stop(); start()` is legal: once `stop()`
has returned the stage has no worker and a further `start()` spawns one; but
`done` stays set, so the only step of the re-spawned worker is to leave its loop at
the first test, with every channel and the callback state untouched. -/
theorem restart_worker_exits_at_once {α σ : Type} (sys s4 : System α σ) (i : Nat)
    (nd : Stage α σ) (sched1 sched2 : List Nat) (h0 : sys.nodes.get? i = some nd)
    (hstop : stopAt i sched2 (exec sched1 (startAt i sys)) = some s4) :
    ∃ nd4, s4.nodes.get? i = some nd4 ∧ nd4.worker = none ∧ nd4.done = true ∧
      (startAt i s4).nodes.get? i = some { nd4 with worker := some PC.top } ∧
      stepWorker i (startAt i s4) =
        some { s4 with nodes := s4.nodes.set i { nd4 with worker := some PC.exited } } ∧
      stepWorker i { s4 with nodes := s4.nodes.set i { nd4 with worker := some PC.exited } } =
        none := by
  have hsig := exec_sig_at sched1 (startAt i sys) i
  rw [startAt_get i sys nd h0] at hsig
  cases h1 : (exec sched1 (startAt i sys)).nodes.get? i with
  | none => rw [h1] at hsig; simp at hsig
  | some nd1 =>
    have hw1 := exec_startAt_joinable i sched1 sys nd1 h1
    obtain ⟨nd4, h4, hd4, hw4⟩ := stopAt_joined hstop h1 hw1
    have hst : nd4.start = { nd4 with worker := some PC.top } := by
      simp [Stage.start, hw4]
    have hg : (startAt i s4).nodes.get? i = some { nd4 with worker := some PC.top } := by
      rw [startAt_get i s4 nd4 h4, hst]
    refine ⟨nd4, h4, hw4, hd4, hg, ?_, ?_⟩
    · unfold stepWorker
      rw [hg]
      simp only [hd4, if_true]
      unfold startAt
      simp only [h4, List.set_set]
    · unfold stepWorker
      simp only [get?_set_self _ _ _ _ h4]

theorem restart_worker_exits_at_once_witness :
    ∃ nd4, ((stopAt 0 [0] (exec [] (startAt 0 demoFilterSys))).getD demoFilterSys).nodes.get? 0 =
        some nd4 ∧ nd4.worker = none ∧ nd4.done = true ∧
      (startAt 0 ((stopAt 0 [0] (exec [] (startAt 0 demoFilterSys))).getD demoFilterSys)).nodes.get? 0 =
        some { nd4 with worker := some PC.top } ∧
      stepWorker 0 (startAt 0 ((stopAt 0 [0] (exec [] (startAt 0 demoFilterSys))).getD demoFilterSys)) =
        some { ((stopAt 0 [0] (exec [] (startAt 0 demoFilterSys))).getD demoFilterSys) with
          nodes := ((stopAt 0 [0] (exec [] (startAt 0 demoFilterSys))).getD demoFilterSys).nodes.set 0
            { nd4 with worker := some PC.exited } } ∧
      stepWorker 0 { ((stopAt 0 [0] (exec [] (startAt 0 demoFilterSys))).getD demoFilterSys) with
          nodes := ((stopAt 0 [0] (exec [] (startAt 0 demoFilterSys))).getD demoFilterSys).nodes.set 0
            { nd4 with worker := some PC.exited } } = none :=
  restart_worker_exits_at_once demoFilterSys
    ((stopAt 0 [0] (exec [] (startAt 0 demoFilterSys))).getD demoFilterSys) 0
    (SimpleDataFilter (fun x => x * 2) 0 1) [] [0] rfl rfl

/-! ### Values in flight: the abstract chain -/

theorem flowA_eq {α : Type} (Q I : Nat → List α) (F : Nat → α → α) (base : List α) (n : Nat) :
    flowA Q I F base n = Q n ++ belowA Q I F base n := by
  cases n <;> rfl

theorem flowA_congr {α : Type} {Q I Q' I' : Nat → List α} {F F' : Nat → α → α} (base : List α)
    (n : Nat) (hQ : ∀ c, c ≤ n → Q' c = Q c) (hI : ∀ c, c < n → I' c = I c)
    (hF : ∀ c, c < n → F' c = F c) :
    flowA Q' I' F' base n = flowA Q I F base n := by
  induction n with
  | zero => simp [flowA, hQ 0 (Nat.le_refl 0)]
  | succ n ih =>
    simp only [flowA]
    rw [hQ (n + 1) (Nat.le_refl _), hI n (Nat.lt_succ_self n), hF n (Nat.lt_succ_self n),
      ih (fun c hc => hQ c (by omega)) (fun c hc => hI c (by omega))
        (fun c hc => hF c (by omega))]

theorem flowA_pop {α : Type} {Q I Q' I' : Nat → List α} {F : Nat → α → α} (base : List α)
    {c : Nat} {v : α} {rest : List α} (hq : Q c = v :: rest) (hi : I c = [])
    (hQ : ∀ x, Q' x = if x = c then rest else Q x)
    (hI : ∀ x, I' x = if x = c then [F c v] else I x) (n : Nat) (hn : c < n) :
    flowA Q' I' F base n = flowA Q I F base n := by
  induction n with
  | zero => omega
  | succ n ih =>
    simp only [flowA]
    have hq1 : Q' (n + 1) = Q (n + 1) := by rw [hQ, if_neg (by omega)]
    rw [hq1]
    by_cases hcn : c = n
    · subst hcn
      have hb : belowA Q' I' F base c = belowA Q I F base c := by
        cases c with
        | zero => rfl
        | succ m =>
          have hc : flowA Q' I' F base m = flowA Q I F base m :=
            flowA_congr base m (fun x hx => by rw [hQ x, if_neg (by omega)])
              (fun x hx => by rw [hI x, if_neg (by omega)]) (fun _ _ => rfl)
          have : I' m = I m := by rw [hI, if_neg (by omega)]
          simp only [belowA]
          rw [this, hc]
      rw [flowA_eq Q' I' F base c, flowA_eq Q I F base c, hb, hq, hi]
      have h1 : Q' c = rest := by rw [hQ, if_pos rfl]
      have h2 : I' c = [F c v] := by rw [hI, if_pos rfl]
      rw [h1, h2]
      simp
    · have h2 : I' n = I n := by rw [hI, if_neg (by omega)]
      rw [h2, ih (by omega)]

theorem flowA_push {α : Type} {Q I Q' I' : Nat → List α} {F : Nat → α → α} (base : List α)
    {c : Nat} {r : α} (hi : I c = [r])
    (hQ : ∀ x, Q' x = if x = c + 1 then Q (c + 1) ++ [r] else Q x)
    (hI : ∀ x, I' x = if x = c then [] else I x) (n : Nat) (hn : c < n) :
    flowA Q' I' F base n = flowA Q I F base n := by
  induction n with
  | zero => omega
  | succ n ih =>
    simp only [flowA]
    by_cases hcn : c = n
    · subst hcn
      have h1 : Q' (c + 1) = Q (c + 1) ++ [r] := by rw [hQ, if_pos rfl]
      have h2 : I' c = [] := by rw [hI, if_pos rfl]
      have hc : flowA Q' I' F base c = flowA Q I F base c :=
        flowA_congr base c (fun x hx => by rw [hQ x, if_neg (by omega)])
          (fun x hx => by rw [hI x, if_neg (by omega)]) (fun _ _ => rfl)
      rw [h1, h2, hi, hc]
      simp
    · have h1 : Q' (n + 1) = Q (n + 1) := by rw [hQ, if_neg (by omega)]
      have h2 : I' n = I n := by rw [hI, if_neg (by omega)]
      rw [h1, h2, ih (by omega)]

theorem flowA_feed {α : Type} {Q I Q' : Nat → List α} {F : Nat → α → α} (base : List α)
    {v : α} (hQ : ∀ x, Q' x = if x = 0 then Q 0 ++ [v] else Q x) (n : Nat) :
    flowA Q' I F base n = flowA Q I F (v :: base) n := by
  induction n with
  | zero => simp [flowA, hQ]
  | succ n ih =>
    simp only [flowA]
    have h1 : Q' (n + 1) = Q (n + 1) := by rw [hQ, if_neg (by omega)]
    rw [h1, ih]

theorem flowA_drain {α : Type} {Q I Q' : Nat → List α} {F : Nat → α → α} (base : List α)
    {n : Nat} {v : α} {rest : List α} (hq : Q n = v :: rest)
    (hQ : ∀ x, Q' x = if x = n then rest else Q x) :
    flowA Q I F base n = v :: flowA Q' I F base n := by
  have hb : belowA Q' I F base n = belowA Q I F base n := by
    cases n with
    | zero => rfl
    | succ m =>
      have hc : flowA Q' I F base m = flowA Q I F base m :=
        flowA_congr base m (fun x hx => by rw [hQ x, if_neg (by omega)]) (fun _ _ => rfl)
          (fun _ _ => rfl)
      simp only [belowA]
      rw [hc]
  rw [flowA_eq Q I F base n, flowA_eq Q' I F base n, hb, hq]
  have h1 : Q' n = rest := by rw [hQ, if_pos rfl]
  rw [h1]
  rfl

/-! ### Values in flight: channel operations and worker steps -/

theorem popChan_spec {α : Type} {chans chans' : List (Chan α)} {c : Nat} {v : α}
    (h : popChan chans c = some (v, chans')) :
    ∃ rest, qOf chans c = v :: rest ∧ ∀ x, qOf chans' x = if x = c then rest else qOf chans x := by
  unfold popChan at h
  split at h
  · rename_i ty w rest hc
    simp only [Option.some.injEq, Prod.mk.injEq] at h
    obtain ⟨hv, hch⟩ := h
    subst hv hch
    refine ⟨rest, by unfold qOf; rw [hc], ?_⟩
    intro x
    by_cases hx : x = c
    · subst hx
      unfold qOf
      rw [get?_set_self _ _ _ _ hc, if_pos rfl]
    · simp only [qOf, List.get?_eq_getElem?, List.getElem?_set_ne (Ne.symm hx), if_neg hx]
  · simp at h

theorem pushChan_spec {α : Type} {cap : Option Nat} {chans chans' : List (Chan α)} {c : Nat}
    {v : α} (h : pushChan cap chans c v = some chans') :
    ∀ x, qOf chans' x = if x = c then qOf chans c ++ [v] else qOf chans x := by
  unfold pushChan at h
  split at h
  · rename_i ty q hc
    split at h
    · simp only [Option.some.injEq] at h
      subst h
      intro x
      by_cases hx : x = c
      · subst hx
        unfold qOf
        rw [get?_set_self _ _ _ _ hc, hc, if_pos rfl]
      · simp only [qOf, List.get?_eq_getElem?, List.getElem?_set_ne (Ne.symm hx), if_neg hx]
    · simp at h
  · simp at h

theorem inflOf_set {α σ : Type} (nodes : List (Stage α σ)) (i : Nat) (nd nd' : Stage α σ)
    (h : nodes.get? i = some nd) (x : Nat) :
    inflOf (nodes.set i nd') x = if x = i then nd'.inflight else inflOf nodes x := by
  by_cases hx : x = i
  · subst hx
    unfold inflOf
    rw [get?_set_self _ _ _ _ h, if_pos rfl]
  · simp only [inflOf, List.get?_eq_getElem?, List.getElem?_set_ne (Ne.symm hx), if_neg hx]

theorem fnOf_set {α σ : Type} (nodes : List (Stage α σ)) (i : Nat) (nd nd' : Stage α σ)
    (h : nodes.get? i = some nd) (hf : nd'.fn = nd.fn) (x : Nat) :
    fnOf (nodes.set i nd') x = fnOf nodes x := by
  by_cases hx : x = i
  · subst hx
    unfold fnOf
    rw [get?_set_self _ _ _ _ h, h]
    exact hf
  · simp only [fnOf, List.get?_eq_getElem?, List.getElem?_set_ne (Ne.symm hx)]

theorem stepFilter_spec {α σ : Type} {i : Nat} {s s' : System α σ} {nd : Stage α σ}
    {f : α → α} {inp out : Nat} (hnd : s.nodes.get? i = some nd)
    (hr : nd.role = Role.filter f inp out) (h : stepWorker i s = some s') :
    ∃ nd', s'.nodes = s.nodes.set i nd' ∧ nd'.role = nd.role ∧ s'.cap = s.cap ∧
      ((s'.chans = s.chans ∧ nd.inflight = [] ∧ nd'.inflight = []) ∨
       (∃ v, popChan s.chans inp = some (v, s'.chans) ∧ nd.inflight = [] ∧
          nd'.inflight = [f v]) ∨
       (∃ r, pushChan s.cap s.chans out r = some s'.chans ∧ nd.inflight = [r] ∧
          nd'.inflight = [])) := by
  unfold stepWorker at h
  rw [hnd] at h
  rcases nd with ⟨role, d, w⟩
  simp only at hr
  subst hr
  rcases w with _ | (_ | _ | r | _)
  · simp at h
  · simp only at h
    split at h
    · injection h with h
      subst h
      exact ⟨_, rfl, rfl, rfl, Or.inl ⟨rfl, rfl, rfl⟩⟩
    · injection h with h
      subst h
      exact ⟨_, rfl, rfl, rfl, Or.inl ⟨rfl, rfl, rfl⟩⟩
  · simp only at h
    cases hp : popChan s.chans inp with
    | none => simp [hp] at h
    | some x =>
      rcases x with ⟨v, chans'⟩
      simp only [hp, Option.some.injEq] at h
      subst h
      exact ⟨_, rfl, rfl, rfl, Or.inr (Or.inl ⟨v, rfl, rfl, rfl⟩)⟩
  · simp only at h
    cases hp : pushChan s.cap s.chans out r with
    | none => simp [hp] at h
    | some chans' =>
      simp only [hp, Option.some.injEq] at h
      subst h
      exact ⟨_, rfl, rfl, rfl, Or.inr (Or.inr ⟨r, hp, rfl, rfl⟩)⟩
  · simp at h

theorem isChain_set {α σ : Type} {s s' : System α σ} {o k : Nat} {ch : Nat → Nat} {i : Nat}
    {nd nd' : Stage α σ} (hc : IsChain s o k ch) (hnd : s.nodes.get? i = some nd)
    (hs : s'.nodes = s.nodes.set i nd') (hr : (∃ c, c < k ∧ o + c = i) → nd'.role = nd.role) :
    IsChain s' o k ch := by
  refine ⟨?_, hc.inj⟩
  intro c hck
  obtain ⟨x, f, hx, hf⟩ := hc.filt c hck
  by_cases hi : o + c = i
  · subst hi
    rw [hnd] at hx
    injection hx with hx
    subst hx
    refine ⟨nd', f, ?_, ?_⟩
    · rw [hs]; exact get?_set_self _ _ _ _ hnd
    · rw [hr ⟨c, hck, rfl⟩]; exact hf
  · refine ⟨x, f, ?_, hf⟩
    rw [hs, List.get?_eq_getElem?, List.getElem?_set_ne (Ne.symm hi), ← List.get?_eq_getElem?]
    exact hx

theorem fn_of_role {α σ : Type} {nd nd' : Stage α σ} (h : nd'.role = nd.role) :
    nd'.fn = nd.fn := by
  unfold Stage.fn
  rw [h]

theorem flow_filter_step {α σ : Type} {s s' : System α σ} {o k : Nat} {ch : Nat → Nat}
    (hc : IsChain s o k ch) (c : Nat) (hck : c < k) (h : stepWorker (o + c) s = some s') :
    IsChain s' o k ch ∧ (∀ base, flow s' o ch base k = flow s o ch base k) ∧
      (∃ nd nd', s.nodes.get? (o + c) = some nd ∧ s'.nodes = s.nodes.set (o + c) nd' ∧
        nd'.role = nd.role) ∧
      s'.cap = s.cap ∧ (∀ x, ch c ≠ x → ch (c + 1) ≠ x → qOf s'.chans x = qOf s.chans x) := by
  obtain ⟨nd, f, hnd, hf⟩ := hc.filt c hck
  obtain ⟨nd', hs, hr, hcap, hcase⟩ := stepFilter_spec hnd hf h
  have hF : (fun x => fnOf s'.nodes (o + x)) = (fun x => fnOf s.nodes (o + x)) := by
    funext x
    rw [hs]
    exact fnOf_set _ _ _ _ hnd (fn_of_role hr) _
  have hI : ∀ x, inflOf s'.nodes (o + x) = if x = c then nd'.inflight else inflOf s.nodes (o + x) := by
    intro x
    rw [hs, inflOf_set _ _ _ _ hnd]
    by_cases hx : x = c
    · subst hx; simp
    · have : o + x ≠ o + c := by omega
      simp [hx, this]
  have hIc : inflOf s.nodes (o + c) = nd.inflight := by
    unfold inflOf
    rw [hnd]
  have hFc : fnOf s.nodes (o + c) = f := by
    unfold fnOf
    rw [hnd]
    simp only [Stage.fn, hf]
  refine ⟨isChain_set hc hnd hs (fun _ => hr), ?_, ⟨nd, nd', hnd, hs, hr⟩, hcap, ?_⟩
  · intro base
    unfold flow
    rw [hF]
    rcases hcase with ⟨hch, hi, hi'⟩ | ⟨v, hpop, hi, hi'⟩ | ⟨r, hpush, hi, hi'⟩
    · rw [hch]
      apply flowA_congr base k (fun _ _ => rfl) _ (fun _ _ => rfl)
      intro x _
      rw [hI x]
      by_cases hx : x = c
      · subst hx; rw [if_pos rfl, hi', hIc, hi]
      · rw [if_neg hx]
    · obtain ⟨rest, hq, hQ⟩ := popChan_spec hpop
      apply flowA_pop base (c := c) (v := v) hq (by rw [hIc, hi]) _ _ k hck
      · intro x
        rw [hQ (ch x)]
        by_cases hx : x = c
        · subst hx; simp
        · have : ch x ≠ ch c := fun e => hx (hc.inj e)
          simp [hx, this]
      · intro x
        rw [hI x, hi', hFc]
    · have hQ := pushChan_spec hpush
      apply flowA_push base (c := c) (r := r) (by rw [hIc, hi]) _ _ k hck
      · intro x
        rw [hQ (ch x)]
        by_cases hx : x = c + 1
        · subst hx; simp
        · have : ch x ≠ ch (c + 1) := fun e => hx (hc.inj e)
          simp [hx, this]
      · intro x
        rw [hI x, hi']
  · intro x hx1 hx2
    rcases hcase with ⟨hch, _, _⟩ | ⟨v, hpop, _, _⟩ | ⟨r, hpush, _, _⟩
    · rw [hch]
    · obtain ⟨rest, _, hQ⟩ := popChan_spec hpop
      rw [hQ x, if_neg (Ne.symm hx1)]
    · rw [pushChan_spec hpush x, if_neg (Ne.symm hx2)]

/-! ### The pipeline built from a chain of filters -/

theorem add_data_filter_ok {α σ : Type} (p : SimplePipeline α σ) (t ot : Ty) (f : α → α)
    (m : Nat) (hlen : p.chans.length = m + 1) (hlast : p.pipes.getLast? = some m)
    (hty : (p.chans.get? m).map Chan.ty = some t) :
    p.add_data_filter t ot f =
      (none, { p with chans := p.chans ++ [⟨ot, []⟩], pipes := p.pipes ++ [m + 1],
                      nodes := p.nodes ++ [SimpleDataFilter f m (m + 1)] }) := by
  unfold SimplePipeline.add_data_filter castPipe
  rw [hlast]
  simp only [hty, if_true, make_pipe, hlen, SimplePipeline.add_process_node]

theorem runCalls_filterCalls {α σ : Type} (fs : List (Ty × (α → α))) :
    ∀ (p : SimplePipeline α σ) (t : Ty) (m : Nat), p.chans.length = m + 1 →
      p.pipes.getLast? = some m → (p.chans.get? m).map Chan.ty = some t →
      runCalls (filterCalls t fs) p =
        { p with chans := p.chans ++ fs.map (fun g => ⟨g.1, []⟩),
                 pipes := p.pipes ++ List.range' (m + 1) fs.length,
                 nodes := p.nodes ++ filterNodes false m fs } := by
  induction fs with
  | nil =>
    intro p t m _ _ _
    simp [filterCalls, runCalls, filterNodes]
  | cons g rest ih =>
    intro p t m hlen hlast hty
    simp only [filterCalls, runCalls, applyCall]
    rw [add_data_filter_ok p t g.1 g.2 m hlen hlast hty]
    simp only
    rw [ih _ g.1 (m + 1) (by simp [hlen]) (by simp)
      (by rw [List.get?_eq_getElem?, List.getElem?_append_right (by omega)]; simp [hlen])]
    simp [filterNodes, SimpleDataFilter, List.range'_succ]

theorem filterNodes_start {α σ : Type} (fs : List (Ty × (α → α))) :
    ∀ j, (filterNodes (σ := σ) false j fs).map Stage.start = filterNodes true j fs := by
  induction fs with
  | nil => intro j; rfl
  | cons g rest ih =>
    intro j
    simp [filterNodes, ih, Stage.start]

theorem filterNodes_get {α σ : Type} (st : Bool) (fs : List (Ty × (α → α))) :
    ∀ (j c : Nat) (g : Ty × (α → α)), fs.get? c = some g →
      (filterNodes (σ := σ) st j fs).get? c =
        some ⟨Role.filter g.2 (j + c) (j + c + 1), false, if st then some PC.top else none⟩ := by
  induction fs with
  | nil => intro j c g h; simp at h
  | cons a rest ih =>
    intro j c g h
    cases c with
    | zero =>
      simp only [List.get?_cons_zero, Option.some.injEq] at h
      subst h
      simp [filterNodes]
    | succ n =>
      simp only [List.get?_cons_succ] at h
      simp only [filterNodes, List.get?_cons_succ]
      rw [ih (j + 1) n g h]
      simp only [Option.some.injEq]
      have e1 : j + 1 + n = j + (n + 1) := by omega
      rw [e1]

theorem filterNodes_length {α σ : Type} (st : Bool) (fs : List (Ty × (α → α))) :
    ∀ j, (filterNodes (σ := σ) st j fs).length = fs.length := by
  induction fs with
  | nil => intro j; rfl
  | cons a rest ih => intro j; simp [filterNodes, ih]

/-- The started pipeline of a chain of filters, written out. -/
theorem putGetRun_p {α σ : Type} (cap : Option Nat) (srcTy sinkTy : Ty)
    (fs : List (Ty × (α → α))) (vs : List α) :
    (putGetRun (σ := σ) cap srcTy sinkTy fs vs).p =
      { cap := cap, chans := ⟨srcTy, []⟩ :: fs.map (fun g => ⟨g.1, []⟩),
        nodes := filterNodes true 0 fs, srcTy := srcTy, sinkTy := sinkTy,
        pipes := 0 :: List.range' 1 fs.length } := by
  unfold putGetRun
  simp only
  rw [runCalls_filterCalls fs _ srcTy 0 (by simp [SimplePipeline.new, make_pipe])
    (by simp [SimplePipeline.new, make_pipe]) (by simp [SimplePipeline.new, make_pipe])]
  simp [SimplePipeline.start, SimplePipeline.new, make_pipe, filterNodes_start]

/-! ### Safety of `put` / `get` -/

theorem flowA_empty {α : Type} {Q I : Nat → List α} (F : Nat → α → α) (base : List α) (n : Nat)
    (hQ : ∀ c, c ≤ n → Q c = []) (hI : ∀ c, c < n → I c = []) :
    flowA Q I F base n = base.map (compF F n) := by
  induction n with
  | zero => simp [flowA, hQ 0 (Nat.le_refl 0), compF]
  | succ n ih =>
    simp only [flowA]
    rw [hQ (n + 1) (Nat.le_refl _), hI n (Nat.lt_succ_self n),
      ih (fun c hc => hQ c (by omega)) (fun c hc => hI c (by omega))]
    simp [compF, Function.comp_def]

theorem compF_applyAll {α : Type} (F : Nat → α → α) (fs : List (Ty × (α → α)))
    (h : ∀ c g, fs.get? c = some g → F c = g.2) (x : α) :
    compF F fs.length x = applyAll fs x := by
  induction fs using List.reverseRecOn with
  | nil => rfl
  | append_singleton init g ih =>
    have hg : F init.length = g.2 := h init.length g (by simp)
    have hi : ∀ c g', init.get? c = some g' → F c = g'.2 := by
      intro c g' hc
      apply h c g'
      rw [List.get?_eq_getElem?] at hc ⊢
      have hlt : c < init.length := by
        rcases Nat.lt_or_ge c init.length with h1 | h1
        · exact h1
        · rw [List.getElem?_eq_none h1] at hc; simp at hc
      rw [List.getElem?_append_left hlt]
      exact hc
    simp only [List.length_append, List.length_singleton, compF, applyAll, List.foldl_append,
      List.foldl_cons, List.foldl_nil]
    rw [hg, ih hi]
    rfl

theorem stepWorker_none_of_get_none {α σ : Type} {i : Nat} {s : System α σ}
    (h : s.nodes.get? i = none) : stepWorker i s = none := by
  unfold stepWorker
  rw [h]

theorem runInv_step {α σ : Type} {r : Run α σ} {k : Nat} {total : List α} (a : Act)
    (h : RunInv r k total) : RunInv (r.step a) k total := by
  cases a with
  | worker i =>
    unfold Run.step
    simp only
    cases hs : stepWorker i r.p.toSystem with
    | none => exact h
    | some s' =>
      simp only
      by_cases hik : i < k
      · have hs0 : stepWorker (0 + i) r.p.toSystem = some s' := by rw [Nat.zero_add]; exact hs
        obtain ⟨hc', hflow, ⟨nd, nd', hnd, hset, _⟩, _, _⟩ := flow_filter_step h.chain i hik hs0
        refine ⟨hc', ?_, h.head, h.last, ?_⟩
        · show s'.nodes.length = k
          rw [hset, List.length_set]
          exact h.len
        · show r.got ++ flow s' 0 id r.toPut k = total
          rw [hflow]
          exact h.eq
      · have hnone : r.p.nodes.get? i = none := by
          rw [List.get?_eq_getElem?]
          apply List.getElem?_eq_none
          rw [h.len]
          omega
        rw [stepWorker_none_of_get_none hnone] at hs
        simp at hs
  | put =>
    unfold Run.step
    simp only
    cases hp : r.toPut with
    | nil => exact h
    | cons v rest =>
      simp only
      cases hput : r.p.put v with
      | threw e => exact h
      | blocked => exact h
      | done p' =>
        simp only
        unfold SimplePipeline.put at hput
        cases hcast : castPipe r.p.chans r.p.srcTy r.p.pipes.head? with
        | error e => simp [hcast] at hput
        | ok c =>
          have hc0 : c = 0 := by
            have := castPipe_ok hcast
            rw [h.head] at this
            injection this with this
            exact this.symm
          subst hc0
          simp only [hcast] at hput
          cases hpush : pushChan r.p.cap r.p.chans 0 v with
          | none => simp [hpush] at hput
          | some chans' =>
            simp only [hpush, Outcome.done.injEq] at hput
            subst hput
            have hQ := pushChan_spec hpush
            refine ⟨⟨h.chain.filt, h.chain.inj⟩, h.len, h.head, h.last, ?_⟩
            have hf : flow { r.p.toSystem with chans := chans' } 0 id rest k =
                flow r.p.toSystem 0 id (v :: rest) k := by
              unfold flow
              exact flowA_feed rest (fun x => by simpa using hQ x) k
            have heq := h.eq
            rw [hp] at heq
            show r.got ++ flow { r.p.toSystem with chans := chans' } 0 id rest k = total
            rw [hf]
            exact heq
  | get =>
    unfold Run.step
    simp only
    cases hget : r.p.get with
    | threw e => exact h
    | blocked => exact h
    | done x =>
      rcases x with ⟨v, p'⟩
      simp only
      unfold SimplePipeline.get at hget
      cases hcast : castPipe r.p.chans r.p.sinkTy r.p.pipes.getLast? with
      | error e => simp [hcast] at hget
      | ok c =>
        have hck : c = k := by
          have := castPipe_ok hcast
          rw [h.last] at this
          injection this with this
          exact this.symm
        subst hck
        simp only [hcast] at hget
        cases hpop : popChan r.p.chans c with
        | none => simp [hpop] at hget
        | some y =>
          rcases y with ⟨w, chans'⟩
          simp only [hpop, Outcome.done.injEq, Prod.mk.injEq] at hget
          obtain ⟨hw, hp'⟩ := hget
          subst hw hp'
          obtain ⟨rest, hq, hQ⟩ := popChan_spec hpop
          refine ⟨⟨h.chain.filt, h.chain.inj⟩, h.len, h.head, h.last, ?_⟩
          have hf : flow r.p.toSystem 0 id r.toPut c =
              w :: flow { r.p.toSystem with chans := chans' } 0 id r.toPut c := by
            unfold flow
            exact flowA_drain r.toPut (by simpa using hq) (fun x => by simpa using hQ x)
          have heq := h.eq
          rw [hf] at heq
          show (r.got ++ [w]) ++ flow { r.p.toSystem with chans := chans' } 0 id r.toPut c = total
          rw [← heq]
          simp

theorem runInv_drive {α σ : Type} (sched : List Act) :
    ∀ (r : Run α σ) (k : Nat) (total : List α), RunInv r k total →
      RunInv (drive sched r) k total := by
  induction sched with
  | nil => intro r k total h; exact h
  | cons a rest ih => intro r k total h; exact ih _ k total (runInv_step a h)

theorem qOf_of_all_empty {α : Type} (chans : List (Chan α)) (h : ∀ ch ∈ chans, ch.q = [])
    (c : Nat) : qOf chans c = [] := by
  unfold qOf
  cases hc : chans.get? c with
  | none => rfl
  | some ch => exact h ch (List.get?_mem hc)

theorem inflOf_filterNodes {α σ : Type} (fs : List (Ty × (α → α))) (j c : Nat) :
    inflOf (filterNodes (σ := σ) true j fs) c = [] := by
  unfold inflOf
  cases hc : (filterNodes (σ := σ) true j fs).get? c with
  | none => rfl
  | some nd =>
    have hlt : c < fs.length := by
      rw [← filterNodes_length (σ := σ) true fs j]
      rw [List.get?_eq_getElem?] at hc
      rcases Nat.lt_or_ge c (filterNodes (σ := σ) true j fs).length with h1 | h1
      · exact h1
      · rw [List.getElem?_eq_none h1] at hc; simp at hc
    have hg : fs.get? c = some (fs.get ⟨c, hlt⟩) := by
      rw [List.get?_eq_getElem?]; exact List.getElem?_eq_getElem hlt
    rw [filterNodes_get true fs j c _ hg] at hc
    injection hc with hc
    subst hc
    rfl

theorem getLast?_range' (n : Nat) : (0 :: List.range' 1 n).getLast? = some n := by
  induction n with
  | zero => rfl
  | succ m _ =>
    rw [List.range'_concat, ← List.cons_append, List.getLast?_append]
    simp
    omega

theorem runInv_init {α σ : Type} (cap : Option Nat) (srcTy sinkTy : Ty)
    (fs : List (Ty × (α → α))) (vs : List α) :
    RunInv (putGetRun (σ := σ) cap srcTy sinkTy fs vs) fs.length (vs.map (applyAll fs)) := by
  have hp := putGetRun_p (σ := σ) cap srcTy sinkTy fs vs
  have hfn : ∀ c g, fs.get? c = some g →
      (filterNodes (σ := σ) true 0 fs).get? (0 + c) =
        some ⟨Role.filter g.2 c (c + 1), false, some PC.top⟩ := by
    intro c g hg
    have := filterNodes_get (σ := σ) true fs 0 c g hg
    simpa using this
  constructor
  · refine ⟨?_, fun _ _ e => e⟩
    intro c hc
    have hg : fs.get? c = some (fs.get ⟨c, hc⟩) := by
      rw [List.get?_eq_getElem?]; exact List.getElem?_eq_getElem hc
    refine ⟨⟨Role.filter (fs.get ⟨c, hc⟩).2 c (c + 1), false, some PC.top⟩,
      (fs.get ⟨c, hc⟩).2, ?_, rfl⟩
    rw [hp]
    exact hfn c _ hg
  · rw [hp]
    exact filterNodes_length true fs 0
  · rw [hp]
    rfl
  · rw [hp]
    exact getLast?_range' fs.length
  · show [] ++ flow (putGetRun (σ := σ) cap srcTy sinkTy fs vs).p.toSystem 0 id vs fs.length = _
    rw [hp, List.nil_append]
    unfold flow
    rw [flowA_empty _ vs fs.length
      (fun c _ => qOf_of_all_empty _ (by
        intro ch hch
        simp only [List.mem_cons, List.mem_map] at hch
        rcases hch with rfl | ⟨g, _, rfl⟩ <;> rfl) _)
      (fun c _ => inflOf_filterNodes fs 0 (0 + c))]
    apply List.map_congr_left
    intro x _
    apply compF_applyAll
    intro c g hg
    simp only [fnOf]
    rw [hfn c g hg]
    rfl

/-! ### Carrying a value through a filter -/

theorem get?_set_other {β : Type} (l : List β) (i j : Nat) (b : β) (h : i ≠ j) :
    (l.set i b).get? j = l.get? j := by
  rw [List.get?_eq_getElem?, List.getElem?_set_ne h, ← List.get?_eq_getElem?]

theorem exec_move {α σ : Type} {s : System α σ} {i c c' : Nat} {f : α → α} {t t' : Ty} {x : α}
    {rest q' : List α} (hn : s.nodes.get? i = some ⟨Role.filter f c c', false, some PC.top⟩)
    (hc : s.chans.get? c = some ⟨t, x :: rest⟩) (hc' : s.chans.get? c' = some ⟨t', q'⟩)
    (hne : c ≠ c') (hroom : hasRoom s.cap q'.length = true) :
    exec [i, i, i] s =
      { s with chans := (s.chans.set c ⟨t, rest⟩).set c' ⟨t', q' ++ [f x]⟩ } := by
  have h1 : stepWorker i s =
      some { s with nodes := s.nodes.set i ⟨Role.filter f c c', false, some PC.get⟩ } := by
    unfold stepWorker
    rw [hn]
    rfl
  have h2 : stepWorker i { s with nodes := s.nodes.set i ⟨Role.filter f c c', false, some PC.get⟩ } =
      some ⟨s.cap, s.chans.set c ⟨t, rest⟩,
        s.nodes.set i ⟨Role.filter f c c', false, some (PC.put (f x))⟩⟩ := by
    unfold stepWorker
    simp only [get?_set_self _ _ _ _ hn, popChan, hc, List.set_set]
  have h3 : stepWorker i ⟨s.cap, s.chans.set c ⟨t, rest⟩,
        s.nodes.set i ⟨Role.filter f c c', false, some (PC.put (f x))⟩⟩ =
      some { s with chans := (s.chans.set c ⟨t, rest⟩).set c' ⟨t', q' ++ [f x]⟩ } := by
    unfold stepWorker
    simp only [get?_set_self _ _ _ _ hn, pushChan, get?_set_other _ _ _ _ hne, hc', hroom,
      if_true, List.set_set]
    rw [set_get?_self _ _ _ hn]
  simp only [exec, h1, h2, h3, Option.getD_some]

theorem get?_of_qOf {α : Type} (chans : List (Chan α)) (c : Nat) (h : c < chans.length) :
    ∃ t, chans.get? c = some ⟨t, qOf chans c⟩ := by
  unfold qOf
  rw [List.get?_eq_getElem?, List.getElem?_eq_getElem h]
  exact ⟨_, rfl⟩

theorem qOf_set {α : Type} (chans : List (Chan α)) (c : Nat) (a b : Chan α)
    (h : chans.get? c = some a) (y : Nat) :
    qOf (chans.set c b) y = if y = c then b.q else qOf chans y := by
  by_cases hy : y = c
  · subst hy
    unfold qOf
    rw [get?_set_self _ _ _ _ h, if_pos rfl]
  · unfold qOf
    rw [get?_set_other _ _ _ _ (Ne.symm hy), if_neg hy]

theorem map_ty_set {α : Type} (chans : List (Chan α)) (c : Nat) (t : Ty) (q q' : List α)
    (h : chans.get? c = some ⟨t, q⟩) :
    (chans.set c ⟨t, q'⟩).map Chan.ty = chans.map Chan.ty := by
  rw [List.map_set]
  apply set_get?_self
  rw [List.get?_eq_getElem?, List.getElem?_map, ← List.get?_eq_getElem?, h]
  rfl

theorem exec_append {α σ : Type} (a b : List Nat) :
    ∀ s : System α σ, exec (a ++ b) s = exec b (exec a s) := by
  induction a with
  | nil => intro s; rfl
  | cons i rest ih => intro s; simp only [List.cons_append, exec]; exact ih _

theorem applyAll_drop {α : Type} (fs : List (Ty × (α → α))) (j : Nat) (g : Ty × (α → α))
    (h : fs.get? j = some g) (x : α) :
    applyAll (fs.drop j) x = applyAll (fs.drop (j + 1)) (g.2 x) := by
  rw [List.get?_eq_getElem?] at h
  have hlt : j < fs.length := by
    rcases Nat.lt_or_ge j fs.length with h1 | h1
    · exact h1
    · rw [List.getElem?_eq_none h1] at h; simp at h
  rw [List.getElem?_eq_getElem hlt] at h
  injection h with h
  rw [List.drop_eq_getElem_cons hlt, h]
  rfl

theorem exec_chain {α σ : Type} (fs : List (Ty × (α → α))) (m : Nat) :
    ∀ (j : Nat) (s : System α σ) (x : α), j + m = fs.length →
      s.nodes = filterNodes true 0 fs → hasRoom s.cap 0 = true →
      s.chans.length = fs.length + 1 → qOf s.chans j = [x] →
      (∀ c, c ≠ j → qOf s.chans c = []) →
      (exec ((List.range' j m).flatMap (fun c => [c, c, c])) s).nodes = s.nodes ∧
      (exec ((List.range' j m).flatMap (fun c => [c, c, c])) s).cap = s.cap ∧
      (exec ((List.range' j m).flatMap (fun c => [c, c, c])) s).chans.map Chan.ty =
        s.chans.map Chan.ty ∧
      qOf (exec ((List.range' j m).flatMap (fun c => [c, c, c])) s).chans fs.length =
        [applyAll (fs.drop j) x] ∧
      (∀ c, c ≠ fs.length →
        qOf (exec ((List.range' j m).flatMap (fun c => [c, c, c])) s).chans c = []) := by
  induction m with
  | zero =>
    intro j s x hj _ _ _ hq he
    have hjk : j = fs.length := by omega
    subst hjk
    simp only [List.range'_zero, List.flatMap_nil, exec, List.drop_length]
    exact ⟨trivial, trivial, trivial, hq, he⟩
  | succ m ih =>
    intro j s x hj hN hroom hlen hq he
    have hjk : j < fs.length := by omega
    have hg : fs.get? j = some (fs.get ⟨j, hjk⟩) := by
      rw [List.get?_eq_getElem?]; exact List.getElem?_eq_getElem hjk
    have hn : s.nodes.get? j = some ⟨Role.filter (fs.get ⟨j, hjk⟩).2 j (j + 1), false,
        some PC.top⟩ := by
      rw [hN]
      have := filterNodes_get (σ := σ) true fs 0 j _ hg
      simpa using this
    obtain ⟨t, hc⟩ := get?_of_qOf s.chans j (by omega)
    obtain ⟨t', hc'⟩ := get?_of_qOf s.chans (j + 1) (by omega)
    rw [hq] at hc
    rw [he (j + 1) (by omega)] at hc'
    have hmove := exec_move hn hc hc' (by omega) hroom
    simp only [List.range'_succ, List.flatMap_cons, exec_append]
    rw [hmove, List.nil_append]
    have hc2 : (s.chans.set j ⟨t, []⟩).get? (j + 1) = some ⟨t', []⟩ := by
      rw [get?_set_other _ _ _ _ (by omega)]; exact hc'
    have hq' : ∀ y, qOf ((s.chans.set j ⟨t, []⟩).set (j + 1) ⟨t', [(fs.get ⟨j, hjk⟩).2 x]⟩) y =
        if y = j + 1 then [(fs.get ⟨j, hjk⟩).2 x] else [] := by
      intro y
      rw [qOf_set _ _ _ _ hc2, qOf_set _ _ _ _ hc]
      by_cases h1 : y = j + 1
      · simp [h1]
      · by_cases h2 : y = j
        · simp [h1, h2]
        · simp [h1, h2, he y h2]
    have hty : ((s.chans.set j ⟨t, []⟩).set (j + 1) ⟨t', [(fs.get ⟨j, hjk⟩).2 x]⟩).map Chan.ty =
        s.chans.map Chan.ty := by
      rw [map_ty_set _ _ _ _ _ hc2, map_ty_set _ _ _ _ _ hc]
    obtain ⟨r1, r2, r3, r4, r5⟩ := ih (j + 1)
      { s with chans := (s.chans.set j ⟨t, []⟩).set (j + 1) ⟨t', [(fs.get ⟨j, hjk⟩).2 x]⟩ }
      ((fs.get ⟨j, hjk⟩).2 x) (by omega) hN hroom (by simp [hlen])
      (by rw [hq' (j + 1), if_pos rfl]) (fun c hcne => by rw [hq' c, if_neg hcne])
    refine ⟨r1, r2, ?_, ?_, r5⟩
    · rw [r3]; exact hty
    · rw [r4, applyAll_drop fs j _ hg x]

/-! ### Liveness of `put` / `get`: one value after the other -/

theorem drive_append {α σ : Type} (a b : List Act) :
    ∀ r : Run α σ, drive (a ++ b) r = drive b (drive a r) := by
  induction a with
  | nil => intro r; rfl
  | cons i rest ih => intro r; simp only [List.cons_append, drive]; exact ih _

theorem step_worker {α σ : Type} (i : Nat) (r : Run α σ) :
    r.step (Act.worker i) =
      ⟨{ r.p with toSystem := (stepWorker i r.p.toSystem).getD r.p.toSystem }, r.toPut, r.got⟩ := by
  simp only [Run.step]
  cases h : stepWorker i r.p.toSystem <;> rfl

theorem drive_workers {α σ : Type} (ws : List Nat) :
    ∀ r : Run α σ, drive (ws.map Act.worker) r =
      ⟨{ r.p with toSystem := exec ws r.p.toSystem }, r.toPut, r.got⟩ := by
  induction ws with
  | nil => intro r; rfl
  | cons i rest ih =>
    intro r
    simp only [List.map_cons, drive, exec]
    rw [ih, step_worker]

theorem worker_flatMap (l : List Nat) :
    l.flatMap (fun c => [Act.worker c, Act.worker c, Act.worker c]) =
      (l.flatMap (fun c => [c, c, c])).map Act.worker := by
  induction l with
  | nil => rfl
  | cons a rest ih => simp [List.flatMap_cons, ih]

theorem lastTy_get {α : Type} (fs : List (Ty × (α → α))) :
    ∀ t : Ty, (t :: fs.map Prod.fst).get? fs.length = some (lastTy t fs) := by
  induction fs with
  | nil => intro t; rfl
  | cons g rest ih =>
    intro t
    simp only [List.map_cons, List.length_cons, List.get?_cons_succ, lastTy]
    exact ih g.1

theorem ty_of_map {α : Type} (chans : List (Chan α)) (tys : List Ty) (c : Nat) (t : Ty)
    (h : chans.map Chan.ty = tys) (ht : tys.get? c = some t) :
    (chans.get? c).map Chan.ty = some t := by
  rw [← h, List.get?_eq_getElem?, List.getElem?_map] at ht
  rw [List.get?_eq_getElem?]
  exact ht

theorem get?_of_ty_q {α : Type} (chans : List (Chan α)) (c : Nat) (t : Ty) (q : List α)
    (ht : (chans.get? c).map Chan.ty = some t) (hq : qOf chans c = q) :
    chans.get? c = some ⟨t, q⟩ := by
  unfold qOf at hq
  cases hc : chans.get? c with
  | none => rw [hc] at ht; simp at ht
  | some ch =>
    rw [hc] at ht hq
    simp only [Option.map_some', Option.some.injEq] at ht hq
    rcases ch with ⟨t0, q0⟩
    simp only at ht hq
    rw [ht, hq]

theorem put_of_idle {α σ : Type} {r : Run α σ} {cap : Option Nat} {srcTy sinkTy : Ty}
    {fs : List (Ty × (α → α))} (hI : Idle r cap srcTy sinkTy fs) (hroom : hasRoom cap 0 = true)
    (v : α) :
    r.p.put v = Outcome.done { r.p with chans := r.p.chans.set 0 ⟨srcTy, [v]⟩ } := by
  have h0 : r.p.chans.get? 0 = some ⟨srcTy, []⟩ :=
    get?_of_ty_q _ 0 srcTy [] (ty_of_map _ _ 0 srcTy hI.tys rfl) (hI.empty 0)
  have hh : r.p.pipes.head? = some 0 := by rw [hI.pipes]; rfl
  have hr : hasRoom r.p.cap 0 = true := by rw [hI.cap]; exact hroom
  have hc : castPipe r.p.chans r.p.srcTy r.p.pipes.head? = Except.ok 0 := by
    unfold castPipe
    rw [hh]
    simp only [h0, Option.map_some', hI.src, if_true]
  have hpush : pushChan r.p.cap r.p.chans 0 v = some (r.p.chans.set 0 ⟨srcTy, [v]⟩) := by
    unfold pushChan
    simp only [h0, List.length_nil, hr, if_true, List.nil_append]
  unfold SimplePipeline.put
  simp only [hc, hpush]

theorem step_get {α σ : Type} (r : Run α σ) (x : α) (p' : SimplePipeline α σ)
    (h : r.p.get = Outcome.done (x, p')) : r.step Act.get = ⟨p', r.toPut, r.got ++ [x]⟩ := by
  simp only [Run.step, h]

theorem get_of_loaded {α σ : Type} {p : SimplePipeline α σ} {k : Nat} {t : Ty} {x : α}
    (hlast : p.pipes.getLast? = some k) (hc : p.chans.get? k = some ⟨t, [x]⟩)
    (ht : t = p.sinkTy) :
    p.get = Outcome.done (x, { p with chans := p.chans.set k ⟨t, []⟩ }) := by
  unfold SimplePipeline.get castPipe
  rw [hlast]
  simp only [hc, Option.map_some', ht, if_true, popChan]

theorem idle_round {α σ : Type} {r : Run α σ} {cap : Option Nat} {srcTy sinkTy : Ty}
    {fs : List (Ty × (α → α))} {v : α} {rest : List α} (hI : Idle r cap srcTy sinkTy fs)
    (hp : r.toPut = v :: rest) (hroom : hasRoom cap 0 = true) (hty : sinkTy = lastTy srcTy fs) :
    Idle (drive (roundSched fs.length) r) cap srcTy sinkTy fs ∧
      (drive (roundSched fs.length) r).toPut = rest ∧
      (drive (roundSched fs.length) r).got = r.got ++ [applyAll fs v] := by
  have h0 : r.p.chans.get? 0 = some ⟨srcTy, []⟩ :=
    get?_of_ty_q _ 0 srcTy [] (ty_of_map _ _ 0 srcTy hI.tys rfl) (hI.empty 0)
  have hlen : r.p.chans.length = fs.length + 1 := by
    have := congrArg List.length hI.tys
    simpa using this
  have hstep : r.step Act.put = ⟨{ r.p with chans := r.p.chans.set 0 ⟨srcTy, [v]⟩ }, rest, r.got⟩ := by
    simp only [Run.step, hp, put_of_idle hI hroom v]
  obtain ⟨e1, e2, e3, e4, e5⟩ := exec_chain (σ := σ) fs fs.length 0
    { r.p.toSystem with chans := r.p.chans.set 0 ⟨srcTy, [v]⟩ } v (by omega) hI.nodes
    (by show hasRoom r.p.cap 0 = true; rw [hI.cap]; exact hroom) (by simp [hlen])
    (by show qOf (r.p.chans.set 0 ⟨srcTy, [v]⟩) 0 = [v]; rw [qOf_set _ _ _ _ h0, if_pos rfl])
    (fun c hc => by
      show qOf (r.p.chans.set 0 ⟨srcTy, [v]⟩) c = []
      rw [qOf_set _ _ _ _ h0, if_neg hc]; exact hI.empty c)
  simp only [List.drop_zero] at e4
  have e3' : (exec ((List.range' 0 fs.length).flatMap (fun c => [c, c, c]))
      { r.p.toSystem with chans := r.p.chans.set 0 ⟨srcTy, [v]⟩ }).chans.map Chan.ty =
      srcTy :: fs.map Prod.fst := by
    rw [e3]
    show (r.p.chans.set 0 ⟨srcTy, [v]⟩).map Chan.ty = _
    rw [map_ty_set _ _ _ _ _ h0]
    exact hI.tys
  have hk := get?_of_ty_q _ fs.length (lastTy srcTy fs) _
    (ty_of_map _ _ fs.length _ e3' (lastTy_get fs srcTy)) e4
  have hdrive : drive (roundSched fs.length) r =
      (drive (((List.range' 0 fs.length).flatMap (fun c => [c, c, c])).map Act.worker)
        (r.step Act.put)).step Act.get := by
    simp only [roundSched, drive, drive_append, worker_flatMap]
  rw [hdrive, hstep, drive_workers]
  rw [step_get _ _ _ (get_of_loaded (by show r.p.pipes.getLast? = some fs.length
                                        rw [hI.pipes]; exact getLast?_range' fs.length) hk
        (by show lastTy srcTy fs = r.p.sinkTy; rw [hI.snk, hty]))]
  refine ⟨⟨?_, ?_, ?_, ?_, hI.pipes, hI.src, hI.snk⟩, rfl, rfl⟩
  · exact e1.trans hI.nodes
  · exact e2.trans hI.cap
  · show (List.set _ fs.length _).map Chan.ty = _
    rw [map_ty_set _ _ _ _ _ hk]
    exact e3'
  · intro c
    show qOf (List.set _ fs.length _) c = []
    rw [qOf_set _ _ _ _ hk]
    by_cases hc : c = fs.length
    · rw [if_pos hc]
    · rw [if_neg hc]; exact e5 c hc

theorem idle_full {α σ : Type} (cap : Option Nat) (srcTy sinkTy : Ty) (fs : List (Ty × (α → α)))
    (hroom : hasRoom cap 0 = true) (hty : sinkTy = lastTy srcTy fs) (vs : List α) :
    ∀ r : Run α σ, Idle r cap srcTy sinkTy fs → r.toPut = vs →
      (drive (fullSched fs.length vs.length) r).got = r.got ++ vs.map (applyAll fs) := by
  induction vs with
  | nil => intro r _ _; simp [fullSched, drive]
  | cons v rest ih =>
    intro r hI hp
    obtain ⟨hI', hp', hg'⟩ := idle_round hI hp hroom hty
    simp only [List.length_cons, fullSched, drive_append]
    rw [ih _ hI' hp', hg']
    simp

theorem idle_init {α σ : Type} (cap : Option Nat) (srcTy sinkTy : Ty)
    (fs : List (Ty × (α → α))) (vs : List α) :
    Idle (putGetRun (σ := σ) cap srcTy sinkTy fs vs) cap srcTy sinkTy fs := by
  have hp := putGetRun_p (σ := σ) cap srcTy sinkTy fs vs
  constructor
  · rw [hp]
  · rw [hp]
  · rw [hp]; simp [Function.comp_def]
  · intro c
    rw [hp]
    apply qOf_of_all_empty
    intro ch hch
    simp only [List.mem_cons, List.mem_map] at hch
    rcases hch with rfl | ⟨g, _, rfl⟩ <;> rfl
  · rw [hp]
  · rw [hp]
  · rw [hp]

theorem get_done_spec {α σ : Type} {r : Run α σ} {k : Nat} {total : List α} {v : α}
    {p' : SimplePipeline α σ} (h : RunInv r k total) (hg : r.p.get = Outcome.done (v, p')) :
    qOf r.p.chans k = v :: qOf p'.chans k := by
  unfold SimplePipeline.get at hg
  cases hcast : castPipe r.p.chans r.p.sinkTy r.p.pipes.getLast? with
  | error e => simp [hcast] at hg
  | ok c =>
    have hck : c = k := by
      have := castPipe_ok hcast
      rw [h.last] at this
      injection this with this
      exact this.symm
    subst hck
    simp only [hcast] at hg
    cases hpop : popChan r.p.chans c with
    | none => simp [hpop] at hg
    | some y =>
      rcases y with ⟨w, chans'⟩
      simp only [hpop, Outcome.done.injEq, Prod.mk.injEq] at hg
      obtain ⟨hw, hp'⟩ := hg
      subst hw hp'
      obtain ⟨rest, hq, hQ⟩ := popChan_spec hpop
      rw [hq]
      show w :: rest = w :: qOf chans' c
      rw [hQ c, if_pos rfl]

theorem put_done_spec {α σ : Type} {r : Run α σ} {k : Nat} {total : List α} {v : α}
    {p' : SimplePipeline α σ} (h : RunInv r k total) (hp : r.p.put v = Outcome.done p') :
    qOf p'.chans 0 = qOf r.p.chans 0 ++ [v] := by
  unfold SimplePipeline.put at hp
  cases hcast : castPipe r.p.chans r.p.srcTy r.p.pipes.head? with
  | error e => simp [hcast] at hp
  | ok c =>
    have hc0 : c = 0 := by
      have := castPipe_ok hcast
      rw [h.head] at this
      injection this with this
      exact this.symm
    subst hc0
    simp only [hcast] at hp
    cases hpush : pushChan r.p.cap r.p.chans 0 v with
    | none => simp [hpush] at hp
    | some chans' =>
      simp only [hpush, Outcome.done.injEq] at hp
      subst hp
      show qOf chans' 0 = _
      rw [pushChan_spec hpush 0, if_pos rfl]

/-- Claim C8, refuted as stated: in a `SimplePipeline` whose sink type (tag 5)
is not the element type of its last channel (tag 0, the output of its one
doubling filter), `put(7)` and the three steps of the filter leave 14 in the
last channel, yet `get` throws in its checked cast and returns nothing. -/
theorem get_throws_on_sink_type_mismatch :
    qOf (drive [Act.put, Act.worker 0, Act.worker 0, Act.worker 0]
        (putGetRun none 0 5 [(0, fun x => x * 2)] [7] : Run Nat Unit)).p.chans 1 = [14] ∧
    (drive [Act.put, Act.worker 0, Act.worker 0, Act.worker 0]
        (putGetRun none 0 5 [(0, fun x => x * 2)] [7] : Run Nat Unit)).p.get =
      Outcome.threw BuildError.bad_any_cast ∧
    (drive (fullSched 1 1) (putGetRun none 0 5 [(0, fun x => x * 2)] [7] : Run Nat Unit)).got =
      [] :=
  ⟨rfl, rfl, rfl⟩

/-! ### Source, filter, sink: one value after the other -/

theorem sfsPipeline_system {α σ : Type} (cap : Option Nat) (srcTy sinkTy : Ty)
    (pf : σ → Option α × σ) (st : σ) (f : α → α) :
    (sfsPipeline cap srcTy sinkTy pf st f).toSystem =
      sfsIdle cap srcTy sinkTy [] [] pf st f [] := by
  simp [sfsPipeline, runCalls, applyCall, SimplePipeline.add_data_source,
    SimplePipeline.add_data_filter, SimplePipeline.add_data_sink, SimplePipeline.new, make_pipe,
    castPipe, SimplePipeline.add_process_node, SimplePipeline.start, Stage.start,
    SimpleDataSource, SimpleDataFilter, SimpleDataSink, sfsIdle]

theorem sfs_source_round {α σ : Type} (cap : Option Nat) (t0 t1 : Ty) (q1 : List α)
    (pf : σ → Option α × σ) (st : σ) (f : α → α) (log : List α) (v : α)
    (hv : (pf st).1 = some v) (hroom : hasRoom cap 0 = true) :
    exec [0, 0] (sfsIdle cap t0 t1 [] q1 pf st f log) =
      sfsIdle cap t0 t1 [v] q1 pf (pf st).2 f log := by
  rcases hpf : pf st with ⟨o, st'⟩
  rw [hpf] at hv
  simp only at hv
  subst hv
  simp [exec, stepWorker, sfsIdle, hpf, pushChan, hroom]

theorem sfs_sink_round {α σ : Type} (cap : Option Nat) (t0 t1 : Ty) (q0 : List α)
    (pf : σ → Option α × σ) (st : σ) (f : α → α) (log : List α) (x : α) :
    exec [2, 2] (sfsIdle cap t0 t1 q0 [x] pf st f log) =
      sfsIdle cap t0 t1 q0 [] pf st f (log ++ [x]) := by
  simp [exec, stepWorker, sfsIdle, popChan]

theorem sfs_filter_round {α σ : Type} (cap : Option Nat) (t0 t1 : Ty)
    (pf : σ → Option α × σ) (st : σ) (f : α → α) (log : List α) (v : α)
    (hroom : hasRoom cap 0 = true) :
    exec [1, 1, 1] (sfsIdle cap t0 t1 [v] [] pf st f log) =
      sfsIdle cap t0 t1 [] [f v] pf st f log := by
  rw [@exec_move α σ (sfsIdle cap t0 t1 [v] [] pf st f log) 1 0 1 f t0 t1 v [] [] rfl rfl rfl
    (by decide) hroom]
  rfl

theorem sfs_full {α σ : Type} (cap : Option Nat) (t0 t1 : Ty) (pf : σ → Option α × σ)
    (f : α → α) (hroom : hasRoom cap 0 = true) (vs : List α) :
    ∀ (st : σ) (log : List α), Emits pf st vs →
      exec (sfsSched vs.length) (sfsIdle cap t0 t1 [] [] pf st f log) =
        sfsIdle cap t0 t1 [] [] pf (advance pf vs.length st) f (log ++ vs.map f) ∧
      (pf (advance pf vs.length st)).1 = none := by
  induction vs with
  | nil =>
    intro st log h
    simp only [List.length_nil, sfsSched, exec, advance, List.map_nil, List.append_nil]
    exact ⟨trivial, h⟩
  | cons v rest ih =>
    intro st log h
    obtain ⟨hv, hrest⟩ := h
    have e : [0, 0, 1, 1, 1, 2, 2] ++ sfsSched rest.length =
        [0, 0] ++ ([1, 1, 1] ++ ([2, 2] ++ sfsSched rest.length)) := rfl
    simp only [List.length_cons, sfsSched, advance]
    rw [e, exec_append, sfs_source_round cap t0 t1 [] pf st f log v hv hroom, exec_append,
      sfs_filter_round cap t0 t1 pf _ f log v hroom, exec_append, sfs_sink_round]
    obtain ⟨h1, h2⟩ := ih (pf st).2 (log ++ [f v]) hrest
    refine ⟨?_, h2⟩
    rw [h1]
    simp

/-! ### Source, filter, sink: safety under every schedule -/

theorem emits_none {α σ : Type} {pf : σ → Option α × σ} {st : σ} {rem : List α}
    (h : Emits pf st rem) (hn : (pf st).1 = none) : rem = [] := by
  cases rem with
  | nil => rfl
  | cons v rest =>
    obtain ⟨hv, _⟩ := h
    rw [hn] at hv
    simp at hv

theorem emits_some {α σ : Type} {pf : σ → Option α × σ} {st : σ} {rem : List α} {v : α}
    (h : Emits pf st rem) (hv : (pf st).1 = some v) :
    ∃ rem', rem = v :: rem' ∧ Emits pf (pf st).2 rem' := by
  cases rem with
  | nil =>
    have : (pf st).1 = none := h
    rw [this] at hv
    simp at hv
  | cons w rest =>
    obtain ⟨hw, hrest⟩ := h
    rw [hw] at hv
    injection hv with hv
    subst hv
    exact ⟨rest, rfl, hrest⟩

theorem sfsInv_step_source {α σ : Type} {s s' : System α σ} {pf : σ → Option α × σ}
    {f : α → α} {total : List α} (h : SfsInv s pf f total) (hs : stepWorker 0 s = some s') :
    SfsInv s' pf f total := by
  obtain ⟨st, w0, nd1, log, w2, rem, hN, hr, hex, hem, hng, heq⟩ := h
  unfold stepWorker at hs
  rw [hN] at hs
  simp only [List.get?_cons_zero, List.set_cons_zero] at hs
  rcases w0 with _ | (_ | _ | r | _)
  · simp at hs
  · simp only [Bool.false_eq_true, if_false] at hs
    have hem' := hem (by simp)
    rcases hpf : pf st with ⟨o, st'⟩
    rw [hpf] at hs
    cases o with
    | none =>
      simp only [Option.some.injEq] at hs
      subst hs
      have hrem := emits_none hem' (by rw [hpf])
      subst hrem
      exact ⟨st', some PC.exited, nd1, log, w2, [], rfl, hr, fun _ => rfl,
        fun hne => absurd rfl hne, by simp, heq⟩
    | some v =>
      simp only [Option.some.injEq] at hs
      subst hs
      obtain ⟨rem', hrem, hem2⟩ := emits_some hem' (by rw [hpf])
      subst hrem
      rw [hpf] at hem2
      exact ⟨st', some (PC.put v), nd1, log, w2, rem', rfl, hr, fun hc => by simp at hc,
        fun _ => hem2, by simp, heq⟩
  · exact absurd rfl hng
  · simp only at hs
    cases hp : pushChan s.cap s.chans 0 r with
    | none => simp [hp] at hs
    | some chans' =>
      simp only [hp, Option.some.injEq] at hs
      subst hs
      have hQ := pushChan_spec hp
      refine ⟨st, some PC.top, nd1, log, w2, rem, rfl, hr, fun hc => by simp at hc,
        fun _ => hem (by simp), by simp, ?_⟩
      show log ++ (qOf chans' 1 ++ (nd1.inflight ++ (qOf chans' 0 ++ _).map f)) = total
      rw [hQ 1, hQ 0, ← heq]
      simp [Stage.inflight]
  · simp at hs

theorem sfsInv_step_filter {α σ : Type} {s s' : System α σ} {pf : σ → Option α × σ}
    {f : α → α} {total : List α} (h : SfsInv s pf f total) (hs : stepWorker 1 s = some s') :
    SfsInv s' pf f total := by
  obtain ⟨st, w0, nd1, log, w2, rem, hN, hr, hex, hem, hng, heq⟩ := h
  have hnd : s.nodes.get? 1 = some nd1 := by rw [hN]; rfl
  obtain ⟨nd1', hset, hr', _, hcase⟩ := stepFilter_spec hnd hr hs
  have hN' : s'.nodes =
      [⟨Role.source pf st 0, false, w0⟩, nd1', ⟨Role.sink log 1, false, w2⟩] := by
    rw [hset, hN]; rfl
  refine ⟨st, w0, nd1', log, w2, rem, hN', hr'.trans hr, hex, hem, hng, ?_⟩
  rcases hcase with ⟨hch, hi, hi'⟩ | ⟨v, hpop, hi, hi'⟩ | ⟨r, hpush, hi, hi'⟩
  · rw [hch, hi', ← heq, hi]
  · obtain ⟨rest, hq, hQ⟩ := popChan_spec hpop
    rw [hQ 1, hQ 0, hi', ← heq, hi, hq]
    simp
  · have hQ := pushChan_spec hpush
    rw [hQ 1, hQ 0, hi', ← heq, hi]
    simp

theorem sfsInv_step_sink {α σ : Type} {s s' : System α σ} {pf : σ → Option α × σ}
    {f : α → α} {total : List α} (h : SfsInv s pf f total) (hs : stepWorker 2 s = some s') :
    SfsInv s' pf f total := by
  obtain ⟨st, w0, nd1, log, w2, rem, hN, hr, hex, hem, hng, heq⟩ := h
  unfold stepWorker at hs
  rw [hN] at hs
  simp only [List.get?_cons_succ, List.get?_cons_zero, List.set_cons_succ,
    List.set_cons_zero] at hs
  rcases w2 with _ | (_ | _ | r | _)
  · simp at hs
  · simp only [Bool.false_eq_true, if_false, Option.some.injEq] at hs
    subst hs
    exact ⟨st, w0, nd1, log, some PC.get, rem, rfl, hr, hex, hem, hng, heq⟩
  · simp only at hs
    cases hp : popChan s.chans 1 with
    | none => simp [hp] at hs
    | some y =>
      rcases y with ⟨v, chans'⟩
      simp only [hp, Option.some.injEq] at hs
      subst hs
      obtain ⟨rest, hq, hQ⟩ := popChan_spec hp
      refine ⟨st, w0, nd1, log ++ [v], some PC.top, rem, rfl, hr, hex, hem, hng, ?_⟩
      show (log ++ [v]) ++ (qOf chans' 1 ++ (nd1.inflight ++ (qOf chans' 0 ++ _).map f)) = total
      rw [hQ 1, hQ 0, ← heq, hq]
      simp
  · simp at hs
  · simp at hs

theorem sfsInv_exec {α σ : Type} (pf : σ → Option α × σ) (f : α → α) (total : List α)
    (sched : List Nat) :
    ∀ s : System α σ, SfsInv s pf f total → SfsInv (exec sched s) pf f total := by
  induction sched with
  | nil => intro s h; exact h
  | cons i rest ih =>
    intro s h
    simp only [exec]
    apply ih
    cases hs : stepWorker i s with
    | none => exact h
    | some s' =>
      simp only [Option.getD_some]
      match i, hs with
      | 0, hs => exact sfsInv_step_source h hs
      | 1, hs => exact sfsInv_step_filter h hs
      | 2, hs => exact sfsInv_step_sink h hs
      | n + 3, hs =>
        obtain ⟨st, w0, nd1, log, w2, rem, hN, _⟩ := h
        have : s.nodes.get? (n + 3) = none := by rw [hN]; rfl
        rw [stepWorker_none_of_get_none this] at hs
        simp at hs

theorem sfsInv_init {α σ : Type} (cap : Option Nat) (t0 t1 : Ty) (pf : σ → Option α × σ)
    (st : σ) (f : α → α) (vs : List α) (h : Emits pf st vs) :
    SfsInv (sfsIdle cap t0 t1 [] [] pf st f []) pf f (vs.map f) :=
  ⟨st, some PC.top, ⟨Role.filter f 0 1, false, some PC.top⟩, [], some PC.top, vs, rfl, rfl,
    fun hc => by simp at hc, fun _ => h, by simp, by simp [qOf, sfsIdle, Stage.inflight]⟩

theorem sfs_false_call {α σ : Type} (cap : Option Nat) (t0 t1 : Ty) (pf : σ → Option α × σ)
    (st : σ) (f : α → α) (log : List α) (hn : (pf st).1 = none) :
    exec [0] (sfsIdle cap t0 t1 [] [] pf st f log) =
      ⟨cap, [⟨t0, []⟩, ⟨t1, []⟩],
        [⟨Role.source pf (pf st).2 0, false, some PC.exited⟩,
         ⟨Role.filter f 0 1, false, some PC.top⟩, ⟨Role.sink log 1, false, some PC.top⟩]⟩ := by
  rcases hpf : pf st with ⟨o, st'⟩
  rw [hpf] at hn
  simp only at hn
  subst hn
  simp [exec, stepWorker, sfsIdle, hpf]

/-! ### Composite of two filters -/

theorem compositeOfTwo_eq {α σ : Type} (R OT : Ty) (a b : Nat) (f1 f2 : α → α)
    (heap : List (Chan α)) :
    compositeOfTwo (σ := σ) R OT a b f1 f2 heap =
      ((none, none), (heap ++ [⟨R, []⟩],
        ⟨OT, a, b, [heap.length],
          [SimpleDataFilter f1 a heap.length, SimpleDataFilter f2 heap.length b]⟩)) := by
  simp [compositeOfTwo, SimpleCompositeDataFilter.add_first_filter,
    SimpleCompositeDataFilter.add_last_filter, SimpleCompositeDataFilter.new, make_pipe, castPipe]

theorem chainInv_step {α σ : Type} {s s' : System α σ} {f1 f2 : α → α} {a n b : Nat}
    {total : List α} (hab : a ≠ b) (han : a ≠ n) (hbn : b ≠ n) (i : Nat)
    (h : ChainInv s f1 f2 a n b total) (hs : stepWorker i s = some s') :
    ChainInv s' f1 f2 a n b total := by
  obtain ⟨nd0, nd1, hN, hr0, hr1, heq⟩ := h
  match i, hs with
  | 0, hs =>
    have hnd : s.nodes.get? 0 = some nd0 := by rw [hN]; rfl
    obtain ⟨nd0', hset, hr', _, hcase⟩ := stepFilter_spec hnd hr0 hs
    refine ⟨nd0', nd1, by rw [hset, hN]; rfl, hr'.trans hr0, hr1, ?_⟩
    rcases hcase with ⟨hch, hi, hi'⟩ | ⟨v, hpop, hi, hi'⟩ | ⟨r, hpush, hi, hi'⟩
    · rw [hch, hi', ← heq, hi]
    · obtain ⟨rest, hq, hQ⟩ := popChan_spec hpop
      rw [hQ b, hQ n, hQ a, hi', ← heq, hi, hq]
      simp [hab, han, hbn, Ne.symm hab, Ne.symm han, Ne.symm hbn]
    · have hQ := pushChan_spec hpush
      rw [hQ b, hQ n, hQ a, hi', ← heq, hi]
      simp [hab, han, hbn, Ne.symm hab, Ne.symm han, Ne.symm hbn]
  | 1, hs =>
    have hnd : s.nodes.get? 1 = some nd1 := by rw [hN]; rfl
    obtain ⟨nd1', hset, hr', _, hcase⟩ := stepFilter_spec hnd hr1 hs
    refine ⟨nd0, nd1', by rw [hset, hN]; rfl, hr0, hr'.trans hr1, ?_⟩
    rcases hcase with ⟨hch, hi, hi'⟩ | ⟨v, hpop, hi, hi'⟩ | ⟨r, hpush, hi, hi'⟩
    · rw [hch, hi', ← heq, hi]
    · obtain ⟨rest, hq, hQ⟩ := popChan_spec hpop
      rw [hQ b, hQ n, hQ a, hi', ← heq, hi, hq]
      simp [hab, han, hbn, Ne.symm hab, Ne.symm han, Ne.symm hbn]
    · have hQ := pushChan_spec hpush
      rw [hQ b, hQ n, hQ a, hi', ← heq, hi]
      simp [hab, han, hbn, Ne.symm hab, Ne.symm han, Ne.symm hbn]
  | k + 2, hs =>
    have : s.nodes.get? (k + 2) = none := by rw [hN]; rfl
    rw [stepWorker_none_of_get_none this] at hs
    simp at hs

theorem chainInv_exec {α σ : Type} {f1 f2 : α → α} {a n b : Nat} {total : List α}
    (hab : a ≠ b) (han : a ≠ n) (hbn : b ≠ n) (sched : List Nat) :
    ∀ s : System α σ, ChainInv s f1 f2 a n b total →
      ChainInv (exec sched s) f1 f2 a n b total := by
  induction sched with
  | nil => intro s h; exact h
  | cons i rest ih =>
    intro s h
    simp only [exec]
    apply ih
    cases hs : stepWorker i s with
    | none => exact h
    | some s' => exact chainInv_step hab han hbn i h hs

theorem chain_full {α σ : Type} (f1 f2 : α → α) (a n b : Nat) (hab : a ≠ b) (han : a ≠ n)
    (hbn : b ≠ n) (xs : List α) :
    ∀ (s : System α σ) (ta tn tb : Ty) (out : List α),
      s.nodes = [⟨Role.filter f1 a n, false, some PC.top⟩,
        ⟨Role.filter f2 n b, false, some PC.top⟩] →
      s.chans.get? a = some ⟨ta, xs⟩ → s.chans.get? n = some ⟨tn, []⟩ →
      s.chans.get? b = some ⟨tb, out⟩ →
      (∀ m, m < out.length + xs.length → hasRoom s.cap m = true) →
      qOf (exec (chainSched xs.length) s).chans b = out ++ xs.map (fun x => f2 (f1 x)) := by
  induction xs with
  | nil =>
    intro s ta tn tb out _ _ _ hb _
    simp only [List.length_nil, chainSched, exec, List.map_nil, List.append_nil]
    unfold qOf
    rw [hb]
  | cons x rest ih =>
    intro s ta tn tb out hN ha hn hb hroom
    have e : [0, 0, 0, 1, 1, 1] ++ chainSched rest.length =
        [0, 0, 0] ++ ([1, 1, 1] ++ chainSched rest.length) := rfl
    simp only [List.length_cons, chainSched]
    rw [e, exec_append, exec_append]
    have hn0 : s.nodes.get? 0 = some ⟨Role.filter f1 a n, false, some PC.top⟩ := by
      rw [hN]; rfl
    have hn1 : s.nodes.get? 1 = some ⟨Role.filter f2 n b, false, some PC.top⟩ := by
      rw [hN]; rfl
    rw [exec_move hn0 ha hn han (hroom 0 (by simp))]
    have h1n : ((s.chans.set a ⟨ta, rest⟩).set n ⟨tn, [] ++ [f1 x]⟩).get? n =
        some ⟨tn, [f1 x]⟩ :=
      get?_set_self _ _ ⟨tn, []⟩ _ (by rw [get?_set_other _ _ _ _ han]; exact hn)
    have h1b : ((s.chans.set a ⟨ta, rest⟩).set n ⟨tn, [] ++ [f1 x]⟩).get? b =
        some ⟨tb, out⟩ := by
      rw [get?_set_other _ _ _ _ (Ne.symm hbn), get?_set_other _ _ _ _ hab]; exact hb
    have h1a : ((s.chans.set a ⟨ta, rest⟩).set n ⟨tn, [] ++ [f1 x]⟩).get? a =
        some ⟨ta, rest⟩ := by
      rw [get?_set_other _ _ _ _ (Ne.symm han)]; exact get?_set_self _ _ _ _ ha
    rw [@exec_move α σ { s with chans := (s.chans.set a ⟨ta, rest⟩).set n ⟨tn, [] ++ [f1 x]⟩ }
      1 n b f2 tn tb (f1 x) [] out hn1 h1n h1b (Ne.symm hbn) (hroom out.length (by simp))]
    have h2 := ih
      { s with chans := (((s.chans.set a ⟨ta, rest⟩).set n ⟨tn, [] ++ [f1 x]⟩).set n
          ⟨tn, []⟩).set b ⟨tb, out ++ [f2 (f1 x)]⟩ }
      ta tn tb (out ++ [f2 (f1 x)]) hN
      (by show (List.set _ b _).get? a = _
          rw [get?_set_other _ _ _ _ (Ne.symm hab), get?_set_other _ _ _ _ (Ne.symm han)]
          exact h1a)
      (by show (List.set _ b _).get? n = _
          rw [get?_set_other _ _ _ _ hbn]
          exact get?_set_self _ _ _ _ h1n)
      (by show (List.set _ b _).get? b = _
          exact get?_set_self _ _ ⟨tb, out⟩ _
            (by rw [get?_set_other _ _ _ _ (Ne.symm hbn)]; exact h1b))
      (by intro m hm
          apply hroom m
          simp at hm ⊢
          omega)
    rw [h2]
    simp

theorem lt_of_get?_some {β : Type} {l : List β} {i : Nat} {x : β} (h : l.get? i = some x) :
    i < l.length := by
  rw [List.get?_eq_getElem?] at h
  rcases Nat.lt_or_ge i l.length with h1 | h1
  · exact h1
  · rw [List.getElem?_eq_none h1] at h; simp at h

theorem get?_append_one {β : Type} (l : List β) (y : β) (i : Nat) (x : β)
    (h : l.get? i = some x) : (l ++ [y]).get? i = some x := by
  rw [List.get?_eq_getElem?, List.getElem?_append_left (lt_of_get?_some h),
    ← List.get?_eq_getElem?]
  exact h

/-! ### A blocked `stop` -/

theorem stepWorker_effect {α σ : Type} {j : Nat} {s s' : System α σ}
    (h : stepWorker j s = some s') :
    ∃ nd nd', s.nodes.get? j = some nd ∧ s'.nodes = s.nodes.set j nd' ∧
      (∀ c, nd'.writes c = nd.writes c) ∧
      (s'.chans = s.chans ∨ (∃ c v, popChan s.chans c = some (v, s'.chans)) ∨
        (∃ c v, nd.writes c = true ∧ pushChan s.cap s.chans c v = some s'.chans)) := by
  unfold stepWorker at h
  split at h
  · simp at h
  · rename_i nd hnd
    rcases nd with ⟨role, d, w⟩
    rcases w with _ | (_ | _ | r | _)
    · simp at h
    · simp only at h
      split at h
      · injection h with h
        subst h
        exact ⟨_, _, hnd, rfl, fun _ => rfl, Or.inl rfl⟩
      · cases role with
        | source pf st out =>
          simp only at h
          rcases hpf : pf st with ⟨o, st'⟩
          rw [hpf] at h
          cases o with
          | none =>
            injection h with h
            subst h
            exact ⟨_, _, hnd, rfl, fun _ => rfl, Or.inl rfl⟩
          | some v =>
            injection h with h
            subst h
            exact ⟨_, _, hnd, rfl, fun _ => rfl, Or.inl rfl⟩
        | filter f inp out =>
          injection h with h
          subst h
          exact ⟨_, _, hnd, rfl, fun _ => rfl, Or.inl rfl⟩
        | sink log inp =>
          injection h with h
          subst h
          exact ⟨_, _, hnd, rfl, fun _ => rfl, Or.inl rfl⟩
    · cases role with
      | source pf st out => simp at h
      | filter f inp out =>
        simp only at h
        cases hp : popChan s.chans inp with
        | none => simp [hp] at h
        | some x =>
          rcases x with ⟨v, chans'⟩
          simp only [hp, Option.some.injEq] at h
          subst h
          exact ⟨_, _, hnd, rfl, fun _ => rfl, Or.inr (Or.inl ⟨inp, v, hp⟩)⟩
      | sink log inp =>
        simp only at h
        cases hp : popChan s.chans inp with
        | none => simp [hp] at h
        | some x =>
          rcases x with ⟨v, chans'⟩
          simp only [hp, Option.some.injEq] at h
          subst h
          exact ⟨_, _, hnd, rfl, fun _ => rfl, Or.inr (Or.inl ⟨inp, v, hp⟩)⟩
    · cases role with
      | sink log inp => simp at h
      | source pf st out =>
        simp only at h
        cases hp : pushChan s.cap s.chans out r with
        | none => simp [hp] at h
        | some chans' =>
          simp only [hp, Option.some.injEq] at h
          subst h
          exact ⟨_, _, hnd, rfl, fun _ => rfl,
            Or.inr (Or.inr ⟨out, r, by simp [Stage.writes], hp⟩)⟩
      | filter f inp out =>
        simp only at h
        cases hp : pushChan s.cap s.chans out r with
        | none => simp [hp] at h
        | some chans' =>
          simp only [hp, Option.some.injEq] at h
          subst h
          exact ⟨_, _, hnd, rfl, fun _ => rfl,
            Or.inr (Or.inr ⟨out, r, by simp [Stage.writes], hp⟩)⟩
    · simp at h

theorem popChan_none_of_empty {α : Type} (chans : List (Chan α)) (c : Nat)
    (h : qOf chans c = []) : popChan chans c = none := by
  unfold popChan
  unfold qOf at h
  cases hc : chans.get? c with
  | none => rfl
  | some ch =>
    rw [hc] at h
    rcases ch with ⟨t, q⟩
    simp only at h
    subst h
    rfl

theorem parked_no_step {α σ : Type} {s : System α σ} {i inp : Nat} (h : Parked s i inp) :
    stepWorker i s = none := by
  obtain ⟨⟨nd, hnd, hw, hr⟩, he, _⟩ := h
  unfold stepWorker
  rw [hnd]
  rcases nd with ⟨role, d, w⟩
  simp only at hw
  subst hw
  cases role with
  | source pf st out => rfl
  | filter f a out =>
    simp only [Stage.reads, decide_eq_true_eq] at hr
    subst hr
    simp only [popChan_none_of_empty _ _ he]
  | sink log a =>
    simp only [Stage.reads, decide_eq_true_eq] at hr
    subst hr
    simp only [popChan_none_of_empty _ _ he]

theorem parked_step {α σ : Type} {s s' : System α σ} {i inp : Nat} (j : Nat)
    (h : Parked s i inp) (hs : stepWorker j s = some s') : Parked s' i inp := by
  have hji : j ≠ i := by
    intro e
    subst e
    rw [parked_no_step h] at hs
    simp at hs
  obtain ⟨⟨nd, hnd, hw, hr⟩, he, hnow⟩ := h
  obtain ⟨x, x', hx, hset, hwr, hcase⟩ := stepWorker_effect hs
  refine ⟨⟨nd, ?_, hw, hr⟩, ?_, ?_⟩
  · rw [hset, get?_set_other _ _ _ _ hji]
    exact hnd
  · rcases hcase with hch | ⟨c, v, hpop⟩ | ⟨c, v, hwc, hpush⟩
    · rw [hch]; exact he
    · obtain ⟨rest, hq, hQ⟩ := popChan_spec hpop
      rw [hQ inp]
      by_cases hc : inp = c
      · subst hc
        rw [he] at hq
        simp at hq
      · rw [if_neg hc]; exact he
    · have hne : inp ≠ c := by
        intro e
        subst e
        rw [hnow x (List.get?_mem hx)] at hwc
        simp at hwc
      rw [pushChan_spec hpush inp, if_neg hne]
      exact he
  · intro y hy
    rw [hset] at hy
    rcases List.mem_or_eq_of_mem_set hy with hy | hy
    · exact hnow y hy
    · subst hy
      rw [hwr inp]
      exact hnow x (List.get?_mem hx)

theorem parked_exec {α σ : Type} {i inp : Nat} (sched : List Nat) :
    ∀ s : System α σ, Parked s i inp → Parked (exec sched s) i inp := by
  induction sched with
  | nil => intro s h; exact h
  | cons j rest ih =>
    intro s h
    simp only [exec]
    apply ih
    cases hs : stepWorker j s with
    | none => exact h
    | some s' => exact parked_step j h hs

theorem parked_stopBegin {α σ : Type} {s : System α σ} {i inp : Nat} (h : Parked s i inp) :
    Parked (stopBeginAt i s) i inp ∧
      ∃ nd, (stopBeginAt i s).nodes.get? i = some nd ∧ nd.done = true := by
  obtain ⟨⟨nd, hnd, hw, hr⟩, he, hnow⟩ := h
  have hsb : nd.stop_begin.1 = { nd with done := true } := by
    simp [Stage.stop_begin, hw]
  have hst : stopBeginAt i s = { s with nodes := s.nodes.set i { nd with done := true } } := by
    unfold stopBeginAt
    rw [hnd]
    simp only [hsb]
  rw [hst]
  refine ⟨⟨⟨_, get?_set_self _ _ _ _ hnd, hw, hr⟩, he, ?_⟩, _, get?_set_self _ _ _ _ hnd, rfl⟩
  intro y hy
  rcases List.mem_or_eq_of_mem_set hy with hy | hy
  · exact hnow y hy
  · subst hy
    exact hnow nd (List.get?_mem hnd)

theorem parked_after_first_step {α σ : Type} (sys : System α σ) (i inp : Nat) (nd : Stage α σ)
    (hnd : sys.nodes.get? i = some nd) (hw : nd.worker = none) (hd : nd.done = false)
    (hr : nd.reads inp = true) (he : qOf sys.chans inp = [])
    (hnow : ∀ x ∈ sys.nodes, x.writes inp = false) :
    Parked (exec [i] (startAt i sys)) i inp := by
  rcases nd with ⟨role, d, w⟩
  simp only at hw hd
  subst hw hd
  have hstart : startAt i sys =
      { sys with nodes := sys.nodes.set i ⟨role, false, some PC.top⟩ } := by
    unfold startAt
    rw [hnd]
    rfl
  have hstep : stepWorker i { sys with nodes := sys.nodes.set i ⟨role, false, some PC.top⟩ } =
      some { sys with nodes := sys.nodes.set i ⟨role, false, some PC.get⟩ } := by
    unfold stepWorker
    simp only [get?_set_self _ _ _ _ hnd, Bool.false_eq_true, if_false, List.set_set]
    cases role with
    | source pf st out => simp [Stage.reads] at hr
    | filter f a out => rfl
    | sink log a => rfl
  simp only [exec, hstart, hstep, Option.getD_some]
  refine ⟨⟨_, get?_set_self _ _ _ _ hnd, rfl, hr⟩, he, ?_⟩
  intro y hy
  rcases List.mem_or_eq_of_mem_set hy with hy | hy
  · exact hnow y hy
  · subst hy
    have h3 := hnow _ (List.get?_mem hnd)
    exact h3

/-- Claim C11: `stop()` can block for ever.  A filter or sink that is started over
an empty input channel onto which no stage pushes parks its worker inside `pop`
after its first loop test; a `stop()` then sets `done` and waits in `join`, and from
there on, under every schedule, the stage keeps `done` set with its worker still
inside `pop`, no step of that worker is enabled, `join` does not return, and so
`stop()` returns under no schedule. -/
theorem stop_blocks_while_input_empty {α σ : Type} (sys : System α σ) (i inp : Nat)
    (nd : Stage α σ) (hnd : sys.nodes.get? i = some nd) (hw : nd.worker = none)
    (hd : nd.done = false) (hr : nd.reads inp = true) (he : qOf sys.chans inp = [])
    (hnow : ∀ x ∈ sys.nodes, x.writes inp = false) :
    Parked (exec [i] (startAt i sys)) i inp ∧
    (∀ sched,
      stepWorker i (exec sched (stopBeginAt i (exec [i] (startAt i sys)))) = none ∧
      ((exec sched (stopBeginAt i (exec [i] (startAt i sys)))).nodes.get? i).bind Stage.join =
        none ∧
      ∃ x, (exec sched (stopBeginAt i (exec [i] (startAt i sys)))).nodes.get? i = some x ∧
        x.done = true ∧ x.worker = some PC.get) ∧
    (∀ sched, stopAt i sched (exec [i] (startAt i sys)) = none) := by
  have hp := parked_after_first_step sys i inp nd hnd hw hd hr he hnow
  obtain ⟨hpb, ndb, hndb, hdb⟩ := parked_stopBegin hp
  have hall : ∀ sched,
      stepWorker i (exec sched (stopBeginAt i (exec [i] (startAt i sys)))) = none ∧
      ((exec sched (stopBeginAt i (exec [i] (startAt i sys)))).nodes.get? i).bind Stage.join =
        none ∧
      ∃ x, (exec sched (stopBeginAt i (exec [i] (startAt i sys)))).nodes.get? i = some x ∧
        x.done = true ∧ x.worker = some PC.get := by
    intro sched
    have hpe := parked_exec sched _ hpb
    obtain ⟨⟨x, hx, hxw, _⟩, _, _⟩ := hpe
    have hsig := exec_sig_at sched (stopBeginAt i (exec [i] (startAt i sys))) i
    rw [hx, hndb] at hsig
    simp only [Option.map_some', Option.some.injEq, Stage.sig, Prod.mk.injEq] at hsig
    refine ⟨parked_no_step (parked_exec sched _ hpb), ?_, x, hx, by rw [hsig.1]; exact hdb, hxw⟩
    rw [hx]
    simp only [Option.some_bind, Stage.join, hxw]
  refine ⟨hp, hall, ?_⟩
  intro sched
  obtain ⟨⟨x1, hx1, hx1w, _⟩, _, _⟩ := hp
  have hsb : stopBeginAt i (exec [i] (startAt i sys)) =
      { exec [i] (startAt i sys) with
        nodes := (exec [i] (startAt i sys)).nodes.set i x1.stop_begin.1 } := by
    unfold stopBeginAt
    rw [hx1]
  have hj := (hall sched).2.1
  rw [hsb] at hj
  unfold stopAt
  rw [hx1]
  have h2 : x1.stop_begin.2 = true := by simp [Stage.stop_begin, hx1w]
  simp only [h2, if_true]
  rw [hj]

theorem stop_blocks_while_input_empty_witness :
    stopAt 0 [0, 0, 0] (exec [0] (startAt 0 demoEmptyFilterSys)) = none :=
  (stop_blocks_while_input_empty demoEmptyFilterSys 0 0 (SimpleDataFilter (fun x => x * 2) 0 1)
    rfl rfl rfl rfl rfl (by decide)).2.2 [0, 0, 0]

/-! ### `clear` of a composite -/

theorem stopAt_none_of_parked {α σ : Type} {s : System α σ} {i inp : Nat} (h : Parked s i inp)
    (sched : List Nat) : stopAt i sched s = none := by
  obtain ⟨hpb, ndb, hndb, _⟩ := parked_stopBegin h
  obtain ⟨⟨x, hx, hxw, _⟩, _, _⟩ := parked_exec sched _ hpb
  obtain ⟨⟨x1, hx1, hx1w, _⟩, _, _⟩ := h
  have hsb : stopBeginAt i s = { s with nodes := s.nodes.set i x1.stop_begin.1 } := by
    unfold stopBeginAt
    rw [hx1]
  rw [hsb] at hx
  unfold stopAt
  rw [hx1]
  have h2 : x1.stop_begin.2 = true := by simp [Stage.stop_begin, hx1w]
  simp only [h2, if_true]
  rw [hx]
  simp only [Option.some_bind, Stage.join, hxw]

theorem stopFrom_idle {α σ : Type} (l : List (List Nat)) :
    ∀ (j : Nat) (s : System α σ), (∀ x ∈ s.nodes, x.worker = none) → stopFrom j l s = some s := by
  induction l with
  | nil => intro j s _; rfl
  | cons sch rest ih =>
    intro j s hx
    have h1 : stopAt j sch s = some s := by
      unfold stopAt
      cases hnd : s.nodes.get? j with
      | none => rfl
      | some x => simp [Stage.stop_begin, hx x (List.get?_mem hnd)]
    simp only [stopFrom, h1, Option.some_bind]
    exact ih (j + 1) s hx

/-- Claim C12, refuted as stated: the composite of a doubling and an incrementing
filter, started, whose first worker has taken its first step and waits in `pop` on
the empty boundary channel, is a state in which `clear()` returns under no
schedule: destroying the first stage runs its `stop()`, whose `join` never
returns. -/
theorem clear_blocks_on_parked_worker :
    (exec [0] (demoComposite.start.system none demoHeap)).nodes = demoParkedComposite.filters ∧
    ¬ ∃ scheds, (demoParkedComposite.clear scheds none demoHeap).isSome = true := by
  refine ⟨rfl, ?_⟩
  rintro ⟨scheds, h⟩
  have hp : Parked (demoParkedComposite.system none demoHeap) 0 0 :=
    ⟨⟨_, rfl, rfl, rfl⟩, rfl, by decide⟩
  unfold SimpleCompositeDataFilter.clear SimpleCompositeDataFilter.stop at h
  cases scheds with
  | nil => simp [demoParkedComposite] at h
  | cons sch rest =>
    simp only [stopFrom, stopAt_none_of_parked hp sch, Option.none_bind, Option.map_none',
      ite_self, Option.isSome_none] at h
    exact absurd h (by decide)

/-- Claim C12, amended: whenever `clear()` returns, and it does return when no
internal worker is running, the list of internal stages and the list of internal
channels are empty and `get_in_pipe` / `get_out_pipe` are unchanged, so the
composite is the newly constructed one over the same boundary channels: a
following `add_first_filter` succeeds and every build gives the same result on
both. -/
theorem clear_resets_composite {α σ : Type} (c : SimpleCompositeDataFilter α σ)
    (scheds : List (List Nat)) (cap : Option Nat) (heap : List (Chan α)) (R : Ty) (f : α → α)
    (calls : List (CCall α)) :
    (∀ r, c.clear scheds cap heap = some r →
      r.2.filters = [] ∧ r.2.pipes = [] ∧ r.2.get_in_pipe = c.get_in_pipe ∧
      r.2.get_out_pipe = c.get_out_pipe ∧
      r.2 = SimpleCompositeDataFilter.new c.outTy c.first_pipe c.last_pipe ∧
      (SimpleCompositeDataFilter.add_first_filter R f r).1 = none ∧
      runCCalls calls r =
        runCCalls calls (r.1, SimpleCompositeDataFilter.new c.outTy c.first_pipe c.last_pipe)) ∧
    ((∀ x ∈ c.filters, x.worker = none) → scheds.length = c.filters.length →
      c.clear scheds cap heap =
        some (heap, SimpleCompositeDataFilter.new c.outTy c.first_pipe c.last_pipe)) := by
  constructor
  · intro r h
    unfold SimpleCompositeDataFilter.clear SimpleCompositeDataFilter.stop at h
    split at h
    · cases hs : stopFrom 0 scheds (c.system cap heap) with
      | none => simp [hs] at h
      | some s1 =>
        simp only [hs, Option.map_some', Option.some.injEq] at h
        subst h
        refine ⟨rfl, rfl, rfl, rfl, rfl, ?_, rfl⟩
        simp [SimpleCompositeDataFilter.add_first_filter]
    · simp at h
  · intro hx hlen
    unfold SimpleCompositeDataFilter.clear SimpleCompositeDataFilter.stop
    simp only [hlen, if_true]
    rw [stopFrom_idle scheds 0 (c.system cap heap) hx]
    rfl

theorem clear_resets_composite_witness :
    demoComposite.clear [[], []] none demoHeap =
      some (demoHeap, SimpleCompositeDataFilter.new 0 0 1) :=
  (clear_resets_composite demoComposite [[], []] none demoHeap 0 (fun x => x) []).2
    (by decide) rfl

/-! ### Recipe-02: what the constructor builds -/

theorem stepSource_spec {α σ : Type} {i : Nat} {s s' : System α σ} {pf : σ → Option α × σ}
    {st : σ} {out : Nat} {w0 : Option (PC α)}
    (hnd : s.nodes.get? i = some ⟨Role.source pf st out, false, w0⟩)
    (hs : stepWorker i s = some s') :
    (w0 = some PC.top ∧ (pf st).1 = none ∧
      s' = { s with nodes := s.nodes.set i ⟨Role.source pf (pf st).2 out, false,
        some PC.exited⟩ }) ∨
    (∃ v, w0 = some PC.top ∧ (pf st).1 = some v ∧
      s' = { s with nodes := s.nodes.set i ⟨Role.source pf (pf st).2 out, false,
        some (PC.put v)⟩ }) ∨
    (∃ r chans', w0 = some (PC.put r) ∧ pushChan s.cap s.chans out r = some chans' ∧
      s' = ⟨s.cap, chans', s.nodes.set i ⟨Role.source pf st out, false, some PC.top⟩⟩) := by
  unfold stepWorker at hs
  rw [hnd] at hs
  rcases w0 with _ | (_ | _ | r | _)
  · simp at hs
  · simp only [Bool.false_eq_true, if_false] at hs
    rcases hpf : pf st with ⟨o, st'⟩
    rw [hpf] at hs
    cases o with
    | none =>
      simp only [Option.some.injEq] at hs
      exact Or.inl ⟨rfl, rfl, hs.symm⟩
    | some v =>
      simp only [Option.some.injEq] at hs
      exact Or.inr (Or.inl ⟨v, rfl, rfl, hs.symm⟩)
  · simp at hs
  · simp only at hs
    cases hp : pushChan s.cap s.chans out r with
    | none => simp [hp] at hs
    | some chans' =>
      simp only [hp, Option.some.injEq] at hs
      exact Or.inr (Or.inr ⟨r, chans', rfl, hp, hs.symm⟩)
  · simp at hs

theorem TcpSixteen.ne_nil_of_not_isEmpty {β : Type} {l : List β} (h : ¬ l.isEmpty = true) :
    l ≠ [] ∧ 0 < l.length := by
  cases l with
  | nil => simp at h
  | cons a t => simp

theorem TcpSixteen.loop_spec {β σ : Type} (Recv : σ → Nat → List β × σ) (length : Nat)
    (hb : ∀ s n, (Recv s n).1.length ≤ n) :
    ∀ (k : Nat) (sock : σ) (data : List β), length - data.length = k →
      (∀ e s, TcpSixteen.recvallLoop Recv length sock data = (Except.error e, s) →
        ∃ pre, TcpSixteen.chunksFrom Recv length sock data = pre ++ [[]] ∧ [] ∉ pre ∧
          (data ++ pre.flatten).length < length ∧
          e = ⟨length, (data ++ pre.flatten).length⟩) ∧
      (∀ d s, TcpSixteen.recvallLoop Recv length sock data = (Except.ok d, s) →
        [] ∉ TcpSixteen.chunksFrom Recv length sock data ∧
          d = data ++ (TcpSixteen.chunksFrom Recv length sock data).flatten ∧
          (data.length ≤ length → d.length = length)) := by
  intro k
  induction k using Nat.strong_induction_on with
  | _ k ih =>
    intro sock data hk
    rw [TcpSixteen.recvallLoop, TcpSixteen.chunksFrom]
    by_cases h : data.length < length
    · simp only [dif_pos h]
      by_cases hm : (Recv sock (length - data.length)).1.isEmpty = true
      · simp only [dif_pos hm]
        have hnil : (Recv sock (length - data.length)).1 = [] := by
          simpa [List.isEmpty_iff] using hm
        constructor
        · intro e s he
          simp only [Prod.mk.injEq, Except.error.injEq] at he
          refine ⟨[], by rw [hnil]; rfl, by simp, by simpa using h, ?_⟩
          rw [← he.1]
          simp
        · intro d s hd
          simp at hd
      · simp only [dif_neg hm]
        obtain ⟨hne, hpos⟩ := TcpSixteen.ne_nil_of_not_isEmpty hm
        have hle := hb sock (length - data.length)
        obtain ⟨ihE, ihO⟩ := ih (length - (data ++ (Recv sock (length - data.length)).1).length)
          (by simp only [List.length_append]; omega) (Recv sock (length - data.length)).2
          (data ++ (Recv sock (length - data.length)).1) rfl
        constructor
        · intro e s he
          obtain ⟨pre, hc, hpre, hlt, hev⟩ := ihE e s he
          refine ⟨(Recv sock (length - data.length)).1 :: pre, by rw [hc]; rfl, ?_, ?_, ?_⟩
          · intro hmem
            rcases List.mem_cons.1 hmem with h1 | h1
            · exact hne h1.symm
            · exact hpre h1
          · simpa [List.append_assoc] using hlt
          · rw [hev]
            simp [List.append_assoc]
        · intro d s hd
          obtain ⟨hmem, hdv, hlen⟩ := ihO d s hd
          refine ⟨?_, ?_, ?_⟩
          · intro hm2
            rcases List.mem_cons.1 hm2 with h1 | h1
            · exact hne h1.symm
            · exact hmem h1
          · rw [hdv]
            simp [List.append_assoc]
          · intro _
            apply hlen
            simp only [List.length_append]
            omega
    · simp only [dif_neg h]
      constructor
      · intro e s he
        simp at he
      · intro d s hd
        simp only [Prod.mk.injEq, Except.ok.injEq] at hd
        refine ⟨by simp, by rw [← hd.1]; simp, ?_⟩
        intro hle
        rw [← hd.1]
        omega

theorem TcpSixteen.scriptRecv_le {β : Type} (sock : List (List β)) (n : Nat) :
    (TcpSixteen.scriptRecv sock n).1.length ≤ n := by
  cases sock with
  | nil => simp [TcpSixteen.scriptRecv]
  | cons chunk rest => simp [TcpSixteen.scriptRecv, List.length_take]

/-- Claim C14: with a socket whose `Recv(n)` never returns more than `n` bytes,
`recvall` always terminates; it throws exactly when one of the chunks it
received is empty, which is then the last one, received with fewer than `length`
bytes accumulated (the error carries `length` and that count); otherwise it
returns the concatenation in order of the chunks received, of exactly `length`
bytes; for `length` 0 it returns the empty string and calls `Recv` not once. -/
theorem TcpSixteen.recvall_spec {β σ : Type} (Recv : σ → Nat → List β × σ)
    (hb : ∀ s n, (Recv s n).1.length ≤ n) (sock : σ) (length : Nat) :
    ((∃ e s, TcpSixteen.recvall Recv sock length = (Except.error e, s)) ↔
      [] ∈ TcpSixteen.chunksFrom Recv length sock []) ∧
    (∀ e s, TcpSixteen.recvall Recv sock length = (Except.error e, s) →
      ∃ pre, TcpSixteen.chunksFrom Recv length sock [] = pre ++ [[]] ∧ [] ∉ pre ∧
        pre.flatten.length < length ∧ e = ⟨length, pre.flatten.length⟩) ∧
    ([] ∉ TcpSixteen.chunksFrom Recv length sock [] →
      ∃ s, TcpSixteen.recvall Recv sock length =
          (Except.ok (TcpSixteen.chunksFrom Recv length sock []).flatten, s) ∧
        (TcpSixteen.chunksFrom Recv length sock []).flatten.length = length) ∧
    (length = 0 → TcpSixteen.recvall Recv sock length = (Except.ok [], sock) ∧
      TcpSixteen.chunksFrom Recv length sock [] = []) := by
  obtain ⟨hE, hO⟩ := TcpSixteen.loop_spec Recv length hb _ sock [] rfl
  have hcases : ∀ (x : Except TcpSixteen.RecvError (List β) × σ),
      (∃ e s, x = (Except.error e, s)) ∨ (∃ d s, x = (Except.ok d, s)) := by
    rintro ⟨x1, x2⟩
    cases x1 with
    | error e => exact Or.inl ⟨e, x2, rfl⟩
    | ok d => exact Or.inr ⟨d, x2, rfl⟩
  refine ⟨⟨?_, ?_⟩, ?_, ?_, ?_⟩
  · rintro ⟨e, s, he⟩
    obtain ⟨pre, hc, _, _, _⟩ := hE e s he
    rw [hc]
    simp
  · intro hmem
    rcases hcases (TcpSixteen.recvall Recv sock length) with h1 | ⟨d, s, hd⟩
    · exact h1
    · exact absurd hmem (hO d s hd).1
  · intro e s he
    obtain ⟨pre, hc, hpre, hlt, hev⟩ := hE e s he
    exact ⟨pre, hc, hpre, by simpa using hlt, by simpa using hev⟩
  · intro hmem
    rcases hcases (TcpSixteen.recvall Recv sock length) with ⟨e, s, he⟩ | ⟨d, s, hd⟩
    · obtain ⟨pre, hc, _, _, _⟩ := hE e s he
      rw [hc] at hmem
      simp at hmem
    · obtain ⟨_, hdv, hlen⟩ := hO d s hd
      simp only [List.nil_append] at hdv
      have hl := hlen (by simp)
      rw [hdv] at hd hl
      exact ⟨s, hd, hl⟩
  · intro h0
    subst h0
    constructor
    · unfold TcpSixteen.recvall
      rw [TcpSixteen.recvallLoop]
      simp
    · rw [TcpSixteen.chunksFrom]
      simp

theorem TcpSixteen.recvall_spec_witness :
    ∃ s, TcpSixteen.recvall TcpSixteen.scriptRecv [[1, 2], [3], [4, 5, 6]] 6 =
        (Except.ok (TcpSixteen.chunksFrom TcpSixteen.scriptRecv 6
          [[1, 2], [3], [4, 5, 6]] []).flatten, s) ∧
      (TcpSixteen.chunksFrom TcpSixteen.scriptRecv 6
        [[1, 2], [3], [4, 5, 6]] []).flatten.length = 6 :=
  (TcpSixteen.recvall_spec TcpSixteen.scriptRecv TcpSixteen.scriptRecv_le
    [[1, 2], [3], [4, 5, 6]] 6).2.2.1
    (by simp [TcpSixteen.chunksFrom, TcpSixteen.scriptRecv])

/-! ### Work left along a chain: sums -/

theorem sumTo_congr {g f : Nat → Nat} (n : Nat) (h : ∀ c, c < n → f c = g c) :
    sumTo f n = sumTo g n := by
  induction n with
  | zero => rfl
  | succ n ih =>
    simp only [sumTo]
    rw [ih (fun c hc => h c (by omega)), h n (by omega)]

theorem sumTo_update {g f : Nat → Nat} (n c0 : Nat) (hc : c0 < n)
    (h : ∀ c, c ≠ c0 → f c = g c) : sumTo f n + g c0 = sumTo g n + f c0 := by
  induction n with
  | zero => omega
  | succ n ih =>
    simp only [sumTo]
    by_cases hn : c0 = n
    · subst hn
      rw [sumTo_congr c0 (fun c hc' => h c (by omega))]
      omega
    · have := ih (by omega)
      rw [h n (fun e => hn e.symm)]
      omega

/-! ### Work left along a chain: which steps are possible -/

theorem enabled_top {α σ : Type} {s : System α σ} {i : Nat} {role : Role α σ}
    (h : s.nodes.get? i = some ⟨role, false, some PC.top⟩) : ∃ s', stepWorker i s = some s' := by
  unfold stepWorker
  rw [h]
  cases role with
  | source pf st out =>
    simp only [Bool.false_eq_true, if_false]
    rcases hpf : pf st with ⟨o, st'⟩
    cases o with
    | none => exact ⟨_, rfl⟩
    | some v => exact ⟨_, rfl⟩
  | filter f a b => exact ⟨_, rfl⟩
  | sink log a => exact ⟨_, rfl⟩

theorem popChan_some_of_ne {α : Type} (chans : List (Chan α)) (c : Nat)
    (h : qOf chans c ≠ []) : ∃ v chans', popChan chans c = some (v, chans') := by
  unfold qOf at h
  unfold popChan
  cases hc : chans.get? c with
  | none => rw [hc] at h; exact absurd rfl h
  | some ch =>
    rw [hc] at h
    rcases ch with ⟨t, q⟩
    cases q with
    | nil => exact absurd rfl h
    | cons v rest => exact ⟨v, _, rfl⟩

theorem pushChan_some_of_room {α : Type} (cap : Option Nat) (chans : List (Chan α)) (c : Nat)
    (v : α) (hc : c < chans.length) (hr : hasRoom cap (qOf chans c).length = true) :
    ∃ chans', pushChan cap chans c v = some chans' := by
  obtain ⟨t, ht⟩ := get?_of_qOf chans c hc
  unfold pushChan
  rw [ht]
  simp only [hr, if_true]
  exact ⟨_, rfl⟩

theorem enabled_pop_filter {α σ : Type} {s : System α σ} {i inp out : Nat} {f : α → α}
    {d : Bool} (h : s.nodes.get? i = some ⟨Role.filter f inp out, d, some PC.get⟩)
    (hq : qOf s.chans inp ≠ []) : ∃ s', stepWorker i s = some s' := by
  obtain ⟨v, chans', hp⟩ := popChan_some_of_ne s.chans inp hq
  unfold stepWorker
  rw [h]
  simp only [hp]
  exact ⟨_, rfl⟩

theorem enabled_pop_sink {α σ : Type} {s : System α σ} {i inp : Nat} {log : List α}
    {d : Bool} (h : s.nodes.get? i = some ⟨Role.sink log inp, d, some PC.get⟩)
    (hq : qOf s.chans inp ≠ []) : ∃ s', stepWorker i s = some s' := by
  obtain ⟨v, chans', hp⟩ := popChan_some_of_ne s.chans inp hq
  unfold stepWorker
  rw [h]
  simp only [hp]
  exact ⟨_, rfl⟩

theorem enabled_push_filter {α σ : Type} {s : System α σ} {i inp out : Nat} {f : α → α}
    {d : Bool} {r : α} (h : s.nodes.get? i = some ⟨Role.filter f inp out, d, some (PC.put r)⟩)
    (hc : out < s.chans.length) (hr : hasRoom s.cap (qOf s.chans out).length = true) :
    ∃ s', stepWorker i s = some s' := by
  obtain ⟨chans', hp⟩ := pushChan_some_of_room s.cap s.chans out r hc hr
  unfold stepWorker
  rw [h]
  simp only [hp]
  exact ⟨_, rfl⟩

theorem enabled_push_source {α σ : Type} {s : System α σ} {i out : Nat}
    {pf : σ → Option α × σ} {st : σ} {d : Bool} {r : α}
    (h : s.nodes.get? i = some ⟨Role.source pf st out, d, some (PC.put r)⟩)
    (hc : out < s.chans.length) (hr : hasRoom s.cap (qOf s.chans out).length = true) :
    ∃ s', stepWorker i s = some s' := by
  obtain ⟨chans', hp⟩ := pushChan_some_of_room s.cap s.chans out r hc hr
  unfold stepWorker
  rw [h]
  simp only [hp]
  exact ⟨_, rfl⟩

/-! ### Work left along a chain: every filter step takes one off -/

theorem stepFilter_exact {α σ : Type} {i : Nat} {s s' : System α σ} {f : α → α}
    {inp out : Nat} {w : PC α}
    (hnd : s.nodes.get? i = some ⟨Role.filter f inp out, false, some w⟩)
    (hs : stepWorker i s = some s') :
    (w = PC.top ∧
      s' = ⟨s.cap, s.chans, s.nodes.set i ⟨Role.filter f inp out, false, some PC.get⟩⟩) ∨
    (∃ v chans', w = PC.get ∧ popChan s.chans inp = some (v, chans') ∧
      s' = ⟨s.cap, chans', s.nodes.set i ⟨Role.filter f inp out, false,
        some (PC.put (f v))⟩⟩) ∨
    (∃ r chans', w = PC.put r ∧ pushChan s.cap s.chans out r = some chans' ∧
      s' = ⟨s.cap, chans', s.nodes.set i ⟨Role.filter f inp out, false, some PC.top⟩⟩) := by
  unfold stepWorker at hs
  rw [hnd] at hs
  rcases w with _ | _ | r | _
  · simp only [Bool.false_eq_true, if_false, Option.some.injEq] at hs
    exact Or.inl ⟨rfl, hs.symm⟩
  · simp only at hs
    cases hp : popChan s.chans inp with
    | none => simp [hp] at hs
    | some x =>
      rcases x with ⟨v, chans'⟩
      simp only [hp, Option.some.injEq] at hs
      exact Or.inr (Or.inl ⟨v, chans', rfl, rfl, hs.symm⟩)
  · simp only at hs
    cases hp : pushChan s.cap s.chans out r with
    | none => simp [hp] at hs
    | some chans' =>
      simp only [hp, Option.some.injEq] at hs
      exact Or.inr (Or.inr ⟨r, chans', rfl, hp, hs.symm⟩)
  · simp at hs

theorem popChan_frame {α : Type} {chans chans' : List (Chan α)} {c : Nat} {v : α}
    (h : popChan chans c = some (v, chans')) :
    chans'.length = chans.length ∧ chans'.map Chan.ty = chans.map Chan.ty := by
  unfold popChan at h
  split at h
  · rename_i ty w rest hc
    simp only [Option.some.injEq, Prod.mk.injEq] at h
    obtain ⟨_, hch⟩ := h
    subst hch
    exact ⟨List.length_set _ _ _, map_ty_set _ _ _ _ _ hc⟩
  · simp at h

theorem pushChan_frame {α : Type} {cap : Option Nat} {chans chans' : List (Chan α)} {c : Nat}
    {v : α} (h : pushChan cap chans c v = some chans') :
    chans'.length = chans.length ∧ chans'.map Chan.ty = chans.map Chan.ty := by
  unfold pushChan at h
  split at h
  · rename_i ty q hc
    split at h
    · simp only [Option.some.injEq] at h
      subst h
      exact ⟨List.length_set _ _ _, map_ty_set _ _ _ _ _ hc⟩
    · simp at h
  · simp at h

theorem nodeCredit_set {α σ : Type} (nodes : List (Stage α σ)) (i j w : Nat)
    (nd nd' : Stage α σ) (h : nodes.get? i = some nd) :
    nodeCredit (nodes.set i nd') j w = if j = i then nd'.credit w else nodeCredit nodes j w := by
  by_cases hj : j = i
  · subst hj
    unfold nodeCredit
    rw [get?_set_self _ _ _ _ h, if_pos rfl]
  · unfold nodeCredit
    rw [get?_set_other _ _ _ _ (Ne.symm hj), if_neg hj]

theorem chainW_succ (k c : Nat) (h : c < k) : chainW k c = chainW k (c + 1) + 3 := by
  unfold chainW
  omega

theorem chainMeasure_update {α σ : Type} (s s' : System α σ) (o k c0 cn : Nat) (hc0 : c0 ≤ k)
    (hcn : cn < k) (hQ : ∀ x, x ≠ c0 → qOf s'.chans x = qOf s.chans x)
    (hN : ∀ x, x ≠ cn → nodeCredit s'.nodes (o + x) (chainW k x - 1) =
      nodeCredit s.nodes (o + x) (chainW k x - 1)) :
    chainMeasure s' o k + (qOf s.chans c0).length * chainW k c0 +
        nodeCredit s.nodes (o + cn) (chainW k cn - 1) =
      chainMeasure s o k + (qOf s'.chans c0).length * chainW k c0 +
        nodeCredit s'.nodes (o + cn) (chainW k cn - 1) := by
  have h1 := sumTo_update (g := fun c => (qOf s.chans c).length * chainW k c)
    (f := fun c => (qOf s'.chans c).length * chainW k c) (k + 1) c0 (by omega)
    (fun x hx => by simp only; rw [hQ x hx])
  have h2 := sumTo_update (g := fun c => nodeCredit s.nodes (o + c) (chainW k c - 1))
    (f := fun c => nodeCredit s'.nodes (o + c) (chainW k c - 1)) k cn hcn
    (fun x hx => hN x hx)
  simp only at h1 h2
  unfold chainMeasure
  omega

theorem chainMeasure_chan {α σ : Type} (s s' : System α σ) (o k c0 : Nat) (hc0 : c0 ≤ k)
    (hQ : ∀ x, x ≠ c0 → qOf s'.chans x = qOf s.chans x)
    (hN : ∀ x, x < k → s'.nodes.get? (o + x) = s.nodes.get? (o + x)) :
    chainMeasure s' o k + (qOf s.chans c0).length * chainW k c0 =
      chainMeasure s o k + (qOf s'.chans c0).length * chainW k c0 := by
  have h1 := sumTo_update (g := fun c => (qOf s.chans c).length * chainW k c)
    (f := fun c => (qOf s'.chans c).length * chainW k c) (k + 1) c0 (by omega)
    (fun x hx => by simp only; rw [hQ x hx])
  have h2 : sumTo (fun c => nodeCredit s'.nodes (o + c) (chainW k c - 1)) k =
      sumTo (fun c => nodeCredit s.nodes (o + c) (chainW k c - 1)) k :=
    sumTo_congr k (fun x hx => by simp only [nodeCredit]; rw [hN x hx])
  simp only at h1
  unfold chainMeasure
  omega

theorem liveChain_frame {α σ : Type} {s s' : System α σ} {o k : Nat} (h : LiveChain s o k)
    (hN : ∀ x, x < k → s'.nodes.get? (o + x) = s.nodes.get? (o + x))
    (hl : s'.chans.length = s.chans.length) (hc : s'.cap = s.cap) : LiveChain s' o k := by
  refine ⟨?_, by rw [hl]; exact h.len, by rw [hc]; exact h.room⟩
  intro c hck
  rw [hN c hck]
  exact h.filt c hck

theorem liveChain_step {α σ : Type} {s s' : System α σ} {o k : Nat} (h : LiveChain s o k)
    (c : Nat) (hc : c < k) (hs : stepWorker (o + c) s = some s') :
    LiveChain s' o k ∧ chainMeasure s' o k + 1 = chainMeasure s o k ∧ s'.cap = s.cap ∧
      (∃ nd', s'.nodes = s.nodes.set (o + c) nd') ∧
      s'.chans.map Chan.ty = s.chans.map Chan.ty := by
  obtain ⟨f, w, hnd, hw⟩ := h.filt c hc
  have hW := chainW_succ k c hc
  have hlive : ∀ (chans' : List (Chan α)) (w' : PC α), w' ≠ PC.exited →
      chans'.length = s.chans.length →
      LiveChain (⟨s.cap, chans', s.nodes.set (o + c)
        ⟨Role.filter f c (c + 1), false, some w'⟩⟩ : System α σ) o k := by
    intro chans' w' hw' hl
    refine ⟨?_, by rw [← h.len]; exact hl, h.room⟩
    intro x hx
    by_cases hxc : x = c
    · subst hxc
      exact ⟨f, w', get?_set_self _ _ _ _ hnd, hw'⟩
    · obtain ⟨g, u, hg, hu⟩ := h.filt x hx
      refine ⟨g, u, ?_, hu⟩
      show (s.nodes.set (o + c) _).get? (o + x) = _
      rw [get?_set_other _ _ _ _ (by omega)]
      exact hg
  have hNo : ∀ (chans' : List (Chan α)) (nd' : Stage α σ) (x : Nat), x ≠ c →
      nodeCredit (⟨s.cap, chans', s.nodes.set (o + c) nd'⟩ : System α σ).nodes (o + x)
          (chainW k x - 1) = nodeCredit s.nodes (o + x) (chainW k x - 1) := by
    intro chans' nd' x hx
    show nodeCredit (s.nodes.set (o + c) nd') (o + x) _ = _
    rw [nodeCredit_set _ _ _ _ _ _ hnd, if_neg (by omega)]
  have hNc : ∀ (chans' : List (Chan α)) (nd' : Stage α σ),
      nodeCredit (⟨s.cap, chans', s.nodes.set (o + c) nd'⟩ : System α σ).nodes (o + c)
          (chainW k c - 1) = nd'.credit (chainW k c - 1) := by
    intro chans' nd'
    show nodeCredit (s.nodes.set (o + c) nd') (o + c) _ = _
    rw [nodeCredit_set _ _ _ _ _ _ hnd, if_pos rfl]
  have hN0 : nodeCredit s.nodes (o + c) (chainW k c - 1) =
      (⟨Role.filter f c (c + 1), false, some w⟩ : Stage α σ).credit (chainW k c - 1) := by
    unfold nodeCredit
    rw [hnd]
  rcases stepFilter_exact hnd hs with ⟨hw1, he⟩ | ⟨v, chans', hw1, hp, he⟩ |
    ⟨r, chans', hw1, hp, he⟩
  · subst hw1 he
    refine ⟨hlive _ _ (by simp) rfl, ?_, rfl, ⟨_, rfl⟩, rfl⟩
    have hm := chainMeasure_update s
      ⟨s.cap, s.chans, s.nodes.set (o + c) ⟨Role.filter f c (c + 1), false, some PC.get⟩⟩
      o k 0 c (by omega) hc (fun _ _ => rfl) (hNo _ _)
    rw [hNc, hN0] at hm
    simp only [Stage.credit] at hm
    omega
  · subst hw1 he
    obtain ⟨hl, hty⟩ := popChan_frame hp
    obtain ⟨rest, hq, hQ⟩ := popChan_spec hp
    refine ⟨hlive _ _ (by simp) hl, ?_, rfl, ⟨_, rfl⟩, hty⟩
    have hm := chainMeasure_update s
      ⟨s.cap, chans', s.nodes.set (o + c) ⟨Role.filter f c (c + 1), false,
        some (PC.put (f v))⟩⟩
      o k c c (by omega) hc (fun x hx => by show qOf chans' x = _; rw [hQ x, if_neg hx])
      (hNo _ _)
    rw [hNc, hN0] at hm
    have hq' : qOf chans' c = rest := by rw [hQ c, if_pos rfl]
    simp only [Stage.credit, hq, hq', List.length_cons, Nat.succ_mul] at hm
    have hpos : 1 ≤ chainW k c := by unfold chainW; omega
    omega
  · subst hw1 he
    obtain ⟨hl, hty⟩ := pushChan_frame hp
    have hQ := pushChan_spec hp
    refine ⟨hlive _ _ (by simp) hl, ?_, rfl, ⟨_, rfl⟩, hty⟩
    have hm := chainMeasure_update s
      ⟨s.cap, chans', s.nodes.set (o + c) ⟨Role.filter f c (c + 1), false, some PC.top⟩⟩
      o k (c + 1) c (by omega) hc
      (fun x hx => by show qOf chans' x = _; rw [hQ x, if_neg hx]) (hNo _ _)
    rw [hNc, hN0] at hm
    have hq' : qOf chans' (c + 1) = qOf s.chans (c + 1) ++ [r] := by rw [hQ (c + 1), if_pos rfl]
    simp only [Stage.credit, hq', List.length_append, List.length_singleton, Nat.succ_mul]
      at hm
    omega

/-! ### Every schedule of a put / get pipeline can be completed -/

theorem chain_progress {α σ : Type} {s : System α σ} {o k : Nat} (h : LiveChain s o k) :
    ∀ n, n ≤ k →
      (∃ c, c < n ∧ ∃ s', stepWorker (o + c) s = some s') ∨ qOf s.chans n ≠ [] ∨
        ((∀ c, c ≤ n → qOf s.chans c = []) ∧ ∀ c, c < n → inflOf s.nodes (o + c) = []) := by
  intro n
  induction n with
  | zero =>
    intro _
    by_cases hq : qOf s.chans 0 = []
    · right; right
      refine ⟨fun c hc => ?_, fun c hc => absurd hc (Nat.not_lt_zero c)⟩
      have : c = 0 := by omega
      subst this; exact hq
    · right; left; exact hq
  | succ n ih =>
    intro hn
    obtain ⟨f, w, hnd, hw⟩ := h.filt n (by omega)
    by_cases hq : qOf s.chans (n + 1) = []
    swap
    · right; left; exact hq
    rcases w with _ | _ | r | _
    · left; exact ⟨n, by omega, enabled_top hnd⟩
    · rcases ih (by omega) with ⟨c, hc, he⟩ | hq0 | ⟨hQ, hI⟩
      · left; exact ⟨c, by omega, he⟩
      · left; exact ⟨n, by omega, enabled_pop_filter hnd hq0⟩
      · right; right
        refine ⟨fun c hc => ?_, fun c hc => ?_⟩
        · by_cases hcn : c = n + 1
          · subst hcn; exact hq
          · exact hQ c (by omega)
        · by_cases hcn : c = n
          · subst hcn; unfold inflOf; rw [hnd]; rfl
          · exact hI c (by omega)
    · left
      refine ⟨n, by omega, enabled_push_filter hnd (by rw [h.len]; omega) ?_⟩
      rw [hq]; exact h.room
    · exact absurd rfl hw

theorem runLive_of_idle {α σ : Type} {r : Run α σ} {cap : Option Nat} {srcTy sinkTy : Ty}
    {fs : List (Ty × (α → α))} (hI : Idle r cap srcTy sinkTy fs) (hroom : hasRoom cap 0 = true) :
    RunLive r srcTy sinkTy fs := by
  refine ⟨⟨?_, ?_, ?_⟩, hI.tys, hI.src, hI.snk, ?_, ?_, ?_⟩
  · intro c hc
    have hg : fs.get? c = some (fs.get ⟨c, hc⟩) := by
      rw [List.get?_eq_getElem?]; exact List.getElem?_eq_getElem hc
    refine ⟨(fs.get ⟨c, hc⟩).2, PC.top, ?_, by simp⟩
    show r.p.nodes.get? (0 + c) = _
    rw [hI.nodes, Nat.zero_add, filterNodes_get true fs 0 c _ hg]
    simp
  · have := congrArg List.length hI.tys
    simpa using this
  · show hasRoom r.p.cap 0 = true
    rw [hI.cap]; exact hroom
  · rw [hI.pipes]; rfl
  · rw [hI.pipes]; exact getLast?_range' fs.length
  · rw [hI.nodes]; exact filterNodes_length true fs 0

theorem runLive_worker {α σ : Type} {r : Run α σ} {srcTy sinkTy : Ty}
    {fs : List (Ty × (α → α))} (h : RunLive r srcTy sinkTy fs) (i : Nat) (s' : System α σ)
    (hs : stepWorker i r.p.toSystem = some s') :
    r.step (Act.worker i) = ⟨{ r.p with toSystem := s' }, r.toPut, r.got⟩ ∧
      RunLive (r.step (Act.worker i)) srcTy sinkTy fs ∧
      runMeasure (r.step (Act.worker i)) fs.length + 1 = runMeasure r fs.length := by
  have hik : i < fs.length := by
    rcases Nat.lt_or_ge i fs.length with h1 | h1
    · exact h1
    · have hnone : r.p.nodes.get? i = none := by
        rw [List.get?_eq_getElem?]
        apply List.getElem?_eq_none
        rw [h.len]; exact h1
      rw [stepWorker_none_of_get_none hnone] at hs
      simp at hs
  have hs0 : stepWorker (0 + i) r.p.toSystem = some s' := by rw [Nat.zero_add]; exact hs
  obtain ⟨hl, hm, hcap, ⟨nd', hset⟩, hty⟩ := liveChain_step h.live i hik hs0
  have hstep : r.step (Act.worker i) = ⟨{ r.p with toSystem := s' }, r.toPut, r.got⟩ := by
    rw [step_worker, hs]; rfl
  rw [hstep]
  refine ⟨rfl, ⟨hl, hty.trans h.tys, h.src, h.snk, h.head, h.last, ?_⟩, ?_⟩
  · show s'.nodes.length = fs.length
    rw [hset, List.length_set]; exact h.len
  · show chainMeasure s' 0 fs.length + r.toPut.length * (chainW fs.length 0 + 1) + 1 =
      chainMeasure r.p.toSystem 0 fs.length + r.toPut.length * (chainW fs.length 0 + 1)
    omega

theorem put_done_exact {α σ : Type} {p p' : SimplePipeline α σ} {v : α}
    (hh : p.pipes.head? = some 0) (hp : p.put v = Outcome.done p') :
    ∃ chans', pushChan p.cap p.chans 0 v = some chans' ∧ p' = { p with chans := chans' } := by
  unfold SimplePipeline.put at hp
  cases hcast : castPipe p.chans p.srcTy p.pipes.head? with
  | error e => simp [hcast] at hp
  | ok c =>
    have hc0 : c = 0 := by
      have := castPipe_ok hcast
      rw [hh] at this
      injection this with this
      exact this.symm
    subst hc0
    simp only [hcast] at hp
    cases hpush : pushChan p.cap p.chans 0 v with
    | none => simp [hpush] at hp
    | some chans' =>
      simp only [hpush, Outcome.done.injEq] at hp
      exact ⟨chans', rfl, hp.symm⟩

theorem get_done_exact {α σ : Type} {p p' : SimplePipeline α σ} {v : α} {k : Nat}
    (hl : p.pipes.getLast? = some k) (hg : p.get = Outcome.done (v, p')) :
    ∃ chans', popChan p.chans k = some (v, chans') ∧ p' = { p with chans := chans' } := by
  unfold SimplePipeline.get at hg
  cases hcast : castPipe p.chans p.sinkTy p.pipes.getLast? with
  | error e => simp [hcast] at hg
  | ok c =>
    have hck : c = k := by
      have := castPipe_ok hcast
      rw [hl] at this
      injection this with this
      exact this.symm
    subst hck
    simp only [hcast] at hg
    cases hpop : popChan p.chans c with
    | none => simp [hpop] at hg
    | some y =>
      rcases y with ⟨w, chans'⟩
      simp only [hpop, Outcome.done.injEq, Prod.mk.injEq] at hg
      obtain ⟨hw, hp'⟩ := hg
      subst hw
      exact ⟨chans', rfl, hp'.symm⟩

theorem runLive_chans {α σ : Type} {r : Run α σ} {srcTy sinkTy : Ty}
    {fs : List (Ty × (α → α))} (h : RunLive r srcTy sinkTy fs) (chans' : List (Chan α))
    (toPut got : List α) (hl : chans'.length = r.p.chans.length)
    (ht : chans'.map Chan.ty = r.p.chans.map Chan.ty) :
    RunLive (⟨{ r.p with chans := chans' }, toPut, got⟩ : Run α σ) srcTy sinkTy fs :=
  ⟨liveChain_frame h.live (fun _ _ => rfl) hl rfl, ht.trans h.tys, h.src, h.snk, h.head, h.last,
    h.len⟩

theorem runLive_step {α σ : Type} {r : Run α σ} {srcTy sinkTy : Ty}
    {fs : List (Ty × (α → α))} (a : Act) (h : RunLive r srcTy sinkTy fs) :
    RunLive (r.step a) srcTy sinkTy fs := by
  cases a with
  | worker i =>
    cases hs : stepWorker i r.p.toSystem with
    | none =>
      have : r.step (Act.worker i) = r := by simp only [Run.step, hs]
      rw [this]; exact h
    | some s' => exact (runLive_worker h i s' hs).2.1
  | put =>
    unfold Run.step
    simp only
    cases hp : r.toPut with
    | nil => exact h
    | cons v rest =>
      simp only
      cases hput : r.p.put v with
      | threw e => exact h
      | blocked => exact h
      | done p' =>
        simp only
        obtain ⟨chans', hpush, hp'⟩ := put_done_exact h.head hput
        subst hp'
        obtain ⟨hl, ht⟩ := pushChan_frame hpush
        exact runLive_chans h chans' rest r.got hl ht
  | get =>
    unfold Run.step
    simp only
    cases hget : r.p.get with
    | threw e => exact h
    | blocked => exact h
    | done x =>
      rcases x with ⟨v, p'⟩
      simp only
      obtain ⟨chans', hpop, hp'⟩ := get_done_exact h.last hget
      subst hp'
      obtain ⟨hl, ht⟩ := popChan_frame hpop
      exact runLive_chans h chans' r.toPut (r.got ++ [v]) hl ht

theorem runLive_drive {α σ : Type} {srcTy sinkTy : Ty} {fs : List (Ty × (α → α))}
    (sched : List Act) :
    ∀ r : Run α σ, RunLive r srcTy sinkTy fs → RunLive (drive sched r) srcTy sinkTy fs := by
  induction sched with
  | nil => intro r h; exact h
  | cons a rest ih => intro r h; exact ih _ (runLive_step a h)

theorem run_put_dec {α σ : Type} {r : Run α σ} {srcTy sinkTy : Ty}
    {fs : List (Ty × (α → α))} (h : RunLive r srcTy sinkTy fs) (v : α) (rest : List α)
    (hp : r.toPut = v :: rest) (hq : qOf r.p.chans 0 = []) :
    runMeasure (r.step Act.put) fs.length + 1 = runMeasure r fs.length := by
  have h0 : r.p.chans.get? 0 = some ⟨srcTy, []⟩ :=
    get?_of_ty_q _ 0 srcTy [] (ty_of_map _ _ 0 srcTy h.tys rfl) hq
  have hc : castPipe r.p.chans r.p.srcTy r.p.pipes.head? = Except.ok 0 := by
    unfold castPipe
    rw [h.head]
    simp only [h0, Option.map_some', h.src, if_true]
  have hpush : pushChan r.p.cap r.p.chans 0 v = some (r.p.chans.set 0 ⟨srcTy, [v]⟩) := by
    unfold pushChan
    simp only [h0, List.length_nil, h.live.room, if_true, List.nil_append]
  have hput : r.p.put v = Outcome.done { r.p with chans := r.p.chans.set 0 ⟨srcTy, [v]⟩ } := by
    unfold SimplePipeline.put
    simp only [hc, hpush]
  have hstep : r.step Act.put =
      ⟨{ r.p with chans := r.p.chans.set 0 ⟨srcTy, [v]⟩ }, rest, r.got⟩ := by
    simp only [Run.step, hp, hput]
  rw [hstep]
  have hQ := pushChan_spec hpush
  have hm := chainMeasure_chan r.p.toSystem
    ⟨r.p.cap, r.p.chans.set 0 ⟨srcTy, [v]⟩, r.p.nodes⟩ 0 fs.length 0 (by omega)
    (fun x hx => by
      show qOf (r.p.chans.set 0 ⟨srcTy, [v]⟩) x = _
      rw [hQ x, if_neg hx])
    (fun _ _ => rfl)
  have hq' : qOf (r.p.chans.set 0 ⟨srcTy, [v]⟩) 0 = [v] := by
    rw [hQ 0, if_pos rfl, hq]; rfl
  simp only [hq, hq', List.length_nil, List.length_singleton, Nat.zero_mul, Nat.one_mul] at hm
  show chainMeasure ⟨r.p.cap, r.p.chans.set 0 ⟨srcTy, [v]⟩, r.p.nodes⟩ 0 fs.length +
      rest.length * (chainW fs.length 0 + 1) + 1 =
    chainMeasure r.p.toSystem 0 fs.length + r.toPut.length * (chainW fs.length 0 + 1)
  rw [hp, List.length_cons, Nat.succ_mul]
  omega

theorem run_get_dec {α σ : Type} {r : Run α σ} {srcTy sinkTy : Ty}
    {fs : List (Ty × (α → α))} (h : RunLive r srcTy sinkTy fs) (hty : sinkTy = lastTy srcTy fs)
    (hq : qOf r.p.chans fs.length ≠ []) :
    runMeasure (r.step Act.get) fs.length + 1 = runMeasure r fs.length := by
  obtain ⟨v, chans', hpop⟩ := popChan_some_of_ne _ _ hq
  have ht : (r.p.chans.get? fs.length).map Chan.ty = some r.p.sinkTy := by
    rw [h.snk, hty]
    exact ty_of_map _ _ fs.length _ h.tys (lastTy_get fs srcTy)
  have hc : castPipe r.p.chans r.p.sinkTy r.p.pipes.getLast? = Except.ok fs.length := by
    unfold castPipe
    rw [h.last]
    simp only [ht, if_true]
  have hget : r.p.get = Outcome.done (v, { r.p with chans := chans' }) := by
    unfold SimplePipeline.get
    simp only [hc, hpop]
  have hstep : r.step Act.get = ⟨{ r.p with chans := chans' }, r.toPut, r.got ++ [v]⟩ := by
    simp only [Run.step, hget]
  rw [hstep]
  obtain ⟨rest, hq0, hQ⟩ := popChan_spec hpop
  have hm := chainMeasure_chan r.p.toSystem ⟨r.p.cap, chans', r.p.nodes⟩ 0 fs.length fs.length
    (Nat.le_refl _) (fun x hx => by show qOf chans' x = _; rw [hQ x, if_neg hx]) (fun _ _ => rfl)
  have hq' : qOf chans' fs.length = rest := by rw [hQ fs.length, if_pos rfl]
  have hw : chainW fs.length fs.length = 1 := by unfold chainW; omega
  simp only [hq0, hq', List.length_cons, hw, Nat.mul_one] at hm
  show chainMeasure ⟨r.p.cap, chans', r.p.nodes⟩ 0 fs.length +
      r.toPut.length * (chainW fs.length 0 + 1) + 1 =
    chainMeasure r.p.toSystem 0 fs.length + r.toPut.length * (chainW fs.length 0 + 1)
  omega

theorem run_progress {α σ : Type} {r : Run α σ} {srcTy sinkTy : Ty}
    {fs : List (Ty × (α → α))} {total : List α} (h : RunLive r srcTy sinkTy fs)
    (hinv : RunInv r fs.length total) (hty : sinkTy = lastTy srcTy fs) :
    r.got = total ∨ ∃ a, runMeasure (r.step a) fs.length + 1 = runMeasure r fs.length := by
  rcases chain_progress h.live fs.length (Nat.le_refl _) with ⟨c, _, s', hs⟩ | hq | ⟨hQ, hI⟩
  · right
    rw [Nat.zero_add] at hs
    exact ⟨Act.worker c, (runLive_worker h c s' hs).2.2⟩
  · right
    exact ⟨Act.get, run_get_dec h hty hq⟩
  · cases hp : r.toPut with
    | nil =>
      left
      have heq := hinv.eq
      unfold flow at heq
      rw [flowA_empty (Q := fun c => qOf r.p.chans (id c))
        (I := fun c => inflOf r.p.nodes (0 + c)) _ _ fs.length (fun c hc => hQ c hc)
        (fun c hc => hI c hc), hp] at heq
      simpa using heq
    | cons v rest =>
      right
      exact ⟨Act.put, run_put_dec h v rest hp (hQ 0 (Nat.zero_le _))⟩

theorem run_complete {α σ : Type} {srcTy sinkTy : Ty} {fs : List (Ty × (α → α))}
    {total : List α} (hty : sinkTy = lastTy srcTy fs) :
    ∀ (m : Nat) (r : Run α σ), runMeasure r fs.length = m → RunLive r srcTy sinkTy fs →
      RunInv r fs.length total → ∃ ext, (drive ext r).got = total := by
  intro m
  induction m with
  | zero =>
    intro r hm h hinv
    rcases run_progress h hinv hty with hg | ⟨a, ha⟩
    · exact ⟨[], hg⟩
    · omega
  | succ m ih =>
    intro r hm h hinv
    rcases run_progress h hinv hty with hg | ⟨a, ha⟩
    · exact ⟨[], hg⟩
    · obtain ⟨ext, he⟩ := ih (r.step a) (by omega) (runLive_step a h) (runInv_step a hinv)
      exact ⟨a :: ext, he⟩

theorem run_completes {α σ : Type} (cap : Option Nat) (srcTy sinkTy : Ty)
    (fs : List (Ty × (α → α))) (vs : List α) (hroom : hasRoom cap 0 = true)
    (hty : sinkTy = lastTy srcTy fs) (sched : List Act) :
    ∃ ext, (drive (sched ++ ext) (putGetRun (σ := σ) cap srcTy sinkTy fs vs)).got =
      vs.map (applyAll fs) := by
  obtain ⟨ext, he⟩ := run_complete hty _ (drive sched (putGetRun (σ := σ) cap srcTy sinkTy fs vs))
    rfl (runLive_drive sched _ (runLive_of_idle (idle_init cap srcTy sinkTy fs vs) hroom))
    (runInv_drive sched _ _ _ (runInv_init (σ := σ) cap srcTy sinkTy fs vs))
  exact ⟨ext, by rw [drive_append]; exact he⟩

/-! ### Every schedule of a source and its chain can be completed -/

theorem chainMeasure_nodes {α σ : Type} (s : System α σ) (nodes' : List (Stage α σ))
    (o k : Nat) (hN : ∀ x, x < k → nodes'.get? (o + x) = s.nodes.get? (o + x)) :
    chainMeasure (⟨s.cap, s.chans, nodes'⟩ : System α σ) o k = chainMeasure s o k := by
  unfold chainMeasure
  rw [sumTo_congr (g := fun c => nodeCredit s.nodes (o + c) (chainW k c - 1)) k
    (fun x hx => by simp only [nodeCredit]; rw [hN x hx])]

theorem feeding_source {α σ : Type} {s s' : System α σ} {pf : σ → Option α × σ} {o k m : Nat}
    (h : Feeding s pf o k m) (hs : stepWorker 0 s = some s') :
    (∃ m', m' + 1 = m ∧ Feeding s' pf o k m') ∧ ∃ nd', s'.nodes = s.nodes.set 0 nd' := by
  obtain ⟨st, w0, rem, hnd, hem, hng, hl, ho, hm⟩ := h
  have hout : ∀ x, 0 ≠ o + x := fun x => by omega
  have hlive : ∀ (chans' : List (Chan α)) (nd' : Stage α σ), chans'.length = s.chans.length →
      LiveChain (⟨s.cap, chans', s.nodes.set 0 nd'⟩ : System α σ) o k := by
    intro chans' nd' hlen
    exact liveChain_frame hl (fun x _ => get?_set_other _ _ _ _ (hout x)) hlen rfl
  have hcm : ∀ (nd' : Stage α σ),
      chainMeasure (⟨s.cap, s.chans, s.nodes.set 0 nd'⟩ : System α σ) o k =
        chainMeasure s o k := by
    intro nd'
    exact chainMeasure_nodes s _ o k (fun x _ => get?_set_other _ _ _ _ (hout x))
  rcases stepSource_spec hnd hs with ⟨hw, hn, he⟩ | ⟨v, hw, hv, he⟩ | ⟨x, chans', hw, hp, he⟩
  · injection hw with hw
    subst hw he
    have hrem := emits_none (hem (by simp)) hn
    subst hrem
    refine ⟨⟨chainMeasure s o k, ?_, (pf st).2, PC.exited, [], get?_set_self _ _ _ _ hnd,
      fun hne => absurd rfl hne, by simp, hlive _ _ rfl, ho, ?_⟩, _, rfl⟩
    · rw [hm]; simp [sourceWork]
    · show chainMeasure s o k = chainMeasure ⟨s.cap, s.chans, s.nodes.set 0 _⟩ o k + _
      rw [hcm]; simp [sourceWork]
  · injection hw with hw
    subst hw he
    obtain ⟨rem', hrem, hem2⟩ := emits_some (hem (by simp)) hv
    subst hrem
    refine ⟨⟨chainMeasure s o k + sourceWork (PC.put v) rem'.length (chainW k 0), ?_,
      (pf st).2, PC.put v, rem', get?_set_self _ _ _ _ hnd, fun _ => hem2, by simp,
      hlive _ _ rfl, ho, ?_⟩, _, rfl⟩
    · rw [hm]; simp only [sourceWork, List.length_cons]; omega
    · show _ = chainMeasure ⟨s.cap, s.chans, s.nodes.set 0 _⟩ o k + _
      rw [hcm]
  · injection hw with hw
    subst hw he
    obtain ⟨hlen, _⟩ := pushChan_frame hp
    have hQ := pushChan_spec hp
    have hc := chainMeasure_chan s
      ⟨s.cap, chans', s.nodes.set 0 ⟨Role.source pf st 0, false, some PC.top⟩⟩ o k 0 (by omega)
      (fun y hy => by show qOf chans' y = _; rw [hQ y, if_neg hy])
      (fun y _ => get?_set_other _ _ _ _ (hout y))
    have hq' : qOf chans' 0 = qOf s.chans 0 ++ [x] := by rw [hQ 0, if_pos rfl]
    simp only [hq', List.length_append, List.length_singleton, Nat.succ_mul] at hc
    refine ⟨⟨chainMeasure ⟨s.cap, chans', s.nodes.set 0 ⟨Role.source pf st 0, false,
        some PC.top⟩⟩ o k + sourceWork PC.top rem.length (chainW k 0), ?_,
      st, PC.top, rem, get?_set_self _ _ _ _ hnd, fun _ => hem (by simp), by simp,
      hlive _ _ hlen, ho, rfl⟩, _, rfl⟩
    rw [hm]
    simp only [sourceWork, Nat.mul_succ]
    omega

theorem feeding_filter {α σ : Type} {s s' : System α σ} {pf : σ → Option α × σ} {o k m : Nat}
    (h : Feeding s pf o k m) (c : Nat) (hc : c < k) (hs : stepWorker (o + c) s = some s') :
    (∃ m', m' + 1 = m ∧ Feeding s' pf o k m') ∧ ∃ nd', s'.nodes = s.nodes.set (o + c) nd' := by
  obtain ⟨st, w0, rem, hnd, hem, hng, hl, ho, hm⟩ := h
  obtain ⟨hl', hm', _, ⟨nd', hset⟩, _⟩ := liveChain_step hl c hc hs
  refine ⟨⟨chainMeasure s' o k + sourceWork w0 rem.length (chainW k 0), by omega, st, w0, rem,
    ?_, hem, hng, hl', ho, rfl⟩, nd', hset⟩
  rw [hset, get?_set_other _ _ _ _ (by omega)]
  exact hnd

theorem feeding_pop {α σ : Type} {s : System α σ} {pf : σ → Option α × σ} {o k m : Nat}
    (h : Feeding s pf o k m) (v : α) (chans' : List (Chan α)) (nodes' : List (Stage α σ))
    (hp : popChan s.chans k = some (v, chans'))
    (h0 : nodes'.get? 0 = s.nodes.get? 0)
    (hN : ∀ x, x < k → nodes'.get? (o + x) = s.nodes.get? (o + x)) :
    ∃ m', m' + 1 = m ∧ Feeding (⟨s.cap, chans', nodes'⟩ : System α σ) pf o k m' := by
  obtain ⟨st, w0, rem, hnd, hem, hng, hl, ho, hm⟩ := h
  obtain ⟨hlen, _⟩ := popChan_frame hp
  obtain ⟨rest, hq, hQ⟩ := popChan_spec hp
  have hc := chainMeasure_chan s ⟨s.cap, chans', nodes'⟩ o k k (Nat.le_refl _)
    (fun y hy => by show qOf chans' y = _; rw [hQ y, if_neg hy]) hN
  have hq' : qOf chans' k = rest := by rw [hQ k, if_pos rfl]
  have hw : chainW k k = 1 := by unfold chainW; omega
  simp only [hq, hq', List.length_cons, hw, Nat.mul_one] at hc
  refine ⟨chainMeasure ⟨s.cap, chans', nodes'⟩ o k + sourceWork w0 rem.length (chainW k 0),
    by omega, st, w0, rem, h0.trans hnd, hem, hng, liveChain_frame hl hN hlen rfl, ho, rfl⟩

theorem feeding_nodes {α σ : Type} {s : System α σ} {pf : σ → Option α × σ} {o k m : Nat}
    (h : Feeding s pf o k m) (nodes' : List (Stage α σ))
    (h0 : nodes'.get? 0 = s.nodes.get? 0)
    (hN : ∀ x, x < k → nodes'.get? (o + x) = s.nodes.get? (o + x)) :
    Feeding (⟨s.cap, s.chans, nodes'⟩ : System α σ) pf o k m := by
  obtain ⟨st, w0, rem, hnd, hem, hng, hl, ho, hm⟩ := h
  have hc := chainMeasure_nodes s nodes' o k hN
  exact ⟨st, w0, rem, h0.trans hnd, hem, hng, liveChain_frame hl hN rfl rfl, ho, by omega⟩

theorem feeding_progress {α σ : Type} {s : System α σ} {pf : σ → Option α × σ} {o k m : Nat}
    (h : Feeding s pf o k m) :
    (∃ s', stepWorker 0 s = some s') ∨ (∃ c, c < k ∧ ∃ s', stepWorker (o + c) s = some s') ∨
      qOf s.chans k ≠ [] ∨
      ((∃ st, s.nodes.get? 0 = some ⟨Role.source pf st 0, false, some PC.exited⟩) ∧
        (∀ c, c ≤ k → qOf s.chans c = []) ∧ ∀ c, c < k → inflOf s.nodes (o + c) = []) := by
  obtain ⟨st, w0, rem, hnd, hem, hng, hl, ho, hm⟩ := h
  rcases chain_progress hl k (Nat.le_refl _) with he | hq | ⟨hQ, hI⟩
  · right; left; exact he
  · right; right; left; exact hq
  · rcases w0 with _ | _ | r | _
    · left; exact enabled_top hnd
    · exact absurd rfl hng
    · left
      refine enabled_push_source hnd (by rw [hl.len]; omega) ?_
      rw [hQ 0 (Nat.zero_le _)]; exact hl.room
    · right; right; right
      exact ⟨⟨st, hnd⟩, hQ, hI⟩

theorem stepSink_exact {α σ : Type} {i : Nat} {s s' : System α σ} {log : List α} {inp : Nat}
    {w : PC α} (hnd : s.nodes.get? i = some ⟨Role.sink log inp, false, some w⟩)
    (hs : stepWorker i s = some s') :
    (w = PC.top ∧
      s' = ⟨s.cap, s.chans, s.nodes.set i ⟨Role.sink log inp, false, some PC.get⟩⟩) ∨
    (∃ v chans', w = PC.get ∧ popChan s.chans inp = some (v, chans') ∧
      s' = ⟨s.cap, chans', s.nodes.set i ⟨Role.sink (log ++ [v]) inp, false, some PC.top⟩⟩) := by
  unfold stepWorker at hs
  rw [hnd] at hs
  rcases w with _ | _ | r | _
  · simp only [Bool.false_eq_true, if_false, Option.some.injEq] at hs
    exact Or.inl ⟨rfl, hs.symm⟩
  · simp only at hs
    cases hp : popChan s.chans inp with
    | none => simp [hp] at hs
    | some x =>
      rcases x with ⟨v, chans'⟩
      simp only [hp, Option.some.injEq] at hs
      exact Or.inr ⟨v, chans', rfl, rfl, hs.symm⟩
  · simp at hs
  · simp at hs

theorem sfsWork_step {α σ : Type} {s s' : System α σ} {pf : σ → Option α × σ} {m : Nat}
    (h : SfsWork s pf m) (i : Nat) (hs : stepWorker i s = some s') :
    ∃ m', m' < m ∧ SfsWork s' pf m' := by
  obtain ⟨mf, log, w2, hf, hlen, h2, hw2, hm⟩ := h
  match i, hs with
  | 0, hs =>
    obtain ⟨⟨mf', hmf, hf'⟩, nd', hset⟩ := feeding_source hf hs
    have hc : nodeCredit s'.nodes 2 0 = nodeCredit s.nodes 2 0 := by
      unfold nodeCredit
      rw [hset, get?_set_other _ _ _ _ (by omega)]
    refine ⟨2 * mf' + nodeCredit s'.nodes 2 0, by omega, mf', log, w2, hf', ?_, ?_, hw2, rfl⟩
    · rw [hset, List.length_set]; exact hlen
    · rw [hset, get?_set_other _ _ _ _ (by omega)]; exact h2
  | 1, hs =>
    obtain ⟨⟨mf', hmf, hf'⟩, nd', hset⟩ := feeding_filter hf 0 (by omega) hs
    have hc : nodeCredit s'.nodes 2 0 = nodeCredit s.nodes 2 0 := by
      unfold nodeCredit
      rw [hset, get?_set_other _ _ _ _ (by omega)]
    refine ⟨2 * mf' + nodeCredit s'.nodes 2 0, by omega, mf', log, w2, hf', ?_, ?_, hw2, rfl⟩
    · rw [hset, List.length_set]; exact hlen
    · rw [hset, get?_set_other _ _ _ _ (by omega)]; exact h2
  | 2, hs =>
    have hc0 : nodeCredit s.nodes 2 0 =
        (⟨Role.sink log 1, false, some w2⟩ : Stage α σ).credit 0 := by
      unfold nodeCredit
      rw [h2]
    have h0 : ∀ nd' : Stage α σ, (s.nodes.set 2 nd').get? 0 = s.nodes.get? 0 :=
      fun nd' => get?_set_other _ _ _ _ (by omega)
    have hN : ∀ (nd' : Stage α σ) (x : Nat), x < 1 →
        (s.nodes.set 2 nd').get? (1 + x) = s.nodes.get? (1 + x) :=
      fun nd' x hx => get?_set_other _ _ _ _ (by omega)
    rcases stepSink_exact h2 hs with ⟨hw, he⟩ | ⟨v, chans', hw, hp, he⟩
    · subst hw he
      have hf' := feeding_nodes hf (s.nodes.set 2 ⟨Role.sink log 1, false, some PC.get⟩)
        (h0 _) (hN _)
      refine ⟨2 * mf + 0, ?_, mf, log, PC.get, hf', ?_, get?_set_self _ _ _ _ h2, Or.inr rfl, ?_⟩
      · rw [hm, hc0]; simp [Stage.credit]
      · show (s.nodes.set 2 _).length = 3
        rw [List.length_set]; exact hlen
      · show _ = 2 * mf + nodeCredit (s.nodes.set 2 _) 2 0
        rw [nodeCredit_set _ _ _ _ _ _ h2, if_pos rfl]
        rfl
    · subst hw he
      obtain ⟨mf', hmf, hf'⟩ := feeding_pop hf v chans'
        (s.nodes.set 2 ⟨Role.sink (log ++ [v]) 1, false, some PC.top⟩) hp (h0 _) (hN _)
      refine ⟨2 * mf' + 1, ?_, mf', log ++ [v], PC.top, hf', ?_, get?_set_self _ _ _ _ h2,
        Or.inl rfl, ?_⟩
      · rw [hm, hc0]; simp only [Stage.credit]; omega
      · show (s.nodes.set 2 _).length = 3
        rw [List.length_set]; exact hlen
      · show _ = 2 * mf' + nodeCredit (s.nodes.set 2 _) 2 0
        rw [nodeCredit_set _ _ _ _ _ _ h2, if_pos rfl]
        rfl
  | n + 3, hs =>
    have hnone : s.nodes.get? (n + 3) = none := by
      rw [List.get?_eq_getElem?]
      apply List.getElem?_eq_none
      rw [hlen]
      omega
    rw [stepWorker_none_of_get_none hnone] at hs
    simp at hs

theorem sfsWork_exec {α σ : Type} {pf : σ → Option α × σ} (sched : List Nat) :
    ∀ (s : System α σ) (m : Nat), SfsWork s pf m → ∃ m', SfsWork (exec sched s) pf m' := by
  induction sched with
  | nil => intro s m h; exact ⟨m, h⟩
  | cons i rest ih =>
    intro s m h
    simp only [exec]
    cases hs : stepWorker i s with
    | none => exact ih s m h
    | some s' =>
      obtain ⟨m', _, h'⟩ := sfsWork_step h i hs
      exact ih s' m' h'

theorem sfs_progress {α σ : Type} {s : System α σ} {pf : σ → Option α × σ} {f : α → α}
    {total : List α} {m : Nat} (h : SfsWork s pf m) (hinv : SfsInv s pf f total) :
    consumedOf s 2 = total ∨ ∃ i s', stepWorker i s = some s' := by
  obtain ⟨mf, log, w2, hf, hlen, h2, hw2, hm⟩ := h
  rcases feeding_progress hf with ⟨s', hs⟩ | ⟨c, _, s', hs⟩ | hq | ⟨⟨st, hst⟩, hQ, hI⟩
  · right; exact ⟨0, s', hs⟩
  · right; exact ⟨1 + c, s', hs⟩
  · right
    rcases hw2 with hw | hw
    · subst hw
      obtain ⟨s', hs⟩ := enabled_top h2
      exact ⟨2, s', hs⟩
    · subst hw
      obtain ⟨s', hs⟩ := enabled_pop_sink h2 hq
      exact ⟨2, s', hs⟩
  · left
    obtain ⟨st', w0, nd1, log', w2', rem, hN, _, hex, _, _, heq⟩ := hinv
    have hlog : consumedOf s 2 = log' := by
      unfold consumedOf
      rw [hN]
      rfl
    rw [hN] at hst
    simp only [List.get?_cons_zero, Option.some.injEq, Stage.mk.injEq, Role.source.injEq,
      true_and] at hst
    obtain ⟨_, hw0⟩ := hst
    have hrem := hex hw0
    have hi := hI 0 (by omega)
    rw [hN] at hi
    have hi' : nd1.inflight = [] := hi
    have hq0 := hQ 0 (by omega)
    have hq1 := hQ 1 (by omega)
    rw [hlog, ← heq, hq0, hq1, hi', hrem, hw0]
    simp [Stage.inflight]

theorem sfs_complete {α σ : Type} {pf : σ → Option α × σ} {f : α → α} {total : List α} :
    ∀ (m : Nat) (s : System α σ), SfsWork s pf m → SfsInv s pf f total →
      ∃ ext, consumedOf (exec ext s) 2 = total := by
  intro m
  induction m using Nat.strong_induction_on with
  | _ m ih =>
    intro s h hinv
    rcases sfs_progress h hinv with hg | ⟨i, s', hs⟩
    · exact ⟨[], hg⟩
    · obtain ⟨m', hlt, h'⟩ := sfsWork_step h i hs
      have hinv' : SfsInv s' pf f total := by
        have := sfsInv_exec pf f total [i] s hinv
        simpa [exec, hs] using this
      obtain ⟨ext, he⟩ := ih m' hlt s' h' hinv'
      refine ⟨i :: ext, ?_⟩
      simp only [exec, hs, Option.getD_some]
      exact he

theorem sfsWork_init {α σ : Type} (cap : Option Nat) (t0 t1 : Ty) (pf : σ → Option α × σ)
    (st : σ) (f : α → α) (vs : List α) (h : Emits pf st vs) (hroom : hasRoom cap 0 = true) :
    ∃ m, SfsWork (sfsIdle cap t0 t1 [] [] pf st f []) pf m := by
  refine ⟨_, _, [], PC.top, ⟨st, PC.top, vs, rfl, fun _ => h, by simp, ⟨?_, rfl, hroom⟩,
    by omega, rfl⟩, rfl, rfl, Or.inl rfl, rfl⟩
  intro c hc
  have hc0 : c = 0 := by omega
  subst hc0
  exact ⟨f, PC.top, rfl, by simp⟩

theorem sfs_completes {α σ : Type} (cap : Option Nat) (srcTy sinkTy : Ty)
    (pf : σ → Option α × σ) (st : σ) (f : α → α) (vs : List α) (hemit : Emits pf st vs)
    (hroom : hasRoom cap 0 = true) (sched : List Nat) :
    ∃ ext, consumedOf (exec (sched ++ ext) (sfsPipeline cap srcTy sinkTy pf st f).toSystem) 2 =
      vs.map f := by
  rw [sfsPipeline_system]
  obtain ⟨m0, h0⟩ := sfsWork_init cap srcTy sinkTy pf st f vs hemit hroom
  obtain ⟨m, hm⟩ := sfsWork_exec sched _ m0 h0
  obtain ⟨ext, he⟩ := sfs_complete m _ hm
    (sfsInv_exec pf f (vs.map f) sched _ (sfsInv_init cap srcTy sinkTy pf st f vs hemit))
  exact ⟨ext, by rw [exec_append]; exact he⟩

/-! ### Every schedule of two chained filters can be completed -/

theorem credit_top {α σ : Type} (w : Nat) (role : Role α σ) (d : Bool) :
    (⟨role, d, some PC.top⟩ : Stage α σ).credit w = 1 := rfl

theorem credit_get {α σ : Type} (w : Nat) (role : Role α σ) (d : Bool) :
    (⟨role, d, some PC.get⟩ : Stage α σ).credit w = 0 := rfl

theorem credit_put {α σ : Type} (w : Nat) (role : Role α σ) (d : Bool) (r : α) :
    (⟨role, d, some (PC.put r)⟩ : Stage α σ).credit w = w := rfl

theorem chainWork_step {α σ : Type} {s s' : System α σ} {f1 f2 : α → α} {a n b limit m : Nat}
    (hab : a ≠ b) (han : a ≠ n) (hbn : b ≠ n) (i : Nat)
    (h : ChainWork s f1 f2 a n b limit m) (hs : stepWorker i s = some s') :
    ∃ m', m' + 1 = m ∧ ChainWork s' f1 f2 a n b limit m' := by
  obtain ⟨w0, w1, hN, hw0, hw1, hn, hb, hroom, hm⟩ := h
  match i, hs with
  | 0, hs =>
    have hnd : s.nodes.get? 0 = some ⟨Role.filter f1 a n, false, some w0⟩ := by rw [hN]; rfl
    rcases stepFilter_exact hnd hs with ⟨hw, he⟩ | ⟨v, chans', hw, hp, he⟩ |
      ⟨r, chans', hw, hp, he⟩
    · subst hw he
      refine ⟨_, ?_, PC.get, w1, by rw [hN]; rfl, by simp, hw1, hn, hb, hroom, rfl⟩
      rw [hm]
      simp only [credit_top, credit_get]
      omega
    · subst hw he
      obtain ⟨hl, _⟩ := popChan_frame hp
      obtain ⟨rest, hq, hQ⟩ := popChan_spec hp
      refine ⟨_, ?_, PC.put (f1 v), w1, by rw [hN]; rfl, by simp, hw1,
        by show n < chans'.length; rw [hl]; exact hn,
        by show b < chans'.length; rw [hl]; exact hb, hroom, rfl⟩
      rw [hm]
      show 6 * (qOf chans' a).length + 3 * (qOf chans' n).length + _ + _ + 1 = _
      rw [hQ a, hQ n, if_pos rfl, if_neg (Ne.symm han), hq]
      simp only [credit_top, credit_get, credit_put, List.length_cons]
      omega
    · subst hw he
      obtain ⟨hl, _⟩ := pushChan_frame hp
      have hQ := pushChan_spec hp
      refine ⟨_, ?_, PC.top, w1, by rw [hN]; rfl, by simp, hw1,
        by show n < chans'.length; rw [hl]; exact hn,
        by show b < chans'.length; rw [hl]; exact hb, hroom, rfl⟩
      rw [hm]
      show 6 * (qOf chans' a).length + 3 * (qOf chans' n).length + _ + _ + 1 = _
      rw [hQ a, hQ n, if_pos rfl, if_neg han]
      simp only [credit_top, credit_get, credit_put, List.length_append,
        List.length_singleton]
      omega
  | 1, hs =>
    have hnd : s.nodes.get? 1 = some ⟨Role.filter f2 n b, false, some w1⟩ := by rw [hN]; rfl
    rcases stepFilter_exact hnd hs with ⟨hw, he⟩ | ⟨v, chans', hw, hp, he⟩ |
      ⟨r, chans', hw, hp, he⟩
    · subst hw he
      refine ⟨_, ?_, w0, PC.get, by rw [hN]; rfl, hw0, by simp, hn, hb, hroom, rfl⟩
      rw [hm]
      simp only [credit_top, credit_get, credit_put]
    · subst hw he
      obtain ⟨hl, _⟩ := popChan_frame hp
      obtain ⟨rest, hq, hQ⟩ := popChan_spec hp
      refine ⟨_, ?_, w0, PC.put (f2 v), by rw [hN]; rfl, hw0, by simp,
        by show n < chans'.length; rw [hl]; exact hn,
        by show b < chans'.length; rw [hl]; exact hb, hroom, rfl⟩
      rw [hm]
      show 6 * (qOf chans' a).length + 3 * (qOf chans' n).length + _ + _ + 1 = _
      rw [hQ a, hQ n, if_pos rfl, if_neg han, hq]
      simp only [credit_top, credit_get, credit_put, List.length_cons]
      omega
    · subst hw he
      obtain ⟨hl, _⟩ := pushChan_frame hp
      have hQ := pushChan_spec hp
      refine ⟨_, ?_, w0, PC.top, by rw [hN]; rfl, hw0, by simp,
        by show n < chans'.length; rw [hl]; exact hn,
        by show b < chans'.length; rw [hl]; exact hb, hroom, rfl⟩
      rw [hm]
      show 6 * (qOf chans' a).length + 3 * (qOf chans' n).length + _ + _ + 1 = _
      rw [hQ a, hQ n, if_neg hab, if_neg (Ne.symm hbn)]
      simp only [credit_top, credit_get, credit_put]
  | k + 2, hs =>
    have : s.nodes.get? (k + 2) = none := by rw [hN]; rfl
    rw [stepWorker_none_of_get_none this] at hs
    simp at hs

theorem chainWork_exec {α σ : Type} {f1 f2 : α → α} {a n b limit : Nat}
    (hab : a ≠ b) (han : a ≠ n) (hbn : b ≠ n) (sched : List Nat) :
    ∀ (s : System α σ) (m : Nat), ChainWork s f1 f2 a n b limit m →
      ∃ m', ChainWork (exec sched s) f1 f2 a n b limit m' := by
  induction sched with
  | nil => intro s m h; exact ⟨m, h⟩
  | cons i rest ih =>
    intro s m h
    simp only [exec]
    cases hs : stepWorker i s with
    | none => exact ih s m h
    | some s' =>
      obtain ⟨m', _, h'⟩ := chainWork_step hab han hbn i h hs
      exact ih s' m' h'

theorem chainWork_progress {α σ : Type} {s : System α σ} {f1 f2 : α → α} {a n b m : Nat}
    {total : List α} (h : ChainWork s f1 f2 a n b total.length m)
    (hinv : ChainInv s f1 f2 a n b total) :
    qOf s.chans b = total ∨ ∃ i s', stepWorker i s = some s' := by
  obtain ⟨w0, w1, hN, hw0, hw1, hn, hb, hroom, hm⟩ := h
  obtain ⟨nd0, nd1, hN', _, _, heq⟩ := hinv
  rw [hN] at hN'
  simp only [List.cons.injEq, and_true] at hN'
  obtain ⟨h0, h1⟩ := hN'
  subst h0 h1
  have hnd0 : s.nodes.get? 0 = some ⟨Role.filter f1 a n, false, some w0⟩ := by rw [hN]; rfl
  have hnd1 : s.nodes.get? 1 = some ⟨Role.filter f2 n b, false, some w1⟩ := by rw [hN]; rfl
  have hlen := congrArg List.length heq
  simp only [List.length_append, List.length_map] at hlen
  rcases w1 with _ | _ | r | _
  · right
    obtain ⟨s', hs⟩ := enabled_top hnd1
    exact ⟨1, s', hs⟩
  · by_cases hqn : qOf s.chans n = []
    swap
    · right
      obtain ⟨s', hs⟩ := enabled_pop_filter hnd1 hqn
      exact ⟨1, s', hs⟩
    rcases w0 with _ | _ | r | _
    · right
      obtain ⟨s', hs⟩ := enabled_top hnd0
      exact ⟨0, s', hs⟩
    · by_cases hqa : qOf s.chans a = []
      · left
        rw [← heq, hqn, hqa]
        simp [Stage.inflight]
      · right
        obtain ⟨s', hs⟩ := enabled_pop_filter hnd0 hqa
        exact ⟨0, s', hs⟩
    · right
      obtain ⟨s', hs⟩ := enabled_push_filter hnd0 hn (by
        rw [hqn]
        apply hroom
        simp only [Stage.inflight, List.length_cons] at hlen
        show 0 < total.length
        omega)
      exact ⟨0, s', hs⟩
    · exact absurd rfl hw0
  · right
    obtain ⟨s', hs⟩ := enabled_push_filter hnd1 hb (by
      apply hroom
      simp only [Stage.inflight, List.length_cons] at hlen
      omega)
    exact ⟨1, s', hs⟩
  · exact absurd rfl hw1

theorem chainWork_complete {α σ : Type} {f1 f2 : α → α} {a n b : Nat} {total : List α}
    (hab : a ≠ b) (han : a ≠ n) (hbn : b ≠ n) :
    ∀ (m : Nat) (s : System α σ), ChainWork s f1 f2 a n b total.length m →
      ChainInv s f1 f2 a n b total → ∃ ext, qOf (exec ext s).chans b = total := by
  intro m
  induction m with
  | zero =>
    intro s h hinv
    rcases chainWork_progress h hinv with hg | ⟨i, s', hs⟩
    · exact ⟨[], hg⟩
    · obtain ⟨m', hm', _⟩ := chainWork_step hab han hbn i h hs
      omega
  | succ m ih =>
    intro s h hinv
    rcases chainWork_progress h hinv with hg | ⟨i, s', hs⟩
    · exact ⟨[], hg⟩
    · obtain ⟨m', hm', h'⟩ := chainWork_step hab han hbn i h hs
      have hmm : m' = m := by omega
      subst hmm
      obtain ⟨ext, he⟩ := ih s' h' (chainInv_step hab han hbn i hinv hs)
      refine ⟨i :: ext, ?_⟩
      simp only [exec, hs, Option.getD_some]
      exact he

theorem chainWork_init {α σ : Type} (cap : Option Nat) (heap : List (Chan α)) (R : Ty)
    (a b limit : Nat) (f1 f2 : α → α) (hb : b < heap.length)
    (hroom : ∀ j, j < limit → hasRoom cap j = true) :
    ∃ m, ChainWork (manualChain (σ := σ) cap R a b f1 f2 heap) f1 f2 a heap.length b limit m := by
  refine ⟨_, PC.top, PC.top, rfl, by simp, by simp, ?_, ?_, hroom, rfl⟩
  · show heap.length < (heap ++ [(⟨R, []⟩ : Chan α)]).length
    simp
  · show b < (heap ++ [(⟨R, []⟩ : Chan α)]).length
    simp
    omega

/-! ### Delivery of every value: the four pipelines -/

/-- Claim C1: in the started pipeline `add_data_source; add_data_filter(f);
add_data_sink`, whose production callback hands out `v1..vN` and then returns
false, the consumer callback is given, under every schedule, a prefix of
`f(v1), ..., f(vN)` in that order; every schedule, whatever it has done so far,
can be continued so that the consumer callback has been given exactly
`f(v1), ..., f(vN)` (channels hold at least one value); the schedule that carries
one value after the other is one such; and the call that returns false adds
nothing: the source worker returns, both channels stay empty. -/
theorem source_filter_sink_fifo {α σ : Type} (cap : Option Nat) (srcTy sinkTy : Ty)
    (pf : σ → Option α × σ) (st : σ) (f : α → α) (vs : List α) (hemit : Emits pf st vs)
    (hroom : hasRoom cap 0 = true) :
    (∀ sched, consumedOf (exec sched (sfsPipeline cap srcTy sinkTy pf st f).toSystem) 2 <+:
        vs.map f) ∧
    (∀ sched, ∃ ext,
      consumedOf (exec (sched ++ ext) (sfsPipeline cap srcTy sinkTy pf st f).toSystem) 2 =
        vs.map f) ∧
    consumedOf (exec (sfsSched vs.length) (sfsPipeline cap srcTy sinkTy pf st f).toSystem) 2 =
        vs.map f ∧
    consumedOf (exec (sfsSched vs.length ++ [0])
        (sfsPipeline cap srcTy sinkTy pf st f).toSystem) 2 = vs.map f ∧
    (exec (sfsSched vs.length ++ [0]) (sfsPipeline cap srcTy sinkTy pf st f).toSystem).chans =
        [⟨srcTy, []⟩, ⟨sinkTy, []⟩] ∧
    ((exec (sfsSched vs.length ++ [0])
        (sfsPipeline cap srcTy sinkTy pf st f).toSystem).nodes.get? 0).map Stage.worker =
      some (some PC.exited) := by
  have hcomp := sfs_completes cap srcTy sinkTy pf st f vs hemit hroom
  rw [sfsPipeline_system] at hcomp ⊢
  obtain ⟨hfull, hnone⟩ := sfs_full cap srcTy sinkTy pf f hroom vs st [] hemit
  refine ⟨?_, hcomp, ?_, ?_, ?_, ?_⟩
  · intro sched
    obtain ⟨st', w0, nd1, log, w2, rem, hN, _, _, _, _, heq⟩ :=
      sfsInv_exec pf f (vs.map f) sched _ (sfsInv_init cap srcTy sinkTy pf st f vs hemit)
    have hlog : consumedOf (exec sched (sfsIdle cap srcTy sinkTy [] [] pf st f [])) 2 = log := by
      unfold consumedOf
      rw [hN]
      rfl
    rw [hlog]
    exact ⟨_, heq⟩
  · rw [hfull]
    simp [consumedOf, sfsIdle]
  · rw [exec_append, hfull, sfs_false_call _ _ _ _ _ _ _ hnone]
    simp [consumedOf]
  · rw [exec_append, hfull, sfs_false_call _ _ _ _ _ _ _ hnone]
  · rw [exec_append, hfull, sfs_false_call _ _ _ _ _ _ _ hnone]
    rfl

theorem source_filter_sink_fifo_witness :
    consumedOf (exec (sfsSched 5)
      (sfsPipeline none 0 0 scriptSource [1, 2, 3, 4, 5] (fun x => x * 2)).toSystem) 2 =
      [2, 4, 6, 8, 10] :=
  (source_filter_sink_fifo none 0 0 scriptSource [1, 2, 3, 4, 5] (fun x => x * 2)
    [1, 2, 3, 4, 5] ⟨rfl, rfl, rfl, rfl, rfl, rfl⟩ rfl).2.2.1

/-- Claim C2: a composite built by `add_first_filter(f1)` then
`add_last_filter(f2)` over the boundary channels `a` and `b` is, once started,
the very system of two standalone started filters joined by an explicit
intermediate channel, so both deliver the same values on `b` under every
schedule; with `xs` waiting on `a` these are always a prefix of `f2(f1(x))` in
input order; every schedule, whatever it has done so far, can be continued so
that `b` holds exactly `f2(f1(x))` for each input `x` in order (`b` can hold them
all); and the schedule that carries one value after the other is one such. -/
theorem composite_same_as_manual_chain {α σ : Type} (cap : Option Nat) (heap : List (Chan α))
    (R OT ta tb : Ty) (a b : Nat) (f1 f2 : α → α) (xs : List α) (hab : a ≠ b)
    (ha : heap.get? a = some ⟨ta, xs⟩) (hb : heap.get? b = some ⟨tb, []⟩)
    (hroom : ∀ m, m < xs.length → hasRoom cap m = true) :
    (compositeOfTwo (σ := σ) R OT a b f1 f2 heap).1 = (none, none) ∧
    (compositeOfTwo (σ := σ) R OT a b f1 f2 heap).2.2.start.system cap
        (compositeOfTwo (σ := σ) R OT a b f1 f2 heap).2.1 = manualChain cap R a b f1 f2 heap ∧
    (∀ sched,
      qOf (exec sched ((compositeOfTwo (σ := σ) R OT a b f1 f2 heap).2.2.start.system cap
        (compositeOfTwo (σ := σ) R OT a b f1 f2 heap).2.1)).chans b =
      qOf (exec sched (manualChain (σ := σ) cap R a b f1 f2 heap)).chans b) ∧
    (∀ sched,
      qOf (exec sched ((compositeOfTwo (σ := σ) R OT a b f1 f2 heap).2.2.start.system cap
        (compositeOfTwo (σ := σ) R OT a b f1 f2 heap).2.1)).chans b <+:
      xs.map (fun x => f2 (f1 x))) ∧
    (∀ sched, ∃ ext,
      qOf (exec (sched ++ ext)
        ((compositeOfTwo (σ := σ) R OT a b f1 f2 heap).2.2.start.system cap
          (compositeOfTwo (σ := σ) R OT a b f1 f2 heap).2.1)).chans b =
      xs.map (fun x => f2 (f1 x))) ∧
    qOf (exec (chainSched xs.length)
      ((compositeOfTwo (σ := σ) R OT a b f1 f2 heap).2.2.start.system cap
        (compositeOfTwo (σ := σ) R OT a b f1 f2 heap).2.1)).chans b =
      xs.map (fun x => f2 (f1 x)) := by
  have hsys : (compositeOfTwo (σ := σ) R OT a b f1 f2 heap).2.2.start.system cap
      (compositeOfTwo (σ := σ) R OT a b f1 f2 heap).2.1 = manualChain cap R a b f1 f2 heap := by
    rw [compositeOfTwo_eq]
    rfl
  have han : a ≠ heap.length := Nat.ne_of_lt (lt_of_get?_some ha)
  have hbn : b ≠ heap.length := Nat.ne_of_lt (lt_of_get?_some hb)
  have hN : (manualChain (σ := σ) cap R a b f1 f2 heap).nodes =
      [⟨Role.filter f1 a heap.length, false, some PC.top⟩,
       ⟨Role.filter f2 heap.length b, false, some PC.top⟩] := rfl
  have ha' : (manualChain (σ := σ) cap R a b f1 f2 heap).chans.get? a = some ⟨ta, xs⟩ :=
    get?_append_one _ _ _ _ ha
  have hb' : (manualChain (σ := σ) cap R a b f1 f2 heap).chans.get? b = some ⟨tb, []⟩ :=
    get?_append_one _ _ _ _ hb
  have hn' : (manualChain (σ := σ) cap R a b f1 f2 heap).chans.get? heap.length =
      some ⟨R, []⟩ := by
    show (heap ++ [(⟨R, []⟩ : Chan α)]).get? heap.length = _
    simp
  have hinit : ChainInv (manualChain (σ := σ) cap R a b f1 f2 heap) f1 f2 a heap.length b
      (xs.map (fun x => f2 (f1 x))) := by
    unfold ChainInv
    refine ⟨⟨Role.filter f1 a heap.length, false, some PC.top⟩,
      ⟨Role.filter f2 heap.length b, false, some PC.top⟩, hN, rfl, rfl, ?_⟩
    have e1 : qOf (manualChain (σ := σ) cap R a b f1 f2 heap).chans b = [] := by
      unfold qOf; rw [hb']
    have e2 : qOf (manualChain (σ := σ) cap R a b f1 f2 heap).chans heap.length = [] := by
      unfold qOf; rw [hn']
    have e3 : qOf (manualChain (σ := σ) cap R a b f1 f2 heap).chans a = xs := by
      unfold qOf; rw [ha']
    rw [e1, e2, e3]
    simp [Stage.inflight]
  refine ⟨by rw [compositeOfTwo_eq], hsys, fun sched => by rw [hsys], ?_, ?_, ?_⟩
  · intro sched
    rw [hsys]
    obtain ⟨nd0, nd1, _, _, _, heq⟩ := chainInv_exec hab han hbn sched _ hinit
    exact ⟨_, heq⟩
  · intro sched
    rw [hsys]
    obtain ⟨m0, h0⟩ := chainWork_init (σ := σ) cap heap R a b
      (xs.map (fun x => f2 (f1 x))).length f1 f2 (lt_of_get?_some hb)
      (fun j hj => hroom j (by simpa using hj))
    obtain ⟨m, hm⟩ := chainWork_exec hab han hbn sched _ m0 h0
    obtain ⟨ext, he⟩ := chainWork_complete hab han hbn m _ hm
      (chainInv_exec hab han hbn sched _ hinit)
    exact ⟨ext, by rw [exec_append]; exact he⟩
  · rw [hsys, chain_full f1 f2 a heap.length b hab han hbn xs _ ta R tb [] hN ha' hn' hb'
      (fun m hm => by apply hroom m; simpa using hm)]
    rfl

theorem composite_same_as_manual_chain_witness :
    qOf (exec (chainSched 1)
      ((compositeOfTwo (σ := Unit) 0 0 0 1 (fun x => x * 2) (fun x => x + 1)
          [⟨0, [7]⟩, ⟨0, []⟩]).2.2.start.system none
        (compositeOfTwo (σ := Unit) 0 0 0 1 (fun x => x * 2) (fun x => x + 1)
          [⟨0, [7]⟩, ⟨0, []⟩]).2.1)).chans 1 = [15] :=
  (composite_same_as_manual_chain (σ := Unit) none [⟨0, [7]⟩, ⟨0, []⟩] 0 0 0 0 0 1 (fun x => x * 2)
    (fun x => x + 1) [7] (by decide) rfl rfl (fun _ _ => rfl)).2.2.2.2.2

/-- Claim C8, amended: for a started `SimplePipeline` built from `k >= 0`
successful `add_data_filter` calls whose last boundary channel has the sink
element type, fed by `put` with `v1..vn`: under every schedule the values
returned by `get` are, in order, a prefix of `fk(...f1(vi)...)`; every schedule,
whatever it has done so far, can be continued so that `get` has returned all `n`
of them, the `i`-th being `fk(...f1(vi)...)` (channels hold at least one value);
the schedule that carries one value after the other is one such; `get` returns
no value while the last channel is empty; `put` appends to the first channel and
`get` removes the head of the last one. -/
theorem put_get_fifo {α σ : Type} (cap : Option Nat) (srcTy sinkTy : Ty)
    (fs : List (Ty × (α → α))) (vs : List α) (hroom : hasRoom cap 0 = true)
    (hty : sinkTy = lastTy srcTy fs) :
    (∀ sched, (drive sched (putGetRun (σ := σ) cap srcTy sinkTy fs vs)).got <+:
        vs.map (applyAll fs)) ∧
    (∀ sched, ∃ ext, (drive (sched ++ ext) (putGetRun (σ := σ) cap srcTy sinkTy fs vs)).got =
        vs.map (applyAll fs)) ∧
    (drive (fullSched fs.length vs.length) (putGetRun (σ := σ) cap srcTy sinkTy fs vs)).got =
        vs.map (applyAll fs) ∧
    (∀ sched v p', qOf (drive sched (putGetRun (σ := σ) cap srcTy sinkTy fs vs)).p.chans
        fs.length = [] →
      (drive sched (putGetRun (σ := σ) cap srcTy sinkTy fs vs)).p.get ≠ Outcome.done (v, p')) ∧
    (∀ sched v p', (drive sched (putGetRun (σ := σ) cap srcTy sinkTy fs vs)).p.put v =
        Outcome.done p' →
      qOf p'.chans 0 =
        qOf (drive sched (putGetRun (σ := σ) cap srcTy sinkTy fs vs)).p.chans 0 ++ [v]) ∧
    (∀ sched v p', (drive sched (putGetRun (σ := σ) cap srcTy sinkTy fs vs)).p.get =
        Outcome.done (v, p') →
      qOf (drive sched (putGetRun (σ := σ) cap srcTy sinkTy fs vs)).p.chans fs.length =
        v :: qOf p'.chans fs.length) := by
  have hinv := fun sched => runInv_drive sched _ _ _ (runInv_init (σ := σ) cap srcTy sinkTy fs vs)
  refine ⟨?_, run_completes cap srcTy sinkTy fs vs hroom hty, ?_, ?_, ?_, ?_⟩
  · intro sched
    exact ⟨_, (hinv sched).eq⟩
  · rw [idle_full cap srcTy sinkTy fs hroom hty vs _ (idle_init cap srcTy sinkTy fs vs) rfl]
    rfl
  · intro sched v p' hq hg
    rw [get_done_spec (hinv sched) hg] at hq
    simp at hq
  · intro sched v p' hp
    exact put_done_spec (hinv sched) hp
  · intro sched v p' hg
    exact get_done_spec (hinv sched) hg

theorem put_get_fifo_witness :
    (drive (fullSched 2 3)
      (putGetRun (some 1) 0 2 [(1, fun x => x * 2), (2, fun x => x + 1)] [7, 1, 2] :
        Run Nat Unit)).got = [15, 3, 5] :=
  (put_get_fifo (some 1) 0 2 [(1, fun x => x * 2), (2, fun x => x + 1)] [7, 1, 2] rfl rfl).2.2.1

end Pipeline04
